import Mathlib

/-!
Verification of the Cell memory allocator core (cell pool, sub-cell bins,
buddy allocator, large registry, tier router) against its specification.

The C++ sources are shallowly embedded as executable Lean functions over
explicit state records.  Machine integers (`size_t`) are modelled as `Nat`,
with an explicit `% 2 ^ 64` exactly where 64-bit wrap-around can occur
(`align_up`).  Pointers inside the cell / buddy regions are modelled as
byte offsets from the region base (the C code works with `ptr - m_base`
offsets in every place where the numeric value matters); large-registry
pointers are modelled as abstract addresses handed out by an OS counter.
Intrusive linked lists that the C code threads through free memory
(`FreeBlock::next`, `FreeCell::next`, `CellMetadata::free_list`,
`next_partial`) are modelled as Lean `List`s held next to the rest of the
state: their nodes live only in memory that is free, so no claim about the
contents of live allocations depends on them.  Locks are elided: every
theorem is about the sequential behaviour of a completed operation, which
is what the per-bin / buddy / registry mutexes guarantee.
-/

namespace Cell

/-- Wrap-around modulus of the 64-bit `size_t` arithmetic. -/
def U64 : Nat := 2 ^ 64

/-! ## Constants from `config.h` -/

/-- Log2 of the cell size (`kCellSizeLog2 = 14`). -/
def kCellSizeLog2 : Nat := 14

/-- Cell size in bytes: `1 << kCellSizeLog2` = 16384. -/
def kCellSize : Nat := 1 <<< kCellSizeLog2

/-- Log2 of the superblock size (`kSuperblockSizeLog2 = 21`). -/
def kSuperblockSizeLog2 : Nat := 21

/-- Superblock size in bytes: 2 MiB. -/
def kSuperblockSize : Nat := 1 <<< kSuperblockSizeLog2

/-- Number of cells carved from each superblock (128). -/
def kCellsPerSuperblock : Nat := kSuperblockSize / kCellSize

/-- Capacity of the per-thread cell cache. -/
def kTlsCacheCapacity : Nat := 64

/-- Number of bins with a per-thread block cache (bins 0-8). -/
def kTlsBinCacheCount : Nat := 9

/-- Capacity of each per-thread bin cache. -/
def kTlsBinCacheCapacity : Nat := 32

/-- Number of blocks a batch refill moves at once. -/
def kTlsBinBatchRefill : Nat := 16

/-- Number of sub-cell size-class bins. -/
def kNumSizeBins : Nat := 10

/-- Minimum sub-cell block size in bytes. -/
def kMinBlockSize : Nat := 16

/-- Maximum size served by the sub-cell bins. -/
def kMaxSubCellSize : Nat := 8192

/-- The size-class table `{16, 32, 64, 128, 256, 512, 1024, 2048, 4096, 8192}`
    (`kSizeClasses[i]`); indices past the C array are never read by the code
    paths modelled here and default to 0. -/
def kSizeClasses (i : Nat) : Nat :=
  [16, 32, 64, 128, 256, 512, 1024, 2048, 4096, 8192].getD i 0

/-- Number of warm (fully empty) cells each bin retains. -/
def kWarmCellsPerBin : Nat := 2

/-- Sentinel value of `CellHeader::size_class` marking a full-cell
    allocation (`0xFF`). -/
def kFullCellMarker : Nat := 255

/-! ## Size-class lookup from `sub_cell.h` -/

/-- The helper `align_up(size, alignment) = (size + alignment - 1) &
    ~(alignment - 1)` in 64-bit `size_t` arithmetic, for a power-of-two
    `alignment`: the sum wraps modulo `2 ^ 64` and the mask rounds the
    wrapped value down to a multiple of `alignment`. -/
def align_up (size alignment : Nat) : Nat :=
  ((size + alignment - 1) % U64) / alignment * alignment

/-- The bin-scan loop of `get_size_class`: starting at bin `i` with `fuel`
    bins left to inspect, return the first bin whose size is at least the
    (already rounded) `size` and at least `alignment`, else the full-cell
    marker.  The C loop runs `i` from 0 to `kNumSizeBins - 1`; `fuel`
    counts the remaining iterations, so the entry point uses
    `scanBins size alignment 0 kNumSizeBins`. -/
def scanBins (size alignment : Nat) : Nat → Nat → Nat
  | _, 0 => kFullCellMarker
  | i, fuel + 1 =>
    if kSizeClasses i ≥ size ∧ kSizeClasses i ≥ alignment then i
    else scanBins size alignment (i + 1) fuel

/-- The general size-class lookup `get_size_class(size, alignment)`:
    round up to the alignment, clamp to the minimum block size, then scan
    the bins. -/
def get_size_class (size alignment : Nat) : Nat :=
  let s := align_up size alignment
  let s := if s < kMinBlockSize then kMinBlockSize else s
  scanBins s alignment 0 kNumSizeBins

/-- Bit length of a 64-bit value computed with `fuel` halving steps; with
    `fuel = 64` this is `64 - __builtin_clzll v` for `0 < v < 2 ^ 64`, the
    quantity the fast lookup computes. -/
def bitLenGo : Nat → Nat → Nat
  | 0, _ => 0
  | fuel + 1, n => if n = 0 then 0 else bitLenGo fuel (n / 2) + 1

/-- The fast size-class lookup `get_size_class_fast(size)`: clamp to the
    minimum, reject sizes above the largest bin, then take
    `order = 64 - clz(size - 1)` (0 when `size - 1 = 0`), clamp the order
    to 4 and return `order - 4`. -/
def get_size_class_fast (size : Nat) : Nat :=
  let size := if size < kMinBlockSize then kMinBlockSize else size
  if size > kMaxSubCellSize then kFullCellMarker
  else
    let v := size - 1
    let order := if v = 0 then 0 else bitLenGo 64 v
    let order := if order < 4 then 4 else order
    order - 4

/-- Modelled from the spec: `kBlockStartOffset`, the byte offset of the
    first sub-cell block inside a cell, is defined in `cell.h`, which is not
    among the repository's files (only its users are).  Per the spec's data
    model the offset covers the mandatory `CellHeader` (tag, size_class,
    free_count and debug fields) followed by the `CellMetadata`
    (`next_partial` and `free_list`, two 8-byte pointers); 32 bytes keeps
    the first block 16-byte aligned as the alignment contract requires.
    No claim below depends on the exact value, only on
    `kMaxSubCellSize < kCellSize - kBlockStartOffset < kCellSize`. -/
def kBlockStartOffset : Nat := 32

/-- Blocks per cell for a bin: `(kCellSize - kBlockStartOffset) /
    kSizeClasses[bin]` (`blocks_per_cell`). -/
def blocks_per_cell (bin : Nat) : Nat :=
  (kCellSize - kBlockStartOffset) / kSizeClasses bin

/-! ## Buddy allocator (`buddy.h` and its translation unit)

Block pointers are modelled as byte offsets from `m_base`; the C code
computes the buddy of a block from exactly this offset
(`(block - base) ^ (1 << order)`).  The per-order doubly-linked free lists
become `List Nat` (head insertion, unlink anywhere); the 8-byte
`BlockHeader` written in front of every live allocation becomes the map
`headers : Nat → Option Nat` from a live block's offset to its recorded
order (reading the header of a block the allocator never handed out is
undefined behaviour in the C code and `free` has no defined result there).
-/

namespace BuddyAllocator

/-- Minimum order: `2 ^ 15` = 32 KiB. -/
def kMinOrder : Nat := 15

/-- Maximum order: `2 ^ 21` = 2 MiB (one superblock). -/
def kMaxOrder : Nat := 21

/-- Number of orders (7). -/
def kNumOrders : Nat := kMaxOrder - kMinOrder + 1

/-- Minimum block size (32 KiB). -/
def kMinBlockSize : Nat := 1 <<< kMinOrder

/-- Maximum block size / superblock size (2 MiB). -/
def kMaxBlockSize : Nat := 1 <<< kMaxOrder

/-- Size of the `BlockHeader` placed in front of every allocation. -/
def kHeaderSize : Nat := 8

/-- State of a `BuddyAllocator`: the reserved and committed extents of its
    region, the statistics counters, the per-order free lists and the
    headers of the live blocks. -/
structure State where
  reserved : Nat
  committed : Nat
  superblockCount : Nat
  allocated : Nat
  freeLists : Nat → List Nat
  headers : Nat → Option Nat

/-- The constructor `BuddyAllocator(base, reserved_size)`: empty free
    lists, nothing committed. -/
def init (reserved : Nat) : State :=
  { reserved := reserved, committed := 0, superblockCount := 0, allocated := 0,
    freeLists := fun _ => [], headers := fun _ => none }

/-- `add_to_free_list`: head insertion into the order's list. -/
def flAdd (fl : Nat → List Nat) (o a : Nat) : Nat → List Nat :=
  fun i => if i = o then a :: fl i else fl i

/-- `remove_from_free_list`: unlink a block from the order's list
    (`List.erase` removes the first occurrence, and the lists hold no
    duplicates in any reachable state). -/
def flRemove (fl : Nat → List Nat) (o a : Nat) : Nat → List Nat :=
  fun i => if i = o then (fl i).erase a else fl i

/-- The doubling loop of `size_to_order`: `fuel` counts the remaining
    iterations, so `order < kMaxOrder` in the C condition becomes
    `fuel > 0` (the entry point passes `fuel = kMaxOrder - kMinOrder`). -/
def size_to_orderGo (size : Nat) : Nat → Nat → Nat
  | order, 0 => order
  | order, fuel + 1 =>
    if 1 <<< order < size then size_to_orderGo size (order + 1) fuel else order

/-- `size_to_order`: the smallest order whose block holds `size`, clamped
    at `kMaxOrder` by the loop's `order < kMaxOrder` condition. -/
def size_to_order (size : Nat) : Nat :=
  if size ≤ kMinBlockSize then kMinOrder
  else size_to_orderGo size kMinOrder (kMaxOrder - kMinOrder)

/-- `get_buddy`: XOR of the block's offset from the region base with the
    block size. -/
def get_buddy (ptr order : Nat) : Nat := ptr ^^^ (1 <<< order)

/-- `grow`: commit one more `kMaxBlockSize` superblock at the committed
    end of the region and push it onto the top free list; fails only when
    the reserved space is exhausted. -/
def grow (s : State) : Option State :=
  if s.committed + kMaxBlockSize > s.reserved then none
  else some { s with
    committed := s.committed + kMaxBlockSize,
    superblockCount := s.superblockCount + 1,
    freeLists := flAdd s.freeLists kMaxOrder s.committed }

/-- The scan of `alloc` for the first non-empty free list at order ≥ `o`
    (`fuel = kMaxOrder + 1 - o` at the entry point). -/
def findFrom (fl : Nat → List Nat) : Nat → Nat → Option Nat
  | _, 0 => none
  | o, fuel + 1 => if fl o ≠ [] then some o else findFrom fl (o + 1) fuel

/-- The split loop of `alloc`: while `o > order`, decrement `o` and push
    the upper half `block + 2 ^ o` onto the free list of order `o`
    (`fuel = o - order` at the entry point). -/
def splitGo (fl : Nat → List Nat) (block : Nat) : Nat → Nat → (Nat → List Nat)
  | _, 0 => fl
  | o, fuel + 1 => splitGo (flAdd fl (o - 1) (block + 1 <<< (o - 1))) block (o - 1) fuel

/-- One successful round of `alloc` once the scan found a non-empty list
    at order `o`: pop the list head, split down to `order`, record the
    header and hand out `block + kHeaderSize`.  (The `[]` branch is never
    reached: the caller established that the list is non-empty.) -/
def allocAt (s : State) (order o : Nat) : State × Option Nat :=
  match s.freeLists o with
  | [] => (s, none)
  | block :: _ =>
    let fl := flRemove s.freeLists o block
    let fl := splitGo fl block o (o - order)
    ({ s with freeLists := fl,
              headers := fun a => if a = block then some order else s.headers a,
              allocated := s.allocated + 1 <<< order },
     some (block + kHeaderSize))

/-- `BuddyAllocator::alloc`: reject size 0, compute the order (the
    `order > kMaxOrder` test is kept although `size_to_order` clamps),
    scan the free lists, and on a miss grow by one superblock and rescan
    (after a successful `grow` the top list is non-empty, so the rescan
    always succeeds; the final `none` branch is unreachable). -/
def alloc (s : State) (size : Nat) : State × Option Nat :=
  if size = 0 then (s, none)
  else
    let totalSize := size + kHeaderSize
    let order := size_to_order totalSize
    if order > kMaxOrder then (s, none)
    else
      match findFrom s.freeLists order (kMaxOrder + 1 - order) with
      | some o => allocAt s order o
      | none =>
        match grow s with
        | none => (s, none)
        | some s₁ =>
          match findFrom s₁.freeLists order (kMaxOrder + 1 - order) with
          | some o => allocAt s₁ order o
          | none => (s₁, none)

/-- The coalescing loop of `free`: while `order < kMaxOrder`
    (`fuel = kMaxOrder - order` at the entry point), compute the buddy;
    stop when it lies at or past the committed end or is not in the free
    list of the current order; otherwise unlink it, continue from
    `min ptr buddy` one order up. -/
def mergeGo (committed : Nat) :
    (Nat → List Nat) → Nat → Nat → Nat → Nat × Nat × (Nat → List Nat)
  | fl, ptr, order, 0 => (ptr, order, fl)
  | fl, ptr, order, fuel + 1 =>
    let buddy := get_buddy ptr order
    if buddy ≥ committed then (ptr, order, fl)
    else if buddy ∈ fl order then
      mergeGo committed (flRemove fl order buddy) (min ptr buddy) (order + 1) fuel
    else (ptr, order, fl)

/-- `BuddyAllocator::free`: null (offset 0 is never a user pointer, the
    lowest one is `kHeaderSize`) is a no-op; otherwise read the header's
    order, coalesce upward and push the merged block.  `none` models the
    undefined behaviour of freeing a pointer whose header the allocator
    never wrote. -/
def free (s : State) (user : Nat) : Option State :=
  if user = 0 then some s
  else
    let ptr := user - kHeaderSize
    match s.headers ptr with
    | none => none
    | some order =>
      let s₁ : State := { s with
        allocated := s.allocated - 1 <<< order,
        headers := fun a => if a = ptr then none else s.headers a }
      match mergeGo s₁.committed s₁.freeLists ptr order (kMaxOrder - order) with
      | (p, o, fl) => some { s₁ with freeLists := flAdd fl o p }

/-- `owns`: the committed range test. -/
def owns (s : State) (ptr : Nat) : Prop := ptr < s.committed

/-- Modelled from the spec: `get_alloc_size`, used by the router's realloc
    paths, is declared in the newer `buddy.h` which is not among the
    repository's files; per the spec a block's recorded size is
    `2 ^ order` from its header. -/
def get_alloc_size (s : State) (user : Nat) : Nat :=
  match s.headers (user - kHeaderSize) with
  | some order => 1 <<< order
  | none => 0

/-! ### Well-formedness of a buddy state

The predicates used by the coalescing-invariant theorems.  `Disj` is byte
range disjointness; `ListsWF` collects the facts that hold of the free
lists and live headers in every reachable state; `GoodBlock` describes a
block the coalescing and splitting loops currently hold outside of any
list. -/

/-- The byte ranges `[a, a + la)` and `[b, b + lb)` are disjoint. -/
def Disj (a la b lb : Nat) : Prop := a + la ≤ b ∨ b + lb ≤ a

/-- Well-formedness of the free lists `fl` and the live-block headers
    `hdr` of a buddy region whose committed prefix is `committed`:
    every free block and every live block has an order in
    `[kMinOrder, kMaxOrder]`, is aligned to its size and lies inside the
    committed prefix; all of these blocks are pairwise disjoint; and below
    the maximum order no two free blocks of one order are buddies. -/
structure ListsWF (committed : Nat) (fl : Nat → List Nat) (hdr : Nat → Option Nat) : Prop where
  fr : ∀ o a, a ∈ fl o → kMinOrder ≤ o ∧ o ≤ kMaxOrder ∧ 2 ^ o ∣ a ∧ a + 2 ^ o ≤ committed
  nd : ∀ o, (fl o).Nodup
  ff : ∀ o₁ a₁ o₂ a₂, a₁ ∈ fl o₁ → a₂ ∈ fl o₂ → (o₁ ≠ o₂ ∨ a₁ ≠ a₂) →
    Disj a₁ (2 ^ o₁) a₂ (2 ^ o₂)
  hr : ∀ b o, hdr b = some o → kMinOrder ≤ o ∧ o ≤ kMaxOrder ∧ 2 ^ o ∣ b ∧ b + 2 ^ o ≤ committed
  hh : ∀ b₁ o₁ b₂ o₂, hdr b₁ = some o₁ → hdr b₂ = some o₂ → b₁ ≠ b₂ →
    Disj b₁ (2 ^ o₁) b₂ (2 ^ o₂)
  fh : ∀ o a b ob, a ∈ fl o → hdr b = some ob → Disj a (2 ^ o) b (2 ^ ob)
  nb : ∀ o a₁ a₂, o < kMaxOrder → a₁ ∈ fl o → a₂ ∈ fl o → a₁ ≠ a₂ → a₁ ^^^ 2 ^ o ≠ a₂

/-- A block `[a, a + 2 ^ o)` held by a loop outside of every list: in
    range, aligned, disjoint from every free block and every live block. -/
def GoodBlock (committed : Nat) (fl : Nat → List Nat) (hdr : Nat → Option Nat)
    (a o : Nat) : Prop :=
  kMinOrder ≤ o ∧ o ≤ kMaxOrder ∧ 2 ^ o ∣ a ∧ a + 2 ^ o ≤ committed ∧
  (∀ o' x, x ∈ fl o' → Disj a (2 ^ o) x (2 ^ o')) ∧
  (∀ b ob, hdr b = some ob → Disj a (2 ^ o) b (2 ^ ob))

/-- Well-formedness of a whole buddy state: the committed prefix is a
    whole number of superblocks and the lists and headers are
    well-formed. -/
def WFB (s : State) : Prop :=
  2 ^ kMaxOrder ∣ s.committed ∧ ListsWF s.committed s.freeLists s.headers

/-- The coalescing invariant as claimed, restricted below the maximum
    order: no two distinct free blocks of one order `o < kMaxOrder` are
    buddies of one another. -/
def NoSameOrderBuddies (s : State) : Prop :=
  ∀ o a₁ a₂, o < kMaxOrder → a₁ ∈ s.freeLists o → a₂ ∈ s.freeLists o → a₁ ≠ a₂ →
    get_buddy a₁ o ≠ a₂

/-- A concrete run used against the unrestricted form of the coalescing
    claim: allocate two full superblocks (each `alloc` commits one), then
    free both; the two 2 MiB blocks end up on the top free list and are
    buddies of one another by the XOR rule. -/
def c8Trace : Option State :=
  let s0 := init (2 * kMaxBlockSize)
  let r1 := alloc s0 (kMaxBlockSize - kHeaderSize)
  let r2 := alloc r1.1 (kMaxBlockSize - kHeaderSize)
  (free r2.1 kHeaderSize).bind fun s => free s (kMaxBlockSize + kHeaderSize)

/-- The state after `c8Trace` (the trace does complete). -/
def c8Final : State := c8Trace.getD (init 0)

end BuddyAllocator

/-! ## Cell pool (`allocator.h` / `allocator.cpp`)

Cell pointers are modelled as byte offsets from the (cell-size aligned)
region base.  The thread-local cell cache and the lock-free global Treiber
stack both become lists with their top at the head; the per-superblock
state and free-cell counters become maps indexed by superblock number.
The model is the sequential behaviour: every CAS succeeds first try. -/

namespace Allocator

/-- State of a superblock (`SuperblockState`). -/
inductive SbState where
  | Uncommitted
  | InUse
  | Free
  | Decommitted
deriving DecidableEq

/-- Maximum number of tracked superblocks. -/
def kMaxSuperblocks : Nat := 8192

/-- State of an `Allocator` (the cell pool). -/
structure State where
  reservedSize : Nat
  numSuperblocks : Nat
  committedEnd : Nat
  sbStates : Nat → SbState
  freeCells : Nat → Nat
  tlsCache : List Nat
  globalStack : List Nat

/-- The constructor: compute the superblock count (clamped to
    `kMaxSuperblocks`, shrinking the usable reservation accordingly) and
    mark every superblock uncommitted.  The Linux base-alignment
    adjustment is absorbed by the offset model (offset 0 is the aligned
    base). -/
def init (reservedSize : Nat) : State :=
  let n0 := reservedSize / kSuperblockSize
  let n := if n0 > kMaxSuperblocks then kMaxSuperblocks else n0
  let rs := if n0 > kMaxSuperblocks then kMaxSuperblocks * kSuperblockSize else reservedSize
  { reservedSize := rs, numSuperblocks := n, committedEnd := 0,
    sbStates := fun _ => SbState.Uncommitted, freeCells := fun _ => 0,
    tlsCache := [], globalStack := [] }

/-- `get_superblock_index` on offsets. -/
def get_superblock_index (ptr : Nat) : Nat := ptr / kSuperblockSize

/-- The cells a freshly committed superblock contributes to the global
    stack: cells 1 … `kCellsPerSuperblock - 1` are pushed in index order,
    so cell `kCellsPerSuperblock - 1` ends up on top; cell 0 is returned
    to the caller directly. -/
def carveCells (sbStart : Nat) : List Nat :=
  (((List.range kCellsPerSuperblock).drop 1).reverse).map fun i => sbStart + i * kCellSize

/-- The scan of `refill_from_os` for a decommitted superblock: the first
    index `i` with `sbStates i = Decommitted` (`fuel` starts at
    `numSuperblocks`). -/
def findDec (st : Nat → SbState) : Nat → Nat → Option Nat
  | _, 0 => none
  | i, fuel + 1 =>
    if st i = SbState.Decommitted then some i else findDec st (i + 1) fuel

/-- The bookkeeping `alloc` performs when the cell came from a tier-1/2
    pool: decrement the superblock's free counter, and on the
    full-free-to-used transition mark it `InUse`
    (`fetch_sub` returns the old value, hence the comparison with
    `kCellsPerSuperblock`). -/
def noteFromPool (s : State) (c : Nat) : State :=
  let idx := get_superblock_index c
  if idx < s.numSuperblocks then
    let oldFree := s.freeCells idx
    let s₁ := { s with freeCells := fun j => if j = idx then oldFree - 1 else s.freeCells j }
    if oldFree = kCellsPerSuperblock then
      { s₁ with sbStates := fun j => if j = idx then SbState.InUse else s.sbStates j }
    else s₁
  else s

/-- `refill_from_os`: first scan for a `Decommitted` superblock, recommit
    it (mark `InUse`, reset its free counter, re-carve its cells) without
    touching the committed-end cursor; only when none exists claim one
    fresh superblock at the cursor (failing when the reservation is
    exhausted), commit it and carve it.  In both carve paths cell 0 is
    returned and cells 1 … 127 go onto the global stack. -/
def refill_from_os (s : State) : State × Option Nat :=
  match findDec s.sbStates 0 s.numSuperblocks with
  | some i =>
    ({ s with
        sbStates := fun j => if j = i then SbState.InUse else s.sbStates j,
        freeCells := fun j => if j = i then kCellsPerSuperblock - 1 else s.freeCells j,
        globalStack := carveCells (i * kSuperblockSize) ++ s.globalStack },
     some (i * kSuperblockSize))
  | none =>
    if s.committedEnd + kSuperblockSize > s.reservedSize then (s, none)
    else
      let idx := s.committedEnd / kSuperblockSize
      ({ s with
          committedEnd := s.committedEnd + kSuperblockSize,
          sbStates := fun j => if j = idx then SbState.InUse else s.sbStates j,
          freeCells := fun j => if j = idx then kCellsPerSuperblock - 1 else s.freeCells j,
          globalStack := carveCells s.committedEnd ++ s.globalStack },
       some s.committedEnd)

/-- `Allocator::alloc`: thread cache first, then the global stack, then
    `refill_from_os`; a cell from tier 1 or 2 updates the superblock
    occupancy. -/
def alloc (s : State) : State × Option Nat :=
  match s.tlsCache with
  | c :: rest => (noteFromPool { s with tlsCache := rest } c, some c)
  | [] =>
    match s.globalStack with
    | c :: rest => (noteFromPool { s with globalStack := rest } c, some c)
    | [] => refill_from_os s

/-- `Allocator::free` (the caller has already dealt with null): update the
    superblock occupancy (marking `Free` on the transition to all-free),
    then return the cell to the thread cache if it has room, else to the
    global stack. -/
def free (s : State) (ptr : Nat) : State :=
  let idx := get_superblock_index ptr
  let s₁ :=
    if idx < s.numSuperblocks then
      let newFree := s.freeCells idx + 1
      let s₂ := { s with freeCells := fun j => if j = idx then newFree else s.freeCells j }
      if newFree = kCellsPerSuperblock then
        { s₂ with sbStates := fun j => if j = idx then SbState.Free else s.sbStates j }
      else s₂
    else s
  if s₁.tlsCache.length < kTlsCacheCapacity then
    { s₁ with tlsCache := ptr :: s₁.tlsCache }
  else
    { s₁ with globalStack := ptr :: s₁.globalStack }

/-- `flush_tls_cache`: pop the thread cache one cell at a time, pushing
    each onto the global stack. -/
def flush_tls_cache (s : State) : State :=
  { s with tlsCache := [], globalStack := s.tlsCache.reverse ++ s.globalStack }

/-- A concrete pool state for the C7 witness: four reserved superblocks,
    two already committed, superblock 1 decommitted. -/
def c7s : State :=
  { init (4 * kSuperblockSize) with
    committedEnd := 2 * kSuperblockSize,
    sbStates := fun j => if j = 1 then SbState.Decommitted else SbState.Uncommitted }

end Allocator

/-- Byte-level model of `std::memcpy(dst, src, n)` over a memory
    `Nat → Nat`: addresses in `[dst, dst + n)` read the source bytes, all
    others are untouched (the source and destination ranges of every copy
    in this development are disjoint, so reading the pre-copy source is
    exact). -/
def memcpy (dst src n : Nat) (mem : Nat → Nat) : Nat → Nat :=
  fun a => if dst ≤ a ∧ a < dst + n then mem (src + (a - dst)) else mem a

namespace BuddyAllocator

/-- Modelled from the spec: `BuddyAllocator::realloc_bytes` is declared in
    the newer `buddy.h`, which is not among the repository's files.  The
    spec fixes its baseline behaviour: allocate-copy-free (the in-place
    path is an optional optimization the baseline omits), copying
    `min(old usable, new)` bytes, with the original block untouched and
    null returned on allocation failure. -/
def realloc_bytes (s : State) (mem : Nat → Nat) (base user newSize : Nat) :
    State × (Nat → Nat) × Option Nat :=
  match alloc s newSize with
  | (s₁, none) => (s₁, mem, none)
  | (s₁, some q) =>
    let oldUsable := get_alloc_size s user - kHeaderSize
    let copySize := min oldUsable newSize
    match free s₁ user with
    | none => (s₁, memcpy (base + q) (base + user) copySize mem, some q)
    | some s₂ => (s₂, memcpy (base + q) (base + user) copySize mem, some q)

end BuddyAllocator

/-! ## Large registry (`large.h` / `large.cpp`)

The registry's hash map becomes an association list with unique keys; the
OS is modelled as a bump counter of fresh addresses (`nextPtr`) plus a
flag `osOk` standing for whether `mmap` / `VirtualAlloc` succeed — the
only liberty taken, since the OS contract allows either outcome.  The
`memcpy` of `realloc_bytes` acts on an explicit memory argument. -/

namespace LargeAllocRegistry

/-- Minimum size for large allocations (2 MiB). -/
def kMinLargeSize : Nat := 2 * 1024 * 1024

/-- The `LargeAlloc` record of `large.h`. -/
structure LargeAlloc where
  size : Nat
  originalPtr : Nat
  tag : Nat
  hugePages : Bool
  aligned : Bool
deriving DecidableEq

/-- State of a `LargeAllocRegistry` plus its OS model. -/
structure State where
  allocs : List (Nat × LargeAlloc)
  totalAllocated : Nat
  nextPtr : Nat
  osOk : Bool

/-- A fresh registry whose OS hands out addresses from `firstPtr` up. -/
def init (firstPtr : Nat) : State :=
  { allocs := [], totalAllocated := 0, nextPtr := firstPtr, osOk := true }

/-- `m_allocs.find(ptr)`. -/
def lookup (s : State) (ptr : Nat) : Option LargeAlloc :=
  (s.allocs.find? fun e => e.1 == ptr).map (·.2)

/-- `m_allocs.erase(ptr)` (keys are unique in every reachable state). -/
def eraseKey (l : List (Nat × LargeAlloc)) (ptr : Nat) : List (Nat × LargeAlloc) :=
  l.filter fun e => !(e.1 == ptr)

/-- `LargeAllocRegistry::alloc`: obtain OS memory (huge pages are
    attempted, and in this OS model granted, for sizes of at least
    `kMinLargeSize`), record the entry under the user pointer. -/
def alloc (s : State) (size tag : Nat) (tryHuge : Bool) : State × Option Nat :=
  if size = 0 then (s, none)
  else if s.osOk = false then (s, none)
  else
    let usedHuge := tryHuge && decide (size ≥ kMinLargeSize)
    let ptr := s.nextPtr
    ({ s with
        allocs := (ptr, ⟨size, ptr, tag, usedHuge, false⟩) :: eraseKey s.allocs ptr,
        totalAllocated := s.totalAllocated + size,
        nextPtr := s.nextPtr + size },
     some ptr)

/-- `LargeAllocRegistry::free`: null and unknown pointers are no-ops;
    otherwise erase the entry and release the memory. -/
def free (s : State) (ptr : Nat) : State :=
  if ptr = 0 then s
  else
    match lookup s ptr with
    | none => s
    | some r =>
      { s with allocs := eraseKey s.allocs ptr,
               totalAllocated := s.totalAllocated - r.size }

/-- `LargeAllocRegistry::realloc_bytes`: null behaves as `alloc` (with the
    caller's tag), size 0 as `free`; otherwise look the pointer up — an
    unknown pointer is a failed no-op — and allocate-copy-free, passing
    the looked-up entry's ORIGINAL tag (`old_tag`) to the allocation; the
    `tag` parameter is not used on this path. -/
def realloc_bytes (s : State) (mem : Nat → Nat) (ptr newSize tag : Nat) :
    State × (Nat → Nat) × Option Nat :=
  if ptr = 0 then
    match alloc s newSize tag true with
    | (s₁, q) => (s₁, mem, q)
  else if newSize = 0 then (free s ptr, mem, none)
  else
    match lookup s ptr with
    | none => (s, mem, none)
    | some r =>
      match alloc s newSize r.tag true with
      | (s₁, none) => (s₁, mem, none)
      | (s₁, some q) =>
        let copySize := min r.size newSize
        (free s₁ ptr, memcpy q ptr copySize mem, some q)

/-- `LargeAllocRegistry::alloc_aligned`: validate the alignment, obtain
    aligned OS memory, record the entry with `aligned = true`. -/
def alloc_aligned (s : State) (size alignment tag : Nat) : State × Option Nat :=
  if size = 0 ∨ alignment = 0 then (s, none)
  else if alignment &&& (alignment - 1) ≠ 0 then (s, none)
  else if s.osOk = false then (s, none)
  else
    let ptr := (s.nextPtr + alignment - 1) / alignment * alignment
    ({ s with
        allocs := (ptr, ⟨size, ptr, tag, false, true⟩) :: eraseKey s.allocs ptr,
        totalAllocated := s.totalAllocated + size,
        nextPtr := ptr + size },
     some ptr)

/-- `owns`: a presence test under the lock. -/
def owns (s : State) (ptr : Nat) : Bool := (lookup s ptr).isSome

/-- Modelled from the spec: `get_alloc_size`, used by the router, is
    declared in the newer `large.h` which is not among the repository's
    files; per the spec it is a "lookup returning the recorded size". -/
def get_alloc_size (s : State) (ptr : Nat) : Nat :=
  match lookup s ptr with
  | some r => r.size
  | none => 0

/-- A concrete registry holding one 64-byte allocation at address 1000
    with tag 7; the OS hands out fresh addresses from 5000. -/
def c10s : State :=
  { allocs := [(1000, ⟨64, 1000, 7, false, false⟩)],
    totalAllocated := 64, nextPtr := 5000, osOk := true }

end LargeAllocRegistry

/-! ## The Context router (`context.h` / its translation unit)

The model is the release configuration: `NDEBUG`, and none of
`CELL_DEBUG_GUARDS`, `CELL_DEBUG_LEAKS`, `CELL_ENABLE_STATS`,
`CELL_ENABLE_BUDGET`, `CELL_ENABLE_INSTRUMENTATION` — the observer hooks
are compile-time optional and by the spec must not change functional
semantics.  The two regions get concrete disjoint bases (the constructor
obtains them from `mmap`): cell pointers are `kCellRegionBase + offset`
into the pool, buddy pointers `kBuddyRegionBase + offset`, and the large
registry's OS counter starts above both.  `m_allocator` and `m_buddy` are
modelled as always present (the constructor failed otherwise and every
call would return null), and user memory is the explicit `mem` field. -/

/-- Base address of the cell region (`m_base`). -/
def kCellRegionBase : Nat := 2 ^ 30

/-- Base address of the buddy region (`m_buddy_base`). -/
def kBuddyRegionBase : Nat := 2 ^ 32

/-- First address the large registry's OS model hands out. -/
def kLargePtrBase : Nat := 2 ^ 34

/-- `get_header`: mask a pointer down to its cell start
    (`addr & kCellMask` clears the low `kCellSizeLog2` bits). -/
def get_header (ptr : Nat) : Nat := ptr / kCellSize * kCellSize

/-- Modelled from the spec: `get_block_start(header)` is declared in the
    newer `cell.h`, not among the repository's files; per the spec the
    usable blocks of a cell start `kBlockStartOffset` bytes past the
    header. -/
def get_block_start (header : Nat) : Nat := header + kBlockStartOffset

/-- The per-cell bookkeeping the C code keeps inside the cell's first
    bytes: the `CellHeader` fields `tag`, `size_class`, `free_count` and
    the `CellMetadata` free list (`free_list`, threaded through the free
    blocks, here out of band).  The partial-list link `next_partial` is
    represented by the cell's position in its bin's `partials` list. -/
structure CellRec where
  tag : Nat
  sizeClass : Nat
  freeCount : Nat
  freeList : List Nat
deriving DecidableEq

/-- A `SizeBin`: the intrusive partial-cell list (head first) and the
    counters. -/
structure Bin where
  partials : List Nat
  warmCellCount : Nat
  totalAllocated : Nat
  currentAllocated : Nat
deriving DecidableEq

/-- State of a `Context` plus the thread-local bin caches of the one
    running thread and the user-visible memory. -/
structure Context where
  pool : Allocator.State
  cellInfo : Nat → Option CellRec
  bins : Nat → Bin
  tlsBin : Nat → List Nat
  buddy : BuddyAllocator.State
  large : LargeAllocRegistry.State
  mem : Nat → Nat

namespace Context

/-- The free list `init_cell_for_bin` builds: the loop links the blocks
    back to front, leaving block 0 at the head. -/
def mkFreeList (c bin : Nat) : List Nat :=
  (List.range (blocks_per_cell bin)).map fun i => c + kBlockStartOffset + i * kSizeClasses bin

/-- The `Context` constructor: split the reservation in half, round each
    half down to its natural alignment, hand the halves to the pool and
    the buddy allocator, zero the bins. -/
def init (reserve : Nat) : Context :=
  let cellReserve := reserve / 2 / kSuperblockSize * kSuperblockSize
  let buddyReserve :=
    reserve / 2 / BuddyAllocator.kMaxBlockSize * BuddyAllocator.kMaxBlockSize
  { pool := Allocator.init cellReserve,
    cellInfo := fun _ => none,
    bins := fun _ => ⟨[], 0, 0, 0⟩,
    tlsBin := fun _ => [],
    buddy := BuddyAllocator.init buddyReserve,
    large := LargeAllocRegistry.init kLargePtrBase,
    mem := fun _ => 0 }

/-- `Context::init_cell_for_bin`: write the header (tag, bin index, full
    free count) and build the complete free list. -/
def init_cell_for_bin (ctx : Context) (c bin tag : Nat) : Context :=
  { ctx with cellInfo := fun a =>
      if a = c then some ⟨tag, bin, blocks_per_cell bin, mkFreeList c bin⟩
      else ctx.cellInfo a }

/-- `Context::alloc_cell`: one cell from the pool, header initialized to
    the full-cell sentinel with no sub-cell free list. -/
def alloc_cell (ctx : Context) (tag : Nat) : Context × Option Nat :=
  match Allocator.alloc ctx.pool with
  | (p', none) => ({ ctx with pool := p' }, none)
  | (p', some off) =>
    let c := kCellRegionBase + off
    ({ ctx with
        pool := p',
        cellInfo := fun a =>
          if a = c then some ⟨tag, kFullCellMarker, 0, []⟩ else ctx.cellInfo a },
     some c)

/-- `Context::free_cell`: the cell goes back to the pool; its header
    bytes are dead (stale in the C code) and are dropped from the
    model. -/
def free_cell (ctx : Context) (c : Nat) : Context :=
  { ctx with pool := Allocator.free ctx.pool (c - kCellRegionBase),
             cellInfo := fun a => if a = c then none else ctx.cellInfo a }

/-- The inner drain loop of `batch_refill_tls_bin`:
    `while (to_refill > 0 && !cache.is_full() && free_list)` pop a block
    from the cell's free list and push it onto the TLS cache.  Returns
    the remaining free list, the grown cache and the remaining refill
    budget (the blocks taken are `toRefill` minus the returned budget). -/
def drain : Nat → List Nat → List Nat → List Nat × List Nat × Nat
  | 0, fl, cache => (fl, cache, 0)
  | r + 1, fl, cache =>
    if kTlsBinCacheCapacity ≤ cache.length then (fl, cache, r + 1)
    else
      match fl with
      | [] => ([], cache, r + 1)
      | b :: rest => drain r rest (b :: cache)

/-- The outer loop of `batch_refill_tls_bin` over the partial list: drain
    the head cell, unlink it when it became full, repeat.  One iteration
    that unlinks nothing is final (its exit condition holds), so
    `partials.length + 1` fuel always suffices; a state corrupted enough
    to need more would loop forever in the C code. -/
def refillLoop : Nat → Context → Nat → Nat → Context × Nat
  | 0, ctx, _, r => (ctx, r)
  | fuel + 1, ctx, bin, r =>
    if r = 0 ∨ kTlsBinCacheCapacity ≤ (ctx.tlsBin bin).length then (ctx, r)
    else
      match (ctx.bins bin).partials with
      | [] => (ctx, r)
      | c :: restParts =>
        match ctx.cellInfo c with
        | none => (ctx, r)
        | some cr =>
          match drain r cr.freeList (ctx.tlsBin bin) with
          | (fl', cache', r') =>
            let taken := r - r'
            let cr' : CellRec := { cr with freeList := fl', freeCount := cr.freeCount - taken }
            let b0 := ctx.bins bin
            let ctx' : Context := { ctx with
              cellInfo := fun a => if a = c then some cr' else ctx.cellInfo a,
              tlsBin := fun b => if b = bin then cache' else ctx.tlsBin b,
              bins := fun b => if b = bin then
                  { b0 with
                    partials := if cr'.freeCount = 0 then restParts else b0.partials,
                    totalAllocated := b0.totalAllocated + taken,
                    currentAllocated := b0.currentAllocated + taken }
                else ctx.bins b }
            refillLoop fuel ctx' bin r'

/-- `Context::batch_refill_tls_bin`: drain partial cells into the TLS
    cache, then, if the budget is not yet met and the cache not full, pull
    one fresh cell from the pool, initialize it for the bin, drain it and
    link the remainder as a partial cell. -/
def batch_refill_tls_bin (ctx : Context) (bin tag : Nat) : Context :=
  match refillLoop ((ctx.bins bin).partials.length + 1) ctx bin kTlsBinBatchRefill with
  | (ctx₁, r) =>
    if 0 < r ∧ (ctx₁.tlsBin bin).length < kTlsBinCacheCapacity then
      match Allocator.alloc ctx₁.pool with
      | (p', none) => { ctx₁ with pool := p' }
      | (p', some off) =>
        let c := kCellRegionBase + off
        match drain r (mkFreeList c bin) (ctx₁.tlsBin bin) with
        | (fl', cache', r') =>
          let taken := r - r'
          let cr' : CellRec := ⟨tag, bin, blocks_per_cell bin - taken, fl'⟩
          let b0 := ctx₁.bins bin
          { ctx₁ with
            pool := p',
            cellInfo := fun a => if a = c then some cr' else ctx₁.cellInfo a,
            tlsBin := fun b => if b = bin then cache' else ctx₁.tlsBin b,
            bins := fun b => if b = bin then
                { b0 with
                  partials := if 0 < cr'.freeCount then c :: b0.partials else b0.partials,
                  totalAllocated := b0.totalAllocated + taken,
                  currentAllocated := b0.currentAllocated + taken }
              else ctx₁.bins b }
    else ctx₁

/-- The lock-based tail of `alloc_from_bin`: pop a block from the head
    partial cell, unlinking the cell when it becomes full; with no
    partial cell, pull and initialize a fresh cell from the pool, pop its
    first block and link it as partial when blocks remain.  (A partial
    cell with no recorded header or an empty free list fails the C
    assertion `block && "Partial cell should have free blocks"`; the
    model returns null there.) -/
def allocFromBinGlobal (ctx : Context) (bin tag : Nat) : Context × Option Nat :=
  match (ctx.bins bin).partials with
  | c :: restParts =>
    match ctx.cellInfo c with
    | none => (ctx, none)
    | some cr =>
      match cr.freeList with
      | [] => (ctx, none)
      | blk :: rest =>
        let cr' : CellRec := { cr with freeList := rest, freeCount := cr.freeCount - 1 }
        let b0 := ctx.bins bin
        ({ ctx with
            cellInfo := fun a => if a = c then some cr' else ctx.cellInfo a,
            bins := fun b => if b = bin then
                { b0 with
                  partials := if cr'.freeCount = 0 then restParts else b0.partials,
                  totalAllocated := b0.totalAllocated + 1,
                  currentAllocated := b0.currentAllocated + 1 }
              else ctx.bins b },
         some blk)
  | [] =>
    match Allocator.alloc ctx.pool with
    | (p', none) => ({ ctx with pool := p' }, none)
    | (p', some off) =>
      let c := kCellRegionBase + off
      match mkFreeList c bin with
      | [] => ({ ctx with pool := p' }, none)
      | blk :: rest =>
        let cr' : CellRec := ⟨tag, bin, blocks_per_cell bin - 1, rest⟩
        let b0 := ctx.bins bin
        ({ ctx with
            pool := p',
            cellInfo := fun a => if a = c then some cr' else ctx.cellInfo a,
            bins := fun b => if b = bin then
                { b0 with
                  partials := if 0 < cr'.freeCount then c :: b0.partials else b0.partials,
                  totalAllocated := b0.totalAllocated + 1,
                  currentAllocated := b0.currentAllocated + 1 }
              else ctx.bins b },
         some blk)

/-- `Context::alloc_from_bin`: for the hot bins try the TLS cache, then a
    batch refill, then fall back to the lock-based global path. -/
def alloc_from_bin (ctx : Context) (bin tag : Nat) : Context × Option Nat :=
  if bin < kTlsBinCacheCount then
    match ctx.tlsBin bin with
    | blk :: rest =>
      ({ ctx with tlsBin := fun b => if b = bin then rest else ctx.tlsBin b }, some blk)
    | [] =>
      let ctx₁ := batch_refill_tls_bin ctx bin tag
      match ctx₁.tlsBin bin with
      | blk :: rest =>
        ({ ctx₁ with tlsBin := fun b => if b = bin then rest else ctx₁.tlsBin b }, some blk)
      | [] => allocFromBinGlobal ctx₁ bin tag
  else allocFromBinGlobal ctx bin tag

/-- `Context::free_to_bin`: TLS cache when the bin is hot and the cache
    has room; otherwise push the block back onto its cell's free list,
    maintain the partial list, and either retain a fully empty cell as a
    warm reserve or return it to the pool. -/
def free_to_bin (ctx : Context) (ptr : Nat) : Context :=
  let c := get_header ptr
  match ctx.cellInfo c with
  | none => ctx
  | some cr =>
    let bin := cr.sizeClass
    if bin < kTlsBinCacheCount ∧ (ctx.tlsBin bin).length < kTlsBinCacheCapacity then
      { ctx with tlsBin := fun b => if b = bin then ptr :: ctx.tlsBin b else ctx.tlsBin b }
    else
      let wasFull := cr.freeCount = 0
      let cr' : CellRec := { cr with freeCount := cr.freeCount + 1, freeList := ptr :: cr.freeList }
      let b0 := ctx.bins bin
      if cr'.freeCount = blocks_per_cell bin then
        if b0.warmCellCount < kWarmCellsPerBin then
          { ctx with
            cellInfo := fun a => if a = c then some cr' else ctx.cellInfo a,
            bins := fun b => if b = bin then
                { b0 with
                  partials := if wasFull then c :: b0.partials else b0.partials,
                  warmCellCount := b0.warmCellCount + 1,
                  currentAllocated := b0.currentAllocated - 1 }
              else ctx.bins b }
        else
          { ctx with
            cellInfo := fun a => if a = c then none else ctx.cellInfo a,
            bins := fun b => if b = bin then
                { b0 with
                  partials := b0.partials.erase c,
                  currentAllocated := b0.currentAllocated - 1 }
              else ctx.bins b,
            pool := Allocator.free ctx.pool (c - kCellRegionBase) }
      else
        { ctx with
          cellInfo := fun a => if a = c then some cr' else ctx.cellInfo a,
          bins := fun b => if b = bin then
              { b0 with
                partials := if wasFull then c :: b0.partials else b0.partials,
                currentAllocated := b0.currentAllocated - 1 }
            else ctx.bins b }

/-- `Context::alloc_large`: sizes up to the buddy ceiling go to the buddy
    allocator (whose null is returned as-is — no fallback while `m_buddy`
    exists), larger ones to the large registry. -/
def alloc_large (ctx : Context) (size tag : Nat) : Context × Option Nat :=
  if size = 0 then (ctx, none)
  else if size ≤ BuddyAllocator.kMaxBlockSize then
    match BuddyAllocator.alloc ctx.buddy size with
    | (b', r) => ({ ctx with buddy := b' }, r.map (kBuddyRegionBase + ·))
  else
    match LargeAllocRegistry.alloc ctx.large size tag true with
    | (l', r) => ({ ctx with large := l' }, r)

/-- The full-cell branch shared by `alloc_bytes`'s two callers: a fresh
    cell, header `size_class` set to the sentinel, and the payload start
    (not the header) returned. -/
def allocFullCell (ctx : Context) (tag : Nat) : Context × Option Nat :=
  match alloc_cell ctx tag with
  | (ctx', none) => (ctx', none)
  | (ctx', some c) => (ctx', some (get_block_start c))

/-- The slow sub-cell path of `alloc_bytes`: general size-class lookup,
    then either the alignment-promoted full cell or the bin. -/
def allocBytesSlow (ctx : Context) (size tag alignment : Nat) : Context × Option Nat :=
  let bin := get_size_class size alignment
  if bin = kFullCellMarker then allocFullCell ctx tag
  else alloc_from_bin ctx bin tag

/-- `Context::alloc_bytes`: reject size 0 and alignments that are 0, not
    a power of two, or above 16; then route by size — sub-cell bins up to
    `kMaxSubCellSize` (with the inlined TLS fast path for default-aligned
    sizes up to 4096), a full cell up to the usable cell payload, and
    `alloc_large` beyond. -/
def alloc_bytes (ctx : Context) (size tag alignment : Nat) : Context × Option Nat :=
  if size = 0 then (ctx, none)
  else if alignment = 0 ∨ alignment &&& (alignment - 1) ≠ 0 ∨ 16 < alignment then (ctx, none)
  else if size ≤ kMaxSubCellSize then
    if alignment ≤ 8 ∧ size ≤ 4096 then
      let binF := get_size_class_fast size
      match ctx.tlsBin binF with
      | blk :: rest =>
        ({ ctx with tlsBin := fun b => if b = binF then rest else ctx.tlsBin b }, some blk)
      | [] => allocBytesSlow ctx size tag alignment
    else allocBytesSlow ctx size tag alignment
  else if size ≤ kCellSize - kBlockStartOffset then allocFullCell ctx tag
  else alloc_large ctx size tag

/-- `Context::free_bytes`: null is a no-op; a pointer in the cell region
    takes the inlined TLS fast path or the cell/sub-cell handler; then
    the buddy and large tiers are asked in turn; an unrecognized pointer
    is a no-op. -/
def free_bytes (ctx : Context) (ptr : Nat) : Context :=
  if ptr = 0 then ctx
  else if kCellRegionBase ≤ ptr ∧ ptr < kCellRegionBase + ctx.pool.reservedSize then
    match ctx.cellInfo (get_header ptr) with
    | none => ctx
    | some cr =>
      if cr.sizeClass < kTlsBinCacheCount ∧
          (ctx.tlsBin cr.sizeClass).length < kTlsBinCacheCapacity then
        { ctx with tlsBin := fun b =>
            if b = cr.sizeClass then ptr :: ctx.tlsBin b else ctx.tlsBin b }
      else if cr.sizeClass = kFullCellMarker then free_cell ctx (get_header ptr)
      else free_to_bin ctx ptr
  else if kBuddyRegionBase ≤ ptr ∧ ptr - kBuddyRegionBase < ctx.buddy.committed then
    match BuddyAllocator.free ctx.buddy (ptr - kBuddyRegionBase) with
    | some b' => { ctx with buddy := b' }
    | none => ctx
  else if (LargeAllocRegistry.lookup ctx.large ptr).isSome then
    { ctx with large := LargeAllocRegistry.free ctx.large ptr }
  else ctx

/-- The shared allocate-copy-free tail of `realloc_bytes` (`old_size` was
    computed from the cell header): on allocation failure null with the
    old block untouched, else copy `min(old, new)` and free the old
    pointer. -/
def reallocFallback (ctx : Context) (ptr newSize tag oldSize : Nat) : Context × Option Nat :=
  match alloc_bytes ctx newSize tag 8 with
  | (ctx₁, none) => (ctx₁, none)
  | (ctx₁, some q) =>
    let ctx₂ : Context := { ctx₁ with mem := memcpy q ptr (min oldSize newSize) ctx₁.mem }
    (free_bytes ctx₂ ptr, some q)

/-- `Context::realloc_bytes`: null behaves as `alloc_bytes`, size 0 as
    `free_bytes`; a buddy-owned pointer stays in the buddy tier when the
    new size is in buddy range (delegating to the buddy realloc) and
    otherwise moves tiers by allocate-copy-free (copying at most the old
    usable size); a large-owned pointer symmetrically; a cell-region
    pointer returns unchanged on the same-bin fast path and otherwise
    takes the allocate-copy-free tail. -/
def realloc_bytes (ctx : Context) (ptr newSize tag : Nat) : Context × Option Nat :=
  if ptr = 0 then alloc_bytes ctx newSize tag 8
  else if newSize = 0 then (free_bytes ctx ptr, none)
  else if kBuddyRegionBase ≤ ptr ∧ ptr - kBuddyRegionBase < ctx.buddy.committed then
    if newSize ≤ BuddyAllocator.kMaxBlockSize ∧ BuddyAllocator.kMinBlockSize ≤ newSize then
      match BuddyAllocator.realloc_bytes ctx.buddy ctx.mem kBuddyRegionBase
          (ptr - kBuddyRegionBase) newSize with
      | (b', mem', r) => ({ ctx with buddy := b', mem := mem' }, r.map (kBuddyRegionBase + ·))
    else
      match alloc_bytes ctx newSize tag 8 with
      | (ctx₁, none) => (ctx₁, none)
      | (ctx₁, some q) =>
        let oldUsable := BuddyAllocator.get_alloc_size ctx.buddy (ptr - kBuddyRegionBase)
          - BuddyAllocator.kHeaderSize
        let ctx₂ : Context := { ctx₁ with mem := memcpy q ptr (min oldUsable newSize) ctx₁.mem }
        let ctx₃ : Context :=
          match BuddyAllocator.free ctx₂.buddy (ptr - kBuddyRegionBase) with
          | some b' => { ctx₂ with buddy := b' }
          | none => ctx₂
        (ctx₃, some q)
  else if (LargeAllocRegistry.lookup ctx.large ptr).isSome then
    if BuddyAllocator.kMaxBlockSize < newSize then
      match LargeAllocRegistry.realloc_bytes ctx.large ctx.mem ptr newSize tag with
      | (l', mem', r) => ({ ctx with large := l', mem := mem' }, r)
    else
      match alloc_bytes ctx newSize tag 8 with
      | (ctx₁, none) => (ctx₁, none)
      | (ctx₁, some q) =>
        let oldSize := LargeAllocRegistry.get_alloc_size ctx.large ptr
        ({ ctx₁ with mem := memcpy q ptr (min oldSize newSize) ctx₁.mem,
                     large := LargeAllocRegistry.free ctx₁.large ptr }, some q)
  else
    match ctx.cellInfo (get_header ptr) with
    | none => (ctx, none)
    | some cr =>
      if cr.sizeClass = kFullCellMarker then
        reallocFallback ctx ptr newSize tag (kCellSize - kBlockStartOffset)
      else
        let newBin := get_size_class newSize 8
        if newBin ≠ kFullCellMarker ∧ newBin = cr.sizeClass then (ctx, some ptr)
        else reallocFallback ctx ptr newSize tag (kSizeClasses cr.sizeClass)

/-- The old usable size `realloc_bytes` works with, per tier: the buddy
    block's recorded size minus its header, the large registry's recorded
    size, the usable cell payload for a full cell, or the bin's block
    size — exactly the `old_size` / `old_usable` each branch of the C
    function computes. -/
def oldSizeOf (ctx : Context) (ptr : Nat) : Nat :=
  if kBuddyRegionBase ≤ ptr ∧ ptr - kBuddyRegionBase < ctx.buddy.committed then
    BuddyAllocator.get_alloc_size ctx.buddy (ptr - kBuddyRegionBase) - BuddyAllocator.kHeaderSize
  else if (LargeAllocRegistry.lookup ctx.large ptr).isSome then
    LargeAllocRegistry.get_alloc_size ctx.large ptr
  else
    match ctx.cellInfo (get_header ptr) with
    | some cr =>
      if cr.sizeClass = kFullCellMarker then kCellSize - kBlockStartOffset
      else kSizeClasses cr.sizeClass
    | none => 0

/-- The one liveness fact reachable contexts guarantee that the failure
    analysis needs: every cell linked in a partial list has free
    blocks. -/
def PartialsLive (ctx : Context) : Prop :=
  ∀ bin c cr, c ∈ (ctx.bins bin).partials → ctx.cellInfo c = some cr → cr.freeList ≠ []

/-- The sub-cell invariant of claim C9 for one size bin: the partial list
    holds no duplicate cells; every linked cell is a recorded cell of this
    bin; and every recorded cell of this bin has `free_count` equal to the
    length of its intrusive free list and is linked in the partial list
    exactly when `free_count` is positive (retained warm cells keep their
    full, positive `free_count`, so they stay linked), so a fully-in-use
    cell is in no list.  Stated over the raw partial list and cell map. -/
def BinInvOn (parts : List Nat) (info : Nat → Option CellRec) (bin : Nat) : Prop :=
  parts.Nodup ∧
  (∀ c, c ∈ parts → ∃ cr, info c = some cr ∧ cr.sizeClass = bin) ∧
  (∀ c cr, info c = some cr → cr.sizeClass = bin →
    cr.freeCount = cr.freeList.length ∧ (c ∈ parts ↔ 0 < cr.freeCount))

/-- The sub-cell invariant of a context for one bin: `BinInvOn` applied to
    the bin's partial list and the cell map. -/
def BinInv (ctx : Context) (bin : Nat) : Prop :=
  BinInvOn (ctx.bins bin).partials ctx.cellInfo bin

/-- Freshness of the cell pool relative to the context: a cell the pool
    hands out is not currently recorded in the cell map and not linked in
    the bin's partial list.  In the C code this holds for every reachable
    state because a cell sitting in the pool is never simultaneously live
    as a sub-cell cell. -/
def FreshPool (ctx : Context) (bin : Nat) : Prop :=
  ∀ p' off, Allocator.alloc ctx.pool = (p', some off) →
    ctx.cellInfo (kCellRegionBase + off) = none ∧
    kCellRegionBase + off ∉ (ctx.bins bin).partials

/-- A concrete context for the C4 witness: one cell at the start of the
    cell region, in sub-cell mode for bin 2 (64-byte blocks), fully in
    use. -/
def c4ctx : Context :=
  { init 0 with cellInfo := fun a =>
      if a = kCellRegionBase then some ⟨0, 2, 0, []⟩ else none }

end Context

/-!
## Theorems

Helper lemmas first, then the claim theorems.
-/

theorem bitLenGo_zero : ∀ fuel, bitLenGo fuel 0 = 0
  | 0 => rfl
  | _ + 1 => by simp [bitLenGo]

theorem bitLenGo_interval :
    ∀ fuel j n, 2 ^ j ≤ n → n < 2 ^ (j + 1) → j < fuel → bitLenGo fuel n = j + 1 := by
  intro fuel
  induction fuel with
  | zero => intro j n _ _ h; omega
  | succ fuel ih =>
    intro j n hlo hhi hj
    have hn : n ≠ 0 := by have := Nat.two_pow_pos j; omega
    rw [bitLenGo, if_neg hn]
    cases j with
    | zero =>
      have hn1 : n = 1 := by norm_num at hlo hhi; omega
      subst hn1
      simp [bitLenGo_zero]
    | succ j =>
      have hlo2 : 2 ^ j ≤ n / 2 := by
        rw [Nat.le_div_iff_mul_le (by omega)]
        calc 2 ^ j * 2 = 2 ^ (j + 1) := (pow_succ 2 j).symm
          _ ≤ n := hlo
      have hhi2 : n / 2 < 2 ^ (j + 1) := by
        rw [Nat.div_lt_iff_lt_mul (by omega)]
        calc n < 2 ^ (j + 2) := hhi
          _ = 2 ^ (j + 1) * 2 := pow_succ 2 (j + 1)
      rw [ih j (n / 2) hlo2 hhi2 (by omega)]

theorem kSizeClasses_eq_pow : ∀ i, i < kNumSizeBins → kSizeClasses i = 2 ^ (i + 4) := by
  intro i hi
  simp only [kNumSizeBins] at hi
  interval_cases i <;> decide

theorem kSizeClasses_le_max : ∀ i, kSizeClasses i ≤ kMaxSubCellSize := by
  intro i
  by_cases hi : i < 10
  · interval_cases i <;> decide
  · show List.getD _ i 0 ≤ _
    rw [List.getD_eq_default]
    · decide
    · simpa using by omega

theorem scanBins_eq_of (s a : Nat) :
    ∀ fuel i k, k < fuel →
      (kSizeClasses (i + k) ≥ s ∧ kSizeClasses (i + k) ≥ a) →
      (∀ m, m < k → ¬(kSizeClasses (i + m) ≥ s ∧ kSizeClasses (i + m) ≥ a)) →
      scanBins s a i fuel = i + k := by
  intro fuel
  induction fuel with
  | zero => intro i k h; omega
  | succ fuel ih =>
    intro i k hk hhit hmin
    rw [scanBins]
    cases k with
    | zero =>
      rw [if_pos (by simpa using hhit)]
      omega
    | succ k =>
      rw [if_neg (by simpa using hmin 0 (by omega))]
      have hhit2 : kSizeClasses (i + 1 + k) ≥ s ∧ kSizeClasses (i + 1 + k) ≥ a := by
        rwa [show i + 1 + k = i + (k + 1) by omega]
      have hmin2 : ∀ m, m < k → ¬(kSizeClasses (i + 1 + m) ≥ s ∧ kSizeClasses (i + 1 + m) ≥ a) :=
        fun m hm => by
          rw [show i + 1 + m = i + (m + 1) by omega]
          exact hmin (m + 1) (by omega)
      rw [ih (i + 1) k (by omega) hhit2 hmin2]
      omega

theorem scanBins_eq_marker (s a : Nat) :
    ∀ fuel i, (∀ m, m < fuel → ¬(kSizeClasses (i + m) ≥ s ∧ kSizeClasses (i + m) ≥ a)) →
      scanBins s a i fuel = kFullCellMarker := by
  intro fuel
  induction fuel with
  | zero => intro i _; rfl
  | succ fuel ih =>
    intro i hmiss
    rw [scanBins, if_neg (by simpa using hmiss 0 (by omega))]
    exact ih (i + 1) fun m hm => by
      rw [show i + 1 + m = i + (m + 1) by omega]
      exact hmiss (m + 1) (by omega)

theorem align_up_eight (size : Nat) (h : size + 7 < U64) :
    align_up size 8 = (size + 7) / 8 * 8 := by
  unfold align_up
  rw [show size + 8 - 1 = size + 7 by omega, Nat.mod_eq_of_lt (by omega)]

theorem align_up_eight_bounds (size : Nat) (h : size + 7 < U64) :
    size ≤ align_up size 8 ∧ align_up size 8 ≤ size + 7 := by
  rw [align_up_eight size h]
  constructor
  · have h1 := Nat.div_add_mod (size + 7) 8
    have h2 : (size + 7) % 8 < 8 := Nat.mod_lt _ (by omega)
    omega
  · exact Nat.div_mul_le_self (size + 7) 8

theorem align_up_eight_le (size M : Nat) (h : size + 7 < U64) (hM : 8 ∣ M)
    (hsM : size ≤ M) : align_up size 8 ≤ M := by
  rw [align_up_eight size h]
  omega

/-- For sizes at most the largest bin, the general lookup at alignment 8
    returns a bin index below `kNumSizeBins`, agrees with the fast lookup,
    and that bin is the smallest one holding `size`. -/
theorem size_class_spec_small (size : Nat) (h7 : size + 7 < U64)
    (h8192 : size ≤ kMaxSubCellSize) :
    get_size_class size 8 < kNumSizeBins ∧
    get_size_class_fast size = get_size_class size 8 ∧
    size ≤ kSizeClasses (get_size_class size 8) ∧
    ∀ m, m < get_size_class size 8 → kSizeClasses m < size := by
  simp only [kMaxSubCellSize] at h8192
  by_cases hsmall : size ≤ 16
  · -- both lookups return bin 0
    have hgen : get_size_class size 8 = 0 := by
      have ha := align_up_eight_bounds size h7
      have ha16 : (if align_up size 8 < kMinBlockSize then kMinBlockSize
          else align_up size 8) = 16 := by
        have hle : align_up size 8 ≤ 16 :=
          align_up_eight_le size 16 h7 (by omega) hsmall
        simp only [kMinBlockSize]
        split <;> omega
      show scanBins _ 8 0 kNumSizeBins = 0
      rw [ha16]
      exact scanBins_eq_of 16 8 kNumSizeBins 0 0 (by simp [kNumSizeBins])
        (by constructor <;> decide) (by omega)
    have hfast : get_size_class_fast size = 0 := by
      simp only [get_size_class_fast, kMinBlockSize, kMaxSubCellSize, kFullCellMarker]
      by_cases hlt : size < 16
      · simp only [if_pos hlt]
        decide
      · have h16 : size = 16 := by omega
        subst h16
        decide
    refine ⟨by simp [hgen, kNumSizeBins], by rw [hgen, hfast], ?_, ?_⟩
    · rw [hgen]; simpa [kSizeClasses] using hsmall
    · rw [hgen]; omega
  · -- 16 < size ≤ 8192: both return `log2 (size - 1) - 3`
    have h16 : 16 < size := by omega
    set j := Nat.log2 (size - 1) with hj
    have hlog := @Nat.log2_eq_log_two (size - 1)
    have hlo : 2 ^ j ≤ size - 1 := by
      rw [hj, hlog]; exact Nat.pow_log_le_self 2 (by omega)
    have hhi : size - 1 < 2 ^ (j + 1) := by
      rw [hj, hlog]; exact Nat.lt_pow_succ_log_self (by omega) _
    have hj4 : 4 ≤ j := by
      by_contra hc
      have : j + 1 ≤ 4 := by omega
      have := Nat.pow_le_pow_right (show 0 < 2 by omega) this
      omega
    have hj12 : j ≤ 12 := by
      by_contra hc
      have : 13 ≤ j := by omega
      have := Nat.pow_le_pow_right (show 0 < 2 by omega) this
      have h13 : (2 : Nat) ^ 13 = 8192 := by norm_num
      omega
    have hsize_le : size ≤ 2 ^ (j + 1) := by omega
    have hgen : get_size_class size 8 = j - 3 := by
      have ha := align_up_eight_bounds size h7
      have hnoclamp : (if align_up size 8 < kMinBlockSize then kMinBlockSize
          else align_up size 8) = align_up size 8 := by
        simp only [kMinBlockSize]; split <;> omega
      show scanBins _ 8 0 kNumSizeBins = j - 3
      rw [hnoclamp]
      have := scanBins_eq_of (align_up size 8) 8 kNumSizeBins 0 (j - 3)
        (by simp only [kNumSizeBins]; omega)
        (by
          have hcls : kSizeClasses (0 + (j - 3)) = 2 ^ (j + 1) := by
            rw [kSizeClasses_eq_pow (0 + (j - 3)) (by simp only [kNumSizeBins]; omega)]
            congr 1
            omega
          rw [hcls]
          constructor
          · exact align_up_eight_le size _ h7
              ⟨2 ^ (j - 2), by rw [show (8 : Nat) = 2 ^ 3 by norm_num, ← pow_add]; congr 1; omega⟩
              hsize_le
          · calc (8 : Nat) ≤ 2 ^ 5 := by norm_num
              _ ≤ 2 ^ (j + 1) := Nat.pow_le_pow_right (by omega) (by omega))
        (by
          intro m hm
          rw [Nat.zero_add]
          have hcls : kSizeClasses m = 2 ^ (m + 4) :=
            kSizeClasses_eq_pow m (by simp only [kNumSizeBins]; omega)
          rw [hcls]
          have : 2 ^ (m + 4) ≤ 2 ^ j := Nat.pow_le_pow_right (by omega) (by omega)
          simp only [ge_iff_le, not_and]
          intro hcontra
          omega)
      omega
    have hfast : get_size_class_fast size = j - 3 := by
      simp only [get_size_class_fast, kMinBlockSize, kMaxSubCellSize, kFullCellMarker]
      have hc1 : (if size < 16 then (16 : Nat) else size) = size := if_neg (by omega)
      rw [hc1, if_neg (by omega)]
      have hv : size - 1 ≠ 0 := by omega
      rw [if_neg hv, bitLenGo_interval 64 j (size - 1) hlo hhi (by omega)]
      rw [if_neg (by omega)]
      omega
    refine ⟨?_, by rw [hgen, hfast], ?_, ?_⟩
    · rw [hgen]; simp only [kNumSizeBins]; omega
    · rw [hgen, kSizeClasses_eq_pow (j - 3) (by simp only [kNumSizeBins]; omega),
        show j - 3 + 4 = j + 1 by omega]
      exact hsize_le
    · intro m hm
      rw [hgen] at hm
      have hcls : kSizeClasses m = 2 ^ (m + 4) :=
        kSizeClasses_eq_pow m (by simp only [kNumSizeBins]; omega)
      rw [hcls]
      have : 2 ^ (m + 4) ≤ 2 ^ j := Nat.pow_le_pow_right (by omega) (by omega)
      omega

/-- For sizes above the largest bin (with no 64-bit wrap) both lookups
    return the full-cell marker. -/
theorem size_class_spec_large (size : Nat) (h7 : size + 7 < U64)
    (h8192 : kMaxSubCellSize < size) :
    get_size_class size 8 = kFullCellMarker ∧
    get_size_class_fast size = kFullCellMarker := by
  simp only [kMaxSubCellSize] at h8192
  constructor
  · have ha := align_up_eight_bounds size h7
    have hnoclamp : (if align_up size 8 < kMinBlockSize then kMinBlockSize
        else align_up size 8) = align_up size 8 := by
      simp only [kMinBlockSize]; split <;> omega
    show scanBins _ 8 0 kNumSizeBins = kFullCellMarker
    rw [hnoclamp]
    refine scanBins_eq_marker _ 8 kNumSizeBins 0 ?_
    intro m _
    have := kSizeClasses_le_max (0 + m)
    simp only [kMaxSubCellSize] at this
    simp only [ge_iff_le, not_and]
    intro hcontra
    omega
  · simp only [get_size_class_fast, kMinBlockSize, kMaxSubCellSize, kFullCellMarker]
    have hc1 : (if size < 16 then (16 : Nat) else size) = size := if_neg (by omega)
    rw [hc1, if_pos (by omega)]

/-! ### Claim C6 -/

/-- C6 (amended): for every `size` whose alignment round-up does not wrap
    64-bit arithmetic (`size + 7 < 2 ^ 64`), the fast size-class lookup
    agrees with the general lookup at the default alignment:
    `get_size_class_fast size = get_size_class size 8`; both return the
    index of the smallest power-of-two bin (16 B through 8192 B) holding
    the size, and both return the full-cell sentinel exactly when the size
    exceeds 8192.  (At `size > 2 ^ 64 - 8` the general lookup's `align_up`
    wraps and the two lookups disagree; see the counterexample.) -/
theorem claim_C6_fast_lookup_agrees (size : Nat) (h : size + 7 < U64) :
    get_size_class_fast size = get_size_class size 8 ∧
    (get_size_class size 8 = kFullCellMarker ↔ kMaxSubCellSize < size) ∧
    (∀ b, b < kNumSizeBins →
      (get_size_class size 8 = b ↔
        size ≤ kSizeClasses b ∧ ∀ m, m < b → kSizeClasses m < size)) := by
  by_cases hbig : kMaxSubCellSize < size
  · obtain ⟨hgen, hfast⟩ := size_class_spec_large size h hbig
    refine ⟨by rw [hgen, hfast], by simp [hgen, hbig], ?_⟩
    intro b hb
    simp only [kNumSizeBins] at hb
    constructor
    · intro hcontra
      rw [hgen] at hcontra
      simp only [kFullCellMarker] at hcontra
      omega
    · rintro ⟨hle, -⟩
      have := kSizeClasses_le_max b
      simp only [kMaxSubCellSize] at this hbig
      omega
  · push_neg at hbig
    obtain ⟨hlt, hagree, hle, hmin⟩ := size_class_spec_small size h hbig
    refine ⟨hagree, ?_, ?_⟩
    · constructor
      · intro hcontra
        simp only [kNumSizeBins] at hlt
        simp only [kFullCellMarker] at hcontra
        omega
      · intro hcontra
        simp only [kMaxSubCellSize] at hcontra hbig
        omega
    · intro b hb
      constructor
      · intro heq
        rw [heq] at hle hmin
        exact ⟨hle, hmin⟩
      · rintro ⟨hble, hbmin⟩
        by_contra hne
        rcases Nat.lt_or_ge (get_size_class size 8) b with hlt2 | hge
        · have := hbmin _ hlt2
          omega
        · have hlt3 : b < get_size_class size 8 := by omega
          have := hmin b hlt3
          omega

/-- C6 witness: the agreement evaluated at the concrete size 100. -/
theorem claim_C6_witness :
    get_size_class_fast 100 = get_size_class 100 8 ∧
    (get_size_class 100 8 = kFullCellMarker ↔ kMaxSubCellSize < 100) ∧
    (∀ b, b < kNumSizeBins →
      (get_size_class 100 8 = b ↔
        100 ≤ kSizeClasses b ∧ ∀ m, m < b → kSizeClasses m < 100)) :=
  claim_C6_fast_lookup_agrees 100 (by norm_num [U64])

set_option maxRecDepth 4000 in
/-- C6 counterexample: at `size = 2 ^ 64 - 1` the general lookup's
    `align_up` wraps to 0, so `get_size_class` returns bin 0 while
    `get_size_class_fast` returns the full-cell sentinel — the claim's
    "for every size" fails. -/
theorem claim_C6_counterexample :
    get_size_class (2 ^ 64 - 1) 8 = 0 ∧
    get_size_class_fast (2 ^ 64 - 1) = kFullCellMarker ∧
    get_size_class_fast (2 ^ 64 - 1) ≠ get_size_class (2 ^ 64 - 1) 8 := by
  refine ⟨by decide, by decide, by decide⟩

/-! ### Claim C1 -/

theorem size_to_orderGo_le (size : Nat) :
    ∀ fuel order, BuddyAllocator.size_to_orderGo size order fuel ≤ order + fuel := by
  intro fuel
  induction fuel with
  | zero => intro order; simp [BuddyAllocator.size_to_orderGo]
  | succ fuel ih =>
    intro order
    rw [BuddyAllocator.size_to_orderGo]
    split
    · have := ih (order + 1)
      omega
    · omega

/-- C1 is a code bug: `size_to_order` clamps the order at `kMaxOrder`
    instead of letting it exceed it, so the `order > kMaxOrder` guard of
    `BuddyAllocator::alloc` can never fire (first conjunct).  Evaluated at
    the failing input `size = kMaxBlockSize` (2 MiB, so
    `size + 8 > 2 ^ 21`) on a fresh allocator with two reserved
    superblocks, `alloc` returns a non-null pointer to a block whose
    header records order 21 — a block of `2 ^ 21` bytes whose usable space
    `2 ^ 21 - 8` is smaller than the requested size — where the claim
    (and the allocator's own documentation, "a block of at least the
    requested size") requires null. -/
theorem claim_C1_buddy_oversize_not_rejected :
    (∀ size, BuddyAllocator.size_to_order size ≤ BuddyAllocator.kMaxOrder) ∧
    (BuddyAllocator.alloc (BuddyAllocator.init (2 * BuddyAllocator.kMaxBlockSize))
        BuddyAllocator.kMaxBlockSize).2 = some BuddyAllocator.kHeaderSize ∧
    (BuddyAllocator.alloc (BuddyAllocator.init (2 * BuddyAllocator.kMaxBlockSize))
        BuddyAllocator.kMaxBlockSize).1.headers 0 = some BuddyAllocator.kMaxOrder ∧
    BuddyAllocator.kMaxBlockSize - BuddyAllocator.kHeaderSize <
      BuddyAllocator.kMaxBlockSize := by
  refine ⟨?_, by decide, by decide, by decide⟩
  intro size
  unfold BuddyAllocator.size_to_order
  split
  · decide
  · have := size_to_orderGo_le size (BuddyAllocator.kMaxOrder - BuddyAllocator.kMinOrder)
      BuddyAllocator.kMinOrder
    simp only [BuddyAllocator.kMaxOrder, BuddyAllocator.kMinOrder] at this ⊢
    omega

/-! ### Claim C8: buddy arithmetic -/

namespace BuddyAllocator

theorem one_shiftLeft_eq (n : Nat) : 1 <<< n = 2 ^ n := by
  rw [Nat.shiftLeft_eq, one_mul]

/-- XOR with `2 ^ o` of an even multiple of `2 ^ o` sets the bit: it adds
    `2 ^ o`. -/
theorem xor_two_pow_of_even (o m : Nat) :
    2 ^ (o + 1) * m ^^^ 2 ^ o = 2 ^ (o + 1) * m + 2 ^ o := by
  apply Nat.eq_of_testBit_eq
  intro j
  rw [Nat.testBit_xor,
    Nat.testBit_mul_pow_two_add m (Nat.pow_lt_pow_right (by omega) (by omega)) j]
  rcases Nat.lt_or_ge j (o + 1) with hj | hj
  · rw [if_pos hj]
    have : (2 ^ (o + 1) * m).testBit j = false := by
      rw [Nat.testBit_mul_pow_two]
      simp
      omega
    rw [this]
    simp
  · rw [if_neg (by omega)]
    have h1 : (2 ^ (o + 1) * m).testBit j = m.testBit (j - (o + 1)) := by
      rw [Nat.testBit_mul_pow_two]
      simp
      omega
    have h2 : (2 ^ o).testBit j = false := Nat.testBit_two_pow_of_ne (by omega)
    rw [h1, h2]
    simp

/-- The buddy of a `2 ^ o`-aligned block is the adjacent block: above when
    the block's index is even (and then the block is `2 ^ (o + 1)`-aligned),
    below otherwise (and then the buddy is). -/
theorem buddy_adjacent (o a : Nat) (h : 2 ^ o ∣ a) :
    (a ^^^ 2 ^ o = a + 2 ^ o ∧ 2 ^ (o + 1) ∣ a) ∨
    (2 ^ o ≤ a ∧ a ^^^ 2 ^ o = a - 2 ^ o ∧ 2 ^ (o + 1) ∣ a - 2 ^ o) := by
  obtain ⟨k, rfl⟩ := h
  rcases Nat.even_or_odd k with ⟨m, hm⟩ | ⟨m, hm⟩
  · left
    subst hm
    have he : 2 ^ o * (m + m) = 2 ^ (o + 1) * m := by ring
    rw [he]
    exact ⟨xor_two_pow_of_even o m, ⟨m, rfl⟩⟩
  · right
    subst hm
    have he : 2 ^ o * (2 * m + 1) = 2 ^ (o + 1) * m + 2 ^ o := by ring
    rw [he]
    refine ⟨by omega, ?_, ?_⟩
    · have hx : (2 ^ (o + 1) * m + 2 ^ o) ^^^ 2 ^ o = 2 ^ (o + 1) * m := by
        rw [← xor_two_pow_of_even o m, Nat.xor_cancel_right]
      rw [hx]
      omega
    · rw [Nat.add_sub_cancel]
      exact ⟨m, rfl⟩

theorem xor_flip (o a b : Nat) (h : a ^^^ 2 ^ o = b) : b ^^^ 2 ^ o = a := by
  rw [← h, Nat.xor_cancel_right]

theorem Disj.symm2 {a la b lb : Nat} (h : Disj a la b lb) : Disj b lb a la := by
  unfold Disj at *
  omega

/-- Shrinking a range on both sides preserves disjointness. -/
theorem Disj.mono {a la a' la' b lb : Nat} (h : Disj a la b lb) (h1 : a ≤ a')
    (h2 : a' + la' ≤ a + la) : Disj a' la' b lb := by
  unfold Disj at *
  omega

theorem flRemove_subset {fl : Nat → List Nat} {o a o' x : Nat}
    (h : x ∈ flRemove fl o a o') : x ∈ fl o' := by
  unfold flRemove at h
  split at h
  · exact List.mem_of_mem_erase h
  · exact h

theorem flAdd_mem {fl : Nat → List Nat} {o a o' x : Nat} (h : x ∈ flAdd fl o a o') :
    (o' = o ∧ x = a) ∨ x ∈ fl o' := by
  unfold flAdd at h
  split at h
  · rcases List.mem_cons.mp h with rfl | hm
    · left; constructor <;> omega
    · right; exact hm
  · right; exact h

/-- Removing a block from a free list preserves well-formedness. -/
theorem ListsWF.remove {c : Nat} {fl : Nat → List Nat} {hdr : Nat → Option Nat}
    (w : ListsWF c fl hdr) (o a : Nat) : ListsWF c (flRemove fl o a) hdr where
  fr o' x hx := w.fr o' x (flRemove_subset hx)
  nd o' := by
    unfold flRemove
    split
    · exact (w.nd o').erase a
    · exact w.nd o'
  ff o₁ a₁ o₂ a₂ h1 h2 hne :=
    w.ff o₁ a₁ o₂ a₂ (flRemove_subset h1) (flRemove_subset h2) hne
  hr := w.hr
  hh := w.hh
  fh o' x b ob hx hb := w.fh o' x b ob (flRemove_subset hx) hb
  nb o' a₁ a₂ ho h1 h2 hne :=
    w.nb o' a₁ a₂ ho (flRemove_subset h1) (flRemove_subset h2) hne

/-- Dropping a live-block header preserves well-formedness. -/
theorem ListsWF.hdrDrop {c : Nat} {fl : Nat → List Nat} {hdr : Nat → Option Nat}
    (w : ListsWF c fl hdr) (p : Nat) :
    ListsWF c fl (fun b => if b = p then none else hdr b) where
  fr := w.fr
  nd := w.nd
  ff := w.ff
  hr b o hb := by
    split at hb
    · exact absurd hb (by simp)
    · exact w.hr b o hb
  hh b₁ o₁ b₂ o₂ h1 h2 hne := by
    split at h1
    · exact absurd h1 (by simp)
    · split at h2
      · exact absurd h2 (by simp)
      · exact w.hh b₁ o₁ b₂ o₂ h1 h2 hne
  fh o x b ob hx hb := by
    split at hb
    · exact absurd hb (by simp)
    · exact w.fh o x b ob hx hb
  nb := w.nb

/-- Recording the header of a good block preserves well-formedness. -/
theorem ListsWF.hdrAdd {c : Nat} {fl : Nat → List Nat} {hdr : Nat → Option Nat}
    {p o : Nat} (w : ListsWF c fl hdr) (g : GoodBlock c fl hdr p o) :
    ListsWF c fl (fun b => if b = p then some o else hdr b) where
  fr := w.fr
  nd := w.nd
  ff := w.ff
  hr b ob hb := by
    split at hb
    · obtain ⟨g1, g2, g3, g4, -, -⟩ := g
      cases hb
      subst b
      exact ⟨g1, g2, g3, g4⟩
    · exact w.hr b ob hb
  hh b₁ o₁ b₂ o₂ h1 h2 hne := by
    obtain ⟨-, -, -, -, -, g6⟩ := g
    split at h1
    · cases h1
      subst b₁
      split at h2
      · omega
      · exact g6 b₂ o₂ h2
    · split at h2
      · cases h2
        subst b₂
        exact (g6 b₁ o₁ h1).symm2
      · exact w.hh b₁ o₁ b₂ o₂ h1 h2 hne
  fh o' x b ob hx hb := by
    obtain ⟨-, -, -, -, g5, -⟩ := g
    split at hb
    · cases hb
      subst b
      exact (g5 o' x hx).symm2
    · exact w.fh o' x b ob hx hb
  nb := w.nb

/-- Pushing a good block whose buddy is provably absent from its order's
    free list (the exit condition of the coalescing loop) preserves
    well-formedness. -/
theorem ListsWF.addFinal {c : Nat} {fl : Nat → List Nat} {hdr : Nat → Option Nat}
    {p o : Nat} (w : ListsWF c fl hdr) (g : GoodBlock c fl hdr p o)
    (hexit : o = kMaxOrder ∨ p ^^^ 2 ^ o ≥ c ∨ p ^^^ 2 ^ o ∉ fl o) :
    ListsWF c (flAdd fl o p) hdr := by
  obtain ⟨g1, g2, g3, g4, g5, g6⟩ := g
  have hpos : 0 < 2 ^ o := Nat.two_pow_pos o
  have hnotmem : p ∉ fl o := fun hmem => by
    have := g5 o p hmem
    unfold Disj at this
    omega
  refine ⟨?_, ?_, ?_, w.hr, w.hh, ?_, ?_⟩
  · intro o' x hx
    rcases flAdd_mem hx with ⟨rfl, rfl⟩ | hx'
    · exact ⟨g1, g2, g3, g4⟩
    · exact w.fr o' x hx'
  · intro o'
    unfold flAdd
    split
    · next heq =>
      subst heq
      exact List.Nodup.cons hnotmem (w.nd o')
    · exact w.nd o'
  · intro o₁ a₁ o₂ a₂ h1 h2 hne
    rcases flAdd_mem h1 with ⟨rfl, rfl⟩ | h1'
    · rcases flAdd_mem h2 with ⟨heq, rfl⟩ | h2'
      · omega
      · exact g5 o₂ a₂ h2'
    · rcases flAdd_mem h2 with ⟨rfl, rfl⟩ | h2'
      · exact (g5 o₁ a₁ h1').symm2
      · exact w.ff o₁ a₁ o₂ a₂ h1' h2' hne
  · intro o' x b ob hx hb
    rcases flAdd_mem hx with ⟨rfl, rfl⟩ | hx'
    · exact g6 b ob hb
    · exact w.fh o' x b ob hx' hb
  · intro o' a₁ a₂ ho h1 h2 hne
    rcases flAdd_mem h1 with ⟨rfl, rfl⟩ | h1'
    · rcases flAdd_mem h2 with ⟨-, rfl⟩ | h2'
      · omega
      · rcases hexit with h | h | h
        · omega
        · have := (w.fr o' a₂ h2').2.2.2
          omega
        · intro hcontra
          rw [hcontra] at h
          exact h h2'
    · rcases flAdd_mem h2 with ⟨h2a, h2b⟩ | h2'
      · subst h2a
        intro hcontra
        rw [h2b] at hcontra
        have hflip := xor_flip o' a₁ _ hcontra
        rcases hexit with h | h | h
        · omega
        · have := (w.fr o' a₁ h1').2.2.2
          omega
        · exact h (hflip ▸ h1')
      · exact w.nb o' a₁ a₂ ho h1' h2' hne

/-- Joining two adjacent half blocks preserves disjointness from a third
    range. -/
theorem disj_join {lo ptr b o x lx : Nat} (hlx : 0 < lx)
    (hcase : (lo = ptr ∧ b = ptr + 2 ^ o) ∨ (lo = b ∧ ptr = b + 2 ^ o))
    (h1 : Disj ptr (2 ^ o) x lx) (h2 : Disj b (2 ^ o) x lx) :
    Disj lo (2 ^ (o + 1)) x lx := by
  have hp : 2 ^ (o + 1) = 2 ^ o * 2 := pow_succ 2 o
  unfold Disj at *
  omega

/-- One coalescing step: when the buddy of a good block is free at the
    block's order, removing it and taking the lower address gives a good
    block one order up. -/
theorem goodBlock_merge {c : Nat} {fl : Nat → List Nat} {hdr : Nat → Option Nat}
    {ptr order : Nat} (w : ListsWF c fl hdr) (g : GoodBlock c fl hdr ptr order)
    (hord : order < kMaxOrder) (hmem : (ptr ^^^ 2 ^ order) ∈ fl order) :
    GoodBlock c (flRemove fl order (ptr ^^^ 2 ^ order)) hdr
      (min ptr (ptr ^^^ 2 ^ order)) (order + 1) := by
  obtain ⟨g1, g2, g3, g4, g5, g6⟩ := g
  obtain ⟨-, -, hbdvd, hbend⟩ := w.fr order _ hmem
  have hp : 2 ^ (order + 1) = 2 ^ order * 2 := pow_succ 2 order
  have hpos : 0 < 2 ^ order := Nat.two_pow_pos order
  have hcase : (min ptr (ptr ^^^ 2 ^ order) = ptr ∧
        ptr ^^^ 2 ^ order = ptr + 2 ^ order ∧ 2 ^ (order + 1) ∣ ptr) ∨
      (min ptr (ptr ^^^ 2 ^ order) = ptr ^^^ 2 ^ order ∧
        ptr = (ptr ^^^ 2 ^ order) + 2 ^ order ∧ 2 ^ (order + 1) ∣ ptr ^^^ 2 ^ order) := by
    rcases buddy_adjacent order ptr g3 with ⟨hx, hd⟩ | ⟨hle, hx, hd⟩
    · left
      exact ⟨by rw [hx]; exact min_eq_left (by omega), hx, hd⟩
    · right
      exact ⟨by rw [hx]; exact min_eq_right (by omega), by omega, hx ▸ hd⟩
  have hnotmem : ∀ o' x, x ∈ flRemove fl order (ptr ^^^ 2 ^ order) o' →
      x ∈ fl o' ∧ (o' ≠ order ∨ x ≠ ptr ^^^ 2 ^ order) := by
    intro o' x hx
    refine ⟨flRemove_subset hx, ?_⟩
    by_contra hcon
    push_neg at hcon
    obtain ⟨rfl, rfl⟩ := hcon
    exact absurd hx (by
      unfold flRemove
      simp only [if_pos rfl]
      exact (w.nd o').not_mem_erase)
  refine ⟨by omega, by omega, ?_, ?_, ?_, ?_⟩
  · rcases hcase with ⟨he, -, hd⟩ | ⟨he, -, hd⟩ <;> rw [he] <;> exact hd
  · rcases hcase with ⟨he, hx, -⟩ | ⟨he, hx, -⟩ <;> rw [he] <;> omega
  · intro o' x hx
    obtain ⟨hx', hne⟩ := hnotmem o' x hx
    have hd1 : Disj ptr (2 ^ order) x (2 ^ o') := g5 o' x hx'
    have hd2 : Disj (ptr ^^^ 2 ^ order) (2 ^ order) x (2 ^ o') :=
      (w.ff o' x order (ptr ^^^ 2 ^ order) hx' hmem (by tauto)).symm2
    refine disj_join (Nat.two_pow_pos o') ?_ hd1 hd2
    rcases hcase with ⟨he, hx2, -⟩ | ⟨he, hx2, -⟩
    · left; exact ⟨he, hx2⟩
    · right; exact ⟨he, hx2⟩
  · intro b ob hb
    have hd1 : Disj ptr (2 ^ order) b (2 ^ ob) := g6 b ob hb
    have hd2 : Disj (ptr ^^^ 2 ^ order) (2 ^ order) b (2 ^ ob) :=
      w.fh order _ b ob hmem hb
    refine disj_join (Nat.two_pow_pos ob) ?_ hd1 hd2
    rcases hcase with ⟨he, hx2, -⟩ | ⟨he, hx2, -⟩
    · left; exact ⟨he, hx2⟩
    · right; exact ⟨he, hx2⟩

/-- The coalescing loop preserves well-formedness, returns a good block,
    and stops only at the maximum order or when the final block's buddy is
    outside the committed range or not free at the final order. -/
theorem mergeGo_spec (c : Nat) (hdr : Nat → Option Nat) :
    ∀ fuel fl ptr order,
      ListsWF c fl hdr →
      GoodBlock c fl hdr ptr order →
      fuel = kMaxOrder - order →
      ListsWF c (mergeGo c fl ptr order fuel).2.2 hdr ∧
      GoodBlock c (mergeGo c fl ptr order fuel).2.2 hdr
        (mergeGo c fl ptr order fuel).1 (mergeGo c fl ptr order fuel).2.1 ∧
      ((mergeGo c fl ptr order fuel).2.1 = kMaxOrder ∨
        (mergeGo c fl ptr order fuel).1 ^^^ 2 ^ (mergeGo c fl ptr order fuel).2.1 ≥ c ∨
        (mergeGo c fl ptr order fuel).1 ^^^ 2 ^ (mergeGo c fl ptr order fuel).2.1 ∉
          (mergeGo c fl ptr order fuel).2.2 (mergeGo c fl ptr order fuel).2.1) := by
  intro fuel
  induction fuel with
  | zero =>
    intro fl ptr order w g hfuel
    have : order = kMaxOrder := by
      obtain ⟨-, h2, -⟩ := g
      omega
    exact ⟨w, g, Or.inl this⟩
  | succ fuel ih =>
    intro fl ptr order w g hfuel
    rw [mergeGo]
    simp only [get_buddy, one_shiftLeft_eq]
    split
    · exact ⟨w, g, Or.inr (Or.inl (by assumption))⟩
    · split
      · next hm =>
        have hord : order < kMaxOrder := by
          obtain ⟨-, h2, -⟩ := g
          omega
        exact ih _ _ _ (w.remove order (ptr ^^^ 2 ^ order))
          (goodBlock_merge w g hord hm) (by omega)
      · next hge hm =>
        exact ⟨w, g, Or.inr (Or.inr hm)⟩

/-- The upper half pushed by the split loop has the kept lower half as its
    buddy. -/
theorem upper_half_buddy (oc block : Nat) (hoc : 1 ≤ oc) (hdvd : 2 ^ oc ∣ block) :
    (block + 2 ^ (oc - 1)) ^^^ 2 ^ (oc - 1) = block := by
  obtain ⟨k, hk⟩ := hdvd
  have hoc2 : oc - 1 + 1 = oc := by omega
  have hx := xor_two_pow_of_even (oc - 1) k
  rw [hoc2] at hx
  rw [hk]
  exact xor_flip _ _ _ hx

/-- The split loop preserves well-formedness and leaves a good block of
    the target order. -/
theorem splitGo_spec (c : Nat) (hdr : Nat → Option Nat) :
    ∀ fuel fl block oc,
      ListsWF c fl hdr →
      GoodBlock c fl hdr block oc →
      kMinOrder ≤ oc - fuel →
      ListsWF c (splitGo fl block oc fuel) hdr ∧
      GoodBlock c (splitGo fl block oc fuel) hdr block (oc - fuel) := by
  intro fuel
  induction fuel with
  | zero =>
    intro fl block oc w g _
    exact ⟨w, g⟩
  | succ fuel ih =>
    intro fl block oc w g hmin
    obtain ⟨g1, g2, g3, g4, g5, g6⟩ := g
    have hk15 : kMinOrder = 15 := rfl
    have hk21 : kMaxOrder = 21 := rfl
    have hocpos : fuel + 1 ≤ oc := by omega
    have hp : 2 ^ oc = 2 ^ (oc - 1) * 2 := by
      rw [← pow_succ]
      congr 1
      omega
    have hdvd1 : 2 ^ (oc - 1) ∣ block :=
      dvd_trans (pow_dvd_pow 2 (by omega)) g3
    have hposoc : 0 < 2 ^ (oc - 1) := Nat.two_pow_pos _
    -- the pushed upper half
    set u := block + 1 <<< (oc - 1) with hu
    have hush : u = block + 2 ^ (oc - 1) := by rw [hu, one_shiftLeft_eq]
    have hudvd : 2 ^ (oc - 1) ∣ u := by
      rw [hush]
      exact Nat.dvd_add hdvd1 dvd_rfl
    have hgu : GoodBlock c fl hdr u (oc - 1) → True := fun _ => trivial
    have wAdd : ListsWF c (flAdd fl (oc - 1) u) hdr := by
      refine ⟨?_, ?_, ?_, w.hr, w.hh, ?_, ?_⟩
      · intro o' x hx
        rcases flAdd_mem hx with ⟨rfl, rfl⟩ | hx'
        · exact ⟨by omega, by omega, hudvd, by omega⟩
        · exact w.fr o' x hx'
      · intro o'
        unfold flAdd
        split
        · next heq =>
          subst heq
          refine List.Nodup.cons (fun hmem => ?_) (w.nd _)
          have := g5 _ u hmem
          unfold Disj at this
          omega
        · exact w.nd o'
      · intro o₁ a₁ o₂ a₂ h1 h2 hne
        rcases flAdd_mem h1 with ⟨rfl, rfl⟩ | h1'
        · rcases flAdd_mem h2 with ⟨heq, rfl⟩ | h2'
          · omega
          · exact (g5 o₂ a₂ h2').mono (by omega) (by omega)
        · rcases flAdd_mem h2 with ⟨rfl, rfl⟩ | h2'
          · exact ((g5 o₁ a₁ h1').mono (by omega) (by omega)).symm2
          · exact w.ff o₁ a₁ o₂ a₂ h1' h2' hne
      · intro o' x b ob hx hb
        rcases flAdd_mem hx with ⟨rfl, rfl⟩ | hx'
        · exact (g6 b ob hb).mono (by omega) (by omega)
        · exact w.fh o' x b ob hx' hb
      · intro o' a₁ a₂ ho h1 h2 hne
        rcases flAdd_mem h1 with ⟨rfl, rfl⟩ | h1'
        · rcases flAdd_mem h2 with ⟨-, rfl⟩ | h2'
          · omega
          · -- the buddy of the pushed half is the kept lower half
            have hbud : u ^^^ 2 ^ (oc - 1) = block := by
              rw [hush]
              exact upper_half_buddy oc block (by omega) g3
            rw [hbud]
            intro hcontra
            have := g5 _ _ (hcontra ▸ h2')
            unfold Disj at this
            omega
        · rcases flAdd_mem h2 with ⟨h2a, h2b⟩ | h2'
          · subst h2a
            intro hcontra
            rw [h2b] at hcontra
            have hflip := xor_flip _ a₁ _ hcontra
            have hbud : u ^^^ 2 ^ (oc - 1) = block := by
              rw [hush]
              exact upper_half_buddy oc block (by omega) g3
            rw [hbud] at hflip
            have := g5 _ _ (hflip ▸ h1')
            unfold Disj at this
            omega
          · exact w.nb o' a₁ a₂ ho h1' h2' hne
    have gKeep : GoodBlock c (flAdd fl (oc - 1) u) hdr block (oc - 1) := by
      refine ⟨by omega, by omega, hdvd1, by omega, ?_, ?_⟩
      · intro o' x hx
        rcases flAdd_mem hx with ⟨rfl, rfl⟩ | hx'
        · left
          omega
        · exact (g5 o' x hx').mono (by omega) (by omega)
      · intro b ob hb
        exact (g6 b ob hb).mono (by omega) (by omega)
    rw [splitGo]
    have := ih (flAdd fl (oc - 1) u) block (oc - 1) wAdd gKeep (by omega)
    rw [show oc - 1 - fuel = oc - (fuel + 1) by omega] at this
    exact this

/-- The scan for a non-empty order is sound. -/
theorem findFrom_spec (fl : Nat → List Nat) :
    ∀ fuel o o', findFrom fl o fuel = some o' → o ≤ o' ∧ o' < o + fuel ∧ fl o' ≠ [] := by
  intro fuel
  induction fuel with
  | zero => intro o o' h; simp [findFrom] at h
  | succ fuel ih =>
    intro o o' h
    rw [findFrom] at h
    split at h
    · cases h
      next hne => exact ⟨le_refl _, by omega, hne⟩
    · obtain ⟨h1, h2, h3⟩ := ih (o + 1) o' h
      exact ⟨by omega, by omega, h3⟩

theorem size_to_orderGo_ge (size : Nat) :
    ∀ fuel order, order ≤ size_to_orderGo size order fuel := by
  intro fuel
  induction fuel with
  | zero => intro order; simp [size_to_orderGo]
  | succ fuel ih =>
    intro order
    rw [size_to_orderGo]
    split
    · have := ih (order + 1)
      omega
    · omega

theorem size_to_order_ge (size : Nat) : kMinOrder ≤ size_to_order size := by
  unfold size_to_order
  split
  · exact le_refl _
  · exact size_to_orderGo_ge size _ _

/-- `allocAt` preserves well-formedness. -/
theorem allocAt_WFB (s : State) (order o : Nat) (hWF : WFB s)
    (h15 : kMinOrder ≤ order) (hoo : order ≤ o) (ho : o ≤ kMaxOrder) :
    WFB (allocAt s order o).1 := by
  obtain ⟨hcal, w⟩ := hWF
  unfold allocAt
  cases hfl : s.freeLists o with
  | nil => exact ⟨hcal, w⟩
  | cons block rest =>
    simp only
    have hmem : block ∈ s.freeLists o := by rw [hfl]; exact List.mem_cons_self _ _
    obtain ⟨-, -, hbdvd, hbend⟩ := w.fr o block hmem
    have w1 : ListsWF s.committed (flRemove s.freeLists o block) s.headers :=
      w.remove o block
    have g1 : GoodBlock s.committed (flRemove s.freeLists o block) s.headers block o := by
      refine ⟨by omega, ho, hbdvd, hbend, ?_, ?_⟩
      · intro o' x hx
        have hx' := flRemove_subset hx
        have hne : o' ≠ o ∨ x ≠ block := by
          by_contra hcon
          push_neg at hcon
          obtain ⟨rfl, rfl⟩ := hcon
          exact absurd hx (by
            unfold flRemove
            simp only [if_pos rfl]
            exact (w.nd o').not_mem_erase)
        exact (w.ff o' x o block hx' hmem (by tauto)).symm2
      · intro b ob hb
        exact w.fh o block b ob hmem hb
    obtain ⟨w2, g2⟩ := splitGo_spec s.committed s.headers (o - order)
      (flRemove s.freeLists o block) block o w1 g1 (by omega)
    rw [show o - (o - order) = order by omega] at g2
    exact ⟨hcal, w2.hdrAdd g2⟩

/-- `grow` preserves well-formedness. -/
theorem grow_WFB (s s₁ : State) (hWF : WFB s) (h : grow s = some s₁) : WFB s₁ := by
  obtain ⟨hcal, w⟩ := hWF
  unfold grow at h
  split at h
  · cases h
  · cases h
    have hM : (1 : Nat) <<< kMaxOrder = 2 ^ kMaxOrder := one_shiftLeft_eq _
    have hMb : kMaxBlockSize = 2 ^ kMaxOrder := one_shiftLeft_eq _
    refine ⟨by rw [hMb]; exact Nat.dvd_add hcal dvd_rfl, ?_, ?_, ?_, ?_, ?_, ?_, ?_⟩
    · intro o' x hx
      rcases flAdd_mem hx with ⟨rfl, rfl⟩ | hx'
      · exact ⟨by simp [kMinOrder, kMaxOrder], le_refl _, hcal, by dsimp only; omega⟩
      · obtain ⟨f1, f2, f3, f4⟩ := w.fr o' x hx'
        exact ⟨f1, f2, f3, by dsimp only; omega⟩
    · intro o'
      simp only [flAdd]
      split
      · next heq =>
        subst heq
        refine List.Nodup.cons (fun hmem => ?_) (w.nd _)
        have := (w.fr _ _ hmem).2.2.2
        have := Nat.two_pow_pos kMaxOrder
        omega
      · exact w.nd o'
    · intro o₁ a₁ o₂ a₂ h1 h2 hne
      rcases flAdd_mem h1 with ⟨rfl, rfl⟩ | h1'
      · rcases flAdd_mem h2 with ⟨heq, rfl⟩ | h2'
        · omega
        · right
          exact (w.fr o₂ a₂ h2').2.2.2
      · rcases flAdd_mem h2 with ⟨rfl, rfl⟩ | h2'
        · left
          exact (w.fr o₁ a₁ h1').2.2.2
        · exact w.ff o₁ a₁ o₂ a₂ h1' h2' hne
    · intro b ob hb
      obtain ⟨f1, f2, f3, f4⟩ := w.hr b ob hb
      exact ⟨f1, f2, f3, by dsimp only; omega⟩
    · exact w.hh
    · intro o' x b ob hx hb
      rcases flAdd_mem hx with ⟨rfl, rfl⟩ | hx'
      · right
        exact (w.hr b ob hb).2.2.2
      · exact w.fh o' x b ob hx' hb
    · intro o' a₁ a₂ ho h1 h2 hne
      have hne21 : o' ≠ kMaxOrder := by omega
      have h1' : a₁ ∈ s.freeLists o' := by
        rcases flAdd_mem h1 with ⟨heq, -⟩ | h1'
        · omega
        · exact h1'
      have h2' : a₂ ∈ s.freeLists o' := by
        rcases flAdd_mem h2 with ⟨heq, -⟩ | h2'
        · omega
        · exact h2'
      exact w.nb o' a₁ a₂ ho h1' h2' hne

/-- `alloc` preserves well-formedness. -/
theorem alloc_WFB (s : State) (size : Nat) (hWF : WFB s) : WFB (alloc s size).1 := by
  unfold alloc
  split
  · exact hWF
  · simp only
    split
    · exact hWF
    · next hguard =>
      have h15 : kMinOrder ≤ size_to_order (size + kHeaderSize) :=
        size_to_order_ge _
      have h21 : size_to_order (size + kHeaderSize) ≤ kMaxOrder := by omega
      split
      · next o hfind =>
        obtain ⟨hle, hlt, -⟩ := findFrom_spec s.freeLists _ _ o hfind
        exact allocAt_WFB s _ o hWF h15 hle (by omega)
      · split
        · exact hWF
        · next s₁ hgrow =>
          have hWF₁ : WFB s₁ := grow_WFB s s₁ hWF hgrow
          split
          · next o hfind =>
            obtain ⟨hle, hlt, -⟩ := findFrom_spec s₁.freeLists _ _ o hfind
            exact allocAt_WFB s₁ _ o hWF₁ h15 hle (by omega)
          · exact hWF₁

/-- `free` preserves well-formedness. -/
theorem free_WFB (s : State) (user : Nat) (s' : State) (hWF : WFB s)
    (h : free s user = some s') : WFB s' := by
  obtain ⟨hcal, w⟩ := hWF
  unfold free at h
  split at h
  · cases h
    exact ⟨hcal, w⟩
  · simp only at h
    split at h
    · cases h
    · next order hhdr =>
      set ptr := user - kHeaderSize with hptr
      have w1 : ListsWF s.committed s.freeLists
          (fun b => if b = ptr then none else s.headers b) := w.hdrDrop ptr
      obtain ⟨p1, p2, p3, p4⟩ := w.hr ptr order hhdr
      have g1 : GoodBlock s.committed s.freeLists
          (fun b => if b = ptr then none else s.headers b) ptr order := by
        refine ⟨p1, p2, p3, p4, ?_, ?_⟩
        · intro o' x hx
          exact (w.fh o' x ptr order hx hhdr).symm2
        · intro b ob hb
          dsimp only at hb
          split at hb
          · exact absurd hb (by simp)
          · next hne =>
            exact w.hh ptr order b ob hhdr hb (fun hcon => hne hcon.symm)
      obtain ⟨w2, g2, hexit⟩ := mergeGo_spec s.committed _
        (kMaxOrder - order) s.freeLists ptr order w1 g1 rfl
      cases h
      exact ⟨hcal, w2.addFinal g2 hexit⟩

theorem WFB.noBuddies {s : State} (h : WFB s) : NoSameOrderBuddies s := by
  intro o a₁ a₂ ho h1 h2 hne
  rw [get_buddy, one_shiftLeft_eq]
  exact h.2.nb o a₁ a₂ ho h1 h2 hne

theorem WFB_init (r : Nat) : WFB (init r) := by
  refine ⟨dvd_zero _, ?_, ?_, ?_, ?_, ?_, ?_, ?_⟩
  · intro o a ha
    exact absurd ha (List.not_mem_nil a)
  · intro o
    exact List.nodup_nil
  · intro o₁ a₁ o₂ a₂ h1
    exact absurd h1 (List.not_mem_nil a₁)
  · intro b o hb
    exact absurd hb (by simp [init])
  · intro b₁ o₁ b₂ o₂ h1
    exact absurd h1 (by simp [init])
  · intro o a b ob ha
    exact absurd ha (List.not_mem_nil a)
  · intro o a₁ a₂ ho h1
    exact absurd h1 (List.not_mem_nil a₁)

/-- C8 (amended): starting from any well-formed buddy state, after a
    completed `BuddyAllocator::alloc` or `BuddyAllocator::free` no two
    distinct free blocks of one order strictly below the maximum order are
    buddies of one another.  (At the maximum order itself the merge loop's
    `order < kMaxOrder` guard stops coalescing, and two adjacent free
    superblocks are buddies by the XOR rule; see the counterexample.)
    The merge behaviour itself — merge with the buddy, taking the lower
    address and incrementing the order, exactly while the buddy is inside
    the committed range and present in the current order's free list — is
    the definition of `mergeGo` / `free`, translated from the source. -/
theorem claim_C8_buddy_coalescing_invariant (s : State) (hWF : WFB s) :
    (∀ size, NoSameOrderBuddies (alloc s size).1) ∧
    (∀ user s', free s user = some s' → NoSameOrderBuddies s') := by
  constructor
  · intro size
    exact (alloc_WFB s size hWF).noBuddies
  · intro user s' h
    exact (free_WFB s user s' hWF h).noBuddies

/-- C8 witness: the preserved invariant on a fresh allocator with four
    reserved superblocks. -/
theorem claim_C8_witness :
    (∀ size, NoSameOrderBuddies (alloc (init (4 * kMaxBlockSize)) size).1) ∧
    (∀ user s', free (init (4 * kMaxBlockSize)) user = some s' →
      NoSameOrderBuddies s') :=
  claim_C8_buddy_coalescing_invariant (init (4 * kMaxBlockSize))
    (WFB_init (4 * kMaxBlockSize))

/-- C8 counterexample to the unrestricted claim: after allocating two full
    superblocks and freeing both, the free list at the maximum order holds
    the blocks at offsets 0 and `kMaxBlockSize`, which are buddies of one
    another (`0 ^^^ 2 ^ 21 = 2 ^ 21`), so "no two free blocks of the same
    order are buddies" fails at the maximum order. -/
theorem claim_C8_counterexample :
    c8Trace.isSome = true ∧
    0 ∈ c8Final.freeLists kMaxOrder ∧
    kMaxBlockSize ∈ c8Final.freeLists kMaxOrder ∧
    get_buddy 0 kMaxOrder = kMaxBlockSize ∧
    (0 : Nat) ≠ kMaxBlockSize := by
  refine ⟨by decide, by decide, by decide, by decide, by decide⟩

end BuddyAllocator

/-! ### Claim C7 -/

namespace Allocator

theorem findDec_some (st : Nat → SbState) :
    ∀ fuel i j, findDec st i fuel = some j →
      i ≤ j ∧ j < i + fuel ∧ st j = SbState.Decommitted ∧
      ∀ k, i ≤ k → k < j → st k ≠ SbState.Decommitted := by
  intro fuel
  induction fuel with
  | zero => intro i j h; simp [findDec] at h
  | succ fuel ih =>
    intro i j h
    rw [findDec] at h
    split at h
    · cases h
      next hdec => exact ⟨le_refl _, by omega, hdec, fun k hk1 hk2 => by omega⟩
    · next hnot =>
      obtain ⟨h1, h2, h3, h4⟩ := ih (i + 1) j h
      refine ⟨by omega, by omega, h3, fun k hk1 hk2 => ?_⟩
      rcases Nat.eq_or_lt_of_le hk1 with rfl | hk
      · exact hnot
      · exact h4 k (by omega) hk2

theorem findDec_none (st : Nat → SbState) :
    ∀ fuel i, findDec st i fuel = none →
      ∀ k, i ≤ k → k < i + fuel → st k ≠ SbState.Decommitted := by
  intro fuel
  induction fuel with
  | zero => intro i _ k h1 h2; omega
  | succ fuel ih =>
    intro i h k hk1 hk2
    rw [findDec] at h
    split at h
    · cases h
    · next hnot =>
      rcases Nat.eq_or_lt_of_le hk1 with rfl | hk
      · exact hnot
      · exact ih (i + 1) h k (by omega) (by omega)

theorem findDec_none_of (st : Nat → SbState) :
    ∀ fuel i, (∀ k, i ≤ k → k < i + fuel → st k ≠ SbState.Decommitted) →
      findDec st i fuel = none := by
  intro fuel
  induction fuel with
  | zero => intro i _; rfl
  | succ fuel ih =>
    intro i h
    rw [findDec, if_neg (h i (le_refl _) (by omega))]
    exact ih (i + 1) fun k hk1 hk2 => h k (by omega) (by omega)

/-- C7: `Allocator::alloc` tries the thread-local cache, then the global
    stack, then the OS refill, in that order; and before advancing the
    committed-end cursor the refill first recommits the lowest-numbered
    `Decommitted` superblock — marking it `InUse`, resetting its free-cell
    counter and re-carving its cells — leaving the cursor untouched; only
    when no `Decommitted` superblock exists does it claim one fresh
    superblock at the cursor (or fail when the reservation is
    exhausted). -/
theorem claim_C7_pool_alloc_tiers (s : State) :
    (∀ c rest, s.tlsCache = c :: rest →
      (alloc s).2 = some c ∧ (alloc s).1.tlsCache = rest ∧
      (alloc s).1.globalStack = s.globalStack ∧
      (alloc s).1.committedEnd = s.committedEnd) ∧
    (∀ c rest, s.tlsCache = [] → s.globalStack = c :: rest →
      (alloc s).2 = some c ∧ (alloc s).1.globalStack = rest ∧
      (alloc s).1.tlsCache = [] ∧
      (alloc s).1.committedEnd = s.committedEnd) ∧
    (s.tlsCache = [] → s.globalStack = [] → alloc s = refill_from_os s) ∧
    (s.tlsCache = [] → s.globalStack = [] →
      (∃ k, k < s.numSuperblocks ∧ s.sbStates k = SbState.Decommitted) →
      ∃ i, i < s.numSuperblocks ∧ s.sbStates i = SbState.Decommitted ∧
        (∀ k, k < i → s.sbStates k ≠ SbState.Decommitted) ∧
        (alloc s).1.committedEnd = s.committedEnd ∧
        (alloc s).2 = some (i * kSuperblockSize) ∧
        (alloc s).1.sbStates i = SbState.InUse ∧
        (alloc s).1.freeCells i = kCellsPerSuperblock - 1 ∧
        (alloc s).1.globalStack = carveCells (i * kSuperblockSize) ++ s.globalStack) ∧
    (s.tlsCache = [] → s.globalStack = [] →
      (∀ k, k < s.numSuperblocks → s.sbStates k ≠ SbState.Decommitted) →
      (s.committedEnd + kSuperblockSize ≤ s.reservedSize →
        (alloc s).1.committedEnd = s.committedEnd + kSuperblockSize ∧
        (alloc s).2 = some s.committedEnd) ∧
      (s.reservedSize < s.committedEnd + kSuperblockSize →
        alloc s = (s, none))) := by
  refine ⟨?_, ?_, ?_, ?_, ?_⟩
  · intro c rest h
    unfold alloc
    rw [h]
    simp only [noteFromPool]
    split
    · split <;> simp
    · simp
  · intro c rest h1 h2
    unfold alloc
    rw [h1, h2]
    simp only [noteFromPool]
    split
    · split <;> simp
    · simp
  · intro h1 h2
    unfold alloc
    rw [h1, h2]
  · intro h1 h2 hex
    unfold alloc
    rw [h1, h2]
    cases hfind : findDec s.sbStates 0 s.numSuperblocks with
    | none =>
      obtain ⟨k, hk1, hk2⟩ := hex
      exact absurd hk2 (findDec_none s.sbStates s.numSuperblocks 0 hfind k (by omega) (by omega))
    | some i =>
      obtain ⟨-, hlt, hdec, hmin⟩ := findDec_some s.sbStates s.numSuperblocks 0 i hfind
      refine ⟨i, by omega, hdec, fun k hk => hmin k (by omega) hk, ?_⟩
      unfold refill_from_os
      rw [hfind]
      simp [h2]
  · intro h1 h2 hnone
    unfold alloc
    rw [h1, h2]
    have hfind : findDec s.sbStates 0 s.numSuperblocks = none :=
      findDec_none_of s.sbStates s.numSuperblocks 0 fun k hk1 hk2 => hnone k (by omega)
    unfold refill_from_os
    rw [hfind]
    constructor
    · intro hfit
      rw [if_neg (by omega)]
      simp
    · intro hfull
      rw [if_pos (by omega)]

/-- C7 witness: on a pool with superblock 1 decommitted and both caches
    empty, `alloc` recommits superblock 1 and leaves the cursor alone. -/
theorem claim_C7_pool_witness :
    (alloc c7s).2 = some kSuperblockSize ∧
    (alloc c7s).1.committedEnd = c7s.committedEnd ∧
    (alloc c7s).1.sbStates 1 = SbState.InUse ∧
    (alloc c7s).1.freeCells 1 = kCellsPerSuperblock - 1 := by
  obtain ⟨i, hi1, hi2, -, h4, h5, h6, h7, -⟩ :=
    (claim_C7_pool_alloc_tiers c7s).2.2.2.1 rfl rfl ⟨1, by decide, by decide⟩
  have hieq : i = 1 := by
    by_contra hne
    have : c7s.sbStates i = SbState.Uncommitted := by
      show (if i = 1 then SbState.Decommitted else SbState.Uncommitted) = _
      rw [if_neg hne]
    rw [hi2] at this
    cases this
  subst hieq
  exact ⟨by simpa using h5, h4, h6, h7⟩

end Allocator

namespace LargeAllocRegistry

/-- Removing the key `a` from an association list does not change lookups
    at any other key `b`. -/
theorem find2_filter_ne (l : List (Nat × LargeAlloc)) (a b : Nat) (h : a ≠ b) :
    (l.filter fun e => !(e.1 == a)).find? (fun e => e.1 == b) =
      l.find? (fun e => e.1 == b) := by
  induction l with
  | nil => rfl
  | cons e tl ih =>
    rw [List.filter_cons]
    by_cases he : e.1 = a
    · rw [if_neg (by simp [he])]
      rw [List.find?_cons_of_neg _ (by simp [he, h])]
      exact ih
    · rw [if_pos (by simp [he])]
      by_cases he' : e.1 = b
      · rw [List.find?_cons_of_pos _ (by simp [he']),
          List.find?_cons_of_pos _ (by simp [he'])]
      · rw [List.find?_cons_of_neg _ (by simp [he']),
          List.find?_cons_of_neg _ (by simp [he'])]
        exact ih

/-- A failed registry `alloc` leaves the registry unchanged. -/
theorem lr_alloc_fail_frame {s s' : State} {size tag : Nat} {tryHuge : Bool}
    (h : alloc s size tag tryHuge = (s', none)) : s' = s := by
  unfold alloc at h
  split at h
  · injection h with h1 _
    exact h1.symm
  · split at h
    · injection h with h1 _
      exact h1.symm
    · dsimp only at h
      injection h with _ h2
      simp at h2

/-- A successful registry `alloc` owns the pointer it returned. -/
theorem alloc_owns {s s' : State} {size tag : Nat} {tryHuge : Bool} {r : Nat}
    (h : alloc s size tag tryHuge = (s', some r)) : owns s' r = true := by
  unfold alloc at h
  split at h
  · simp at h
  · split at h
    · simp at h
    · dsimp only at h
      injection h with h1 h2
      injection h2 with h2
      subst h2
      rw [← h1]
      simp [owns, lookup]

/-- A successful in-tier registry realloc's copy: the first
    `min(old recorded size, new)` bytes of the new block equal the old
    block's bytes. -/
theorem lr_realloc_copy {s s' : State} {mem mem' : Nat → Nat} {p n tag q : Nat}
    {rec : LargeAlloc}
    (hp : p ≠ 0) (hn : n ≠ 0) (hrec : lookup s p = some rec)
    (h : realloc_bytes s mem p n tag = (s', mem', some q)) :
    ∀ i, i < min rec.size n → mem' (q + i) = mem (p + i) := by
  unfold realloc_bytes at h
  rw [if_neg hp, if_neg hn, hrec] at h
  dsimp only at h
  cases hA : alloc s n rec.tag true with
  | mk s₁ aopt =>
    rw [hA] at h
    cases aopt with
    | none => simp at h
    | some q0 =>
      dsimp only at h
      injection h with h1 h2
      injection h2 with h2 h3
      injection h3 with h3
      subst h3
      intro i hi
      rw [← h2]
      simp only [memcpy]
      rw [if_pos ⟨by omega, by omega⟩]
      congr 1
      omega

/-- A failed in-tier registry realloc leaves registry and memory
    unchanged. -/
theorem lr_realloc_fail {s s' : State} {mem mem' : Nat → Nat} {p n tag : Nat}
    (hp : p ≠ 0) (hn : n ≠ 0)
    (h : realloc_bytes s mem p n tag = (s', mem', none)) :
    s' = s ∧ mem' = mem := by
  unfold realloc_bytes at h
  rw [if_neg hp, if_neg hn] at h
  cases hlk : lookup s p with
  | none =>
    rw [hlk] at h
    dsimp only at h
    injection h with h1 h2
    injection h2 with h2 _
    exact ⟨h1.symm, h2.symm⟩
  | some rec =>
    rw [hlk] at h
    dsimp only at h
    cases hA : alloc s n rec.tag true with
    | mk s₁ aopt =>
      rw [hA] at h
      cases aopt with
      | none =>
        injection h with h1 h2
        injection h2 with h2 _
        have hs := lr_alloc_fail_frame hA
        exact ⟨h1.symm.trans hs, h2.symm⟩
      | some q0 =>
        dsimp only at h
        simp at h

/-- `free` at one pointer does not change lookups at any other pointer. -/
theorem lookup_free_ne (s : State) (a b : Nat) (h : a ≠ b) :
    lookup (free s a) b = lookup s b := by
  unfold free
  split
  · rfl
  · split
    · rfl
    · unfold lookup eraseKey
      exact congrArg (Option.map _) (find2_filter_ne s.allocs a b h)

/-- **C10.** For every pointer `p` registered in the Large Registry,
    `realloc_bytes(p, new_size, tag)` is independent of the `tag`
    argument, and whenever it succeeds the new allocation is recorded
    under the tag stored for `p` at its original allocation — so a large
    allocation's tag never changes across in-tier reallocs.  (`hq` says
    the OS hands back a fresh address, which the bump model guarantees in
    every reachable state.) -/
theorem claim_C10_large_realloc_keeps_tag
    (s : State) (mem : Nat → Nat) (p n t t' : Nat) (old : LargeAlloc)
    (hp : p ≠ 0) (hn : n ≠ 0) (hlook : lookup s p = some old)
    (hq : p ≠ s.nextPtr) :
    realloc_bytes s mem p n t = realloc_bytes s mem p n t' ∧
    ∀ s' mem' q, realloc_bytes s mem p n t = (s', mem', some q) →
      lookup s' q = some ⟨n, q, old.tag, decide (n ≥ kMinLargeSize), false⟩ := by
  unfold realloc_bytes
  simp only [if_neg hp, if_neg hn, hlook]
  refine ⟨trivial, ?_⟩
  intro s' mem' q h
  unfold alloc at h
  rw [if_neg hn] at h
  by_cases hos : s.osOk = false
  · rw [if_pos hos] at h
    simp at h
  · rw [if_neg hos] at h
    dsimp only at h
    injection h with h1 h23
    injection h23 with h2 h3
    injection h3 with h3
    subst h3
    subst h1
    rw [lookup_free_ne _ _ _ hq]
    unfold lookup
    dsimp only
    rw [List.find?_cons_of_pos _ (by simp)]
    rfl

/-- Witness for C10: reallocating the 64-byte block at 1000 (tag 7) to
    128 bytes gives the same result whether tag 3 or tag 9 is passed,
    and the new entry carries tag 7. -/
theorem claim_C10_witness :
    realloc_bytes c10s (fun _ => 0) 1000 128 3 =
      realloc_bytes c10s (fun _ => 0) 1000 128 9 ∧
    ∀ s' mem' q, realloc_bytes c10s (fun _ => 0) 1000 128 3 = (s', mem', some q) →
      lookup s' q = some ⟨128, q, 7, decide (128 ≥ kMinLargeSize), false⟩ :=
  claim_C10_large_realloc_keeps_tag c10s (fun _ => 0) 1000 128 3 9
    ⟨64, 1000, 7, false, false⟩ (by decide) (by decide) rfl (by decide)

end LargeAllocRegistry

namespace Allocator

/-- A failed pool `alloc` leaves the pool unchanged: every failure path
    falls through to the exhausted-reservation branch of
    `refill_from_os`, which touches nothing. -/
theorem pool_alloc_fail_frame {s s' : State} (h : alloc s = (s', none)) : s' = s := by
  unfold alloc at h
  split at h
  · simp at h
  · split at h
    · simp at h
    · unfold refill_from_os at h
      split at h
      · simp at h
      · split at h
        · injection h with h1 _
          exact h1.symm
        · simp at h

end Allocator

namespace BuddyAllocator

/-- When the free-list scan fails, every scanned order's list is
    empty. -/
theorem findFrom_none (fl : Nat → List Nat) :
    ∀ fuel o, findFrom fl o fuel = none → ∀ j, o ≤ j → j < o + fuel → fl j = [] := by
  intro fuel
  induction fuel with
  | zero => intro o _ j h1 h2; omega
  | succ fuel ih =>
    intro o h j h1 h2
    rw [findFrom] at h
    split at h
    · exact absurd h (by simp)
    · next hne =>
      rcases Nat.eq_or_lt_of_le h1 with rfl | hlt
      · exact not_not.mp hne
      · exact ih (o + 1) h j hlt (by omega)

/-- A failed buddy `alloc` leaves the allocator unchanged: after a
    successful `grow` the top free list is non-empty, so the rescan never
    misses, and the only failure exits are before any mutation. -/
theorem buddy_alloc_fail_frame {s s' : State} {size : Nat} (h : alloc s size = (s', none)) :
    s' = s := by
  unfold alloc at h
  split at h
  · injection h with h1 _
    exact h1.symm
  · dsimp only at h
    split at h
    · injection h with h1 _
      exact h1.symm
    · next hord =>
      cases hf : findFrom s.freeLists (size_to_order (size + kHeaderSize))
          (kMaxOrder + 1 - size_to_order (size + kHeaderSize)) with
      | some o =>
        rw [hf] at h
        dsimp only at h
        obtain ⟨-, -, hne⟩ := findFrom_spec _ _ _ _ hf
        unfold allocAt at h
        cases hl : s.freeLists o with
        | nil => exact absurd hl hne
        | cons b rest => rw [hl] at h; simp at h
      | none =>
        rw [hf] at h
        dsimp only at h
        cases hg : grow s with
        | none =>
          rw [hg] at h
          dsimp only at h
          injection h with h1 _
          exact h1.symm
        | some s₁ =>
          rw [hg] at h
          dsimp only at h
          cases hf2 : findFrom s₁.freeLists (size_to_order (size + kHeaderSize))
              (kMaxOrder + 1 - size_to_order (size + kHeaderSize)) with
          | some o =>
            rw [hf2] at h
            dsimp only at h
            obtain ⟨-, -, hne⟩ := findFrom_spec _ _ _ _ hf2
            unfold allocAt at h
            cases hl : s₁.freeLists o with
            | nil => exact absurd hl hne
            | cons b rest => rw [hl] at h; simp at h
          | none =>
            exfalso
            have hmax : s₁.freeLists kMaxOrder = [] :=
              findFrom_none _ _ _ hf2 kMaxOrder (by omega) (by omega)
            unfold grow at hg
            split at hg
            · exact absurd hg (by simp)
            · injection hg with hg1
              rw [← hg1] at hmax
              simp [flAdd] at hmax

/-- A successful buddy realloc's copy: the first
    `min(old usable, new)` bytes of the new block equal the old block's
    bytes (addresses taken relative to the region base). -/
theorem buddy_realloc_copy {s s' : State} {mem mem' : Nat → Nat} {base user newSize q : Nat}
    (h : realloc_bytes s mem base user newSize = (s', mem', some q)) :
    ∀ i, i < min (get_alloc_size s user - kHeaderSize) newSize →
      mem' (base + q + i) = mem (base + user + i) := by
  unfold realloc_bytes at h
  cases hA : alloc s newSize with
  | mk s₁ aopt =>
    rw [hA] at h
    cases aopt with
    | none => simp at h
    | some q0 =>
      dsimp only at h
      cases hF : free s₁ user with
      | none =>
        rw [hF] at h
        injection h with h1 h2
        injection h2 with h2 h3
        injection h3 with h3
        subst h3
        intro i hi
        rw [← h2]
        simp only [memcpy]
        rw [if_pos ⟨by omega, by omega⟩]
        congr 1
        omega
      | some s₂ =>
        rw [hF] at h
        injection h with h1 h2
        injection h2 with h2 h3
        injection h3 with h3
        subst h3
        intro i hi
        rw [← h2]
        simp only [memcpy]
        rw [if_pos ⟨by omega, by omega⟩]
        congr 1
        omega

/-- A failed buddy realloc leaves allocator and memory unchanged. -/
theorem buddy_realloc_fail {s s' : State} {mem mem' : Nat → Nat} {base user newSize : Nat}
    (h : realloc_bytes s mem base user newSize = (s', mem', none)) :
    s' = s ∧ mem' = mem := by
  unfold realloc_bytes at h
  cases hA : alloc s newSize with
  | mk s₁ aopt =>
    rw [hA] at h
    cases aopt with
    | none =>
      injection h with h1 h2
      injection h2 with h2 _
      have hs := buddy_alloc_fail_frame hA
      exact ⟨h1.symm.trans hs, h2.symm⟩
    | some q0 =>
      dsimp only at h
      cases hF : free s₁ user with
      | none => rw [hF] at h; simp at h
      | some s₂ => rw [hF] at h; simp at h

end BuddyAllocator

namespace Context

/-- The refill loop touches only the bin bookkeeping and the TLS cache:
    pool, buddy, large registry and memory are untouched. -/
theorem refillLoop_frame : ∀ fuel (ctx : Context) (bin r : Nat),
    (refillLoop fuel ctx bin r).1.pool = ctx.pool ∧
    (refillLoop fuel ctx bin r).1.buddy = ctx.buddy ∧
    (refillLoop fuel ctx bin r).1.large = ctx.large ∧
    (refillLoop fuel ctx bin r).1.mem = ctx.mem := by
  intro fuel
  induction fuel with
  | zero => intro ctx bin r; exact ⟨rfl, rfl, rfl, rfl⟩
  | succ n ih =>
    intro ctx bin r
    simp only [refillLoop]
    by_cases hcond : r = 0 ∨ kTlsBinCacheCapacity ≤ (ctx.tlsBin bin).length
    · rw [if_pos hcond]; exact ⟨rfl, rfl, rfl, rfl⟩
    · rw [if_neg hcond]
      cases hp : (ctx.bins bin).partials with
      | nil => exact ⟨rfl, rfl, rfl, rfl⟩
      | cons c restParts =>
        dsimp only
        cases hc : ctx.cellInfo c with
        | none => exact ⟨rfl, rfl, rfl, rfl⟩
        | some cr => exact ih _ _ _

/-- `batch_refill_tls_bin` leaves the buddy allocator, the large registry
    and memory untouched. -/
theorem batch_refill_frame (ctx : Context) (bin tag : Nat) :
    (batch_refill_tls_bin ctx bin tag).buddy = ctx.buddy ∧
    (batch_refill_tls_bin ctx bin tag).large = ctx.large ∧
    (batch_refill_tls_bin ctx bin tag).mem = ctx.mem := by
  obtain ⟨hp, hb, hl, hm⟩ :=
    refillLoop_frame ((ctx.bins bin).partials.length + 1) ctx bin kTlsBinBatchRefill
  unfold batch_refill_tls_bin
  cases hR : refillLoop ((ctx.bins bin).partials.length + 1) ctx bin kTlsBinBatchRefill with
  | mk ctx₁ r =>
    rw [hR] at hb hl hm
    dsimp only at hb hl hm ⊢
    by_cases hcond : 0 < r ∧ (ctx₁.tlsBin bin).length < kTlsBinCacheCapacity
    · rw [if_pos hcond]
      cases hA : Allocator.alloc ctx₁.pool with
      | mk p' res =>
        cases res with
        | none => exact ⟨hb, hl, hm⟩
        | some off => exact ⟨hb, hl, hm⟩
    · rw [if_neg hcond]
      exact ⟨hb, hl, hm⟩

/-- The lock-based bin path leaves buddy, large and memory untouched. -/
theorem allocFromBinGlobal_frame (ctx : Context) (bin tag : Nat) :
    (allocFromBinGlobal ctx bin tag).1.buddy = ctx.buddy ∧
    (allocFromBinGlobal ctx bin tag).1.large = ctx.large ∧
    (allocFromBinGlobal ctx bin tag).1.mem = ctx.mem := by
  unfold allocFromBinGlobal
  cases hp : (ctx.bins bin).partials with
  | cons c restParts =>
    dsimp only
    cases hc : ctx.cellInfo c with
    | none => exact ⟨rfl, rfl, rfl⟩
    | some cr =>
      dsimp only
      cases hl : cr.freeList with
      | nil => exact ⟨rfl, rfl, rfl⟩
      | cons blk rest => exact ⟨rfl, rfl, rfl⟩
  | nil =>
    cases hA : Allocator.alloc ctx.pool with
    | mk p' res =>
      dsimp only
      cases res with
      | none => exact ⟨rfl, rfl, rfl⟩
      | some off =>
        dsimp only
        cases hm : mkFreeList (kCellRegionBase + off) bin with
        | nil => exact ⟨rfl, rfl, rfl⟩
        | cons blk rest => exact ⟨rfl, rfl, rfl⟩

/-- `alloc_from_bin` leaves buddy, large and memory untouched. -/
theorem alloc_from_bin_frame (ctx : Context) (bin tag : Nat) :
    (alloc_from_bin ctx bin tag).1.buddy = ctx.buddy ∧
    (alloc_from_bin ctx bin tag).1.large = ctx.large ∧
    (alloc_from_bin ctx bin tag).1.mem = ctx.mem := by
  unfold alloc_from_bin
  by_cases hb : bin < kTlsBinCacheCount
  · rw [if_pos hb]
    cases ht : ctx.tlsBin bin with
    | cons blk rest => exact ⟨rfl, rfl, rfl⟩
    | nil =>
      dsimp only
      obtain ⟨hb1, hl1, hm1⟩ := batch_refill_frame ctx bin tag
      cases ht2 : (batch_refill_tls_bin ctx bin tag).tlsBin bin with
      | cons blk rest => exact ⟨hb1, hl1, hm1⟩
      | nil =>
        obtain ⟨hb2, hl2, hm2⟩ :=
          allocFromBinGlobal_frame (batch_refill_tls_bin ctx bin tag) bin tag
        exact ⟨hb2.trans hb1, hl2.trans hl1, hm2.trans hm1⟩
  · rw [if_neg hb]
    exact allocFromBinGlobal_frame ctx bin tag

/-- `alloc_cell` touches only the pool and the cell map. -/
theorem alloc_cell_frame (ctx : Context) (tag : Nat) :
    (alloc_cell ctx tag).1.buddy = ctx.buddy ∧
    (alloc_cell ctx tag).1.large = ctx.large ∧
    (alloc_cell ctx tag).1.mem = ctx.mem ∧
    (alloc_cell ctx tag).1.bins = ctx.bins ∧
    (alloc_cell ctx tag).1.tlsBin = ctx.tlsBin := by
  unfold alloc_cell
  cases hA : Allocator.alloc ctx.pool with
  | mk p' res =>
    cases res with
    | none => exact ⟨rfl, rfl, rfl, rfl, rfl⟩
    | some off => exact ⟨rfl, rfl, rfl, rfl, rfl⟩

/-- The full-cell path touches only the pool and the cell map. -/
theorem allocFullCell_frame (ctx : Context) (tag : Nat) :
    (allocFullCell ctx tag).1.buddy = ctx.buddy ∧
    (allocFullCell ctx tag).1.large = ctx.large ∧
    (allocFullCell ctx tag).1.mem = ctx.mem ∧
    (allocFullCell ctx tag).1.bins = ctx.bins ∧
    (allocFullCell ctx tag).1.tlsBin = ctx.tlsBin := by
  obtain ⟨h1, h2, h3, h4, h5⟩ := alloc_cell_frame ctx tag
  unfold allocFullCell
  cases hA : alloc_cell ctx tag with
  | mk ctx' res =>
    rw [hA] at h1 h2 h3 h4 h5
    cases res with
    | none => exact ⟨h1, h2, h3, h4, h5⟩
    | some c => exact ⟨h1, h2, h3, h4, h5⟩

/-- `alloc_large` touches only the buddy allocator or the large
    registry. -/
theorem alloc_large_frame (ctx : Context) (size tag : Nat) :
    (alloc_large ctx size tag).1.pool = ctx.pool ∧
    (alloc_large ctx size tag).1.cellInfo = ctx.cellInfo ∧
    (alloc_large ctx size tag).1.bins = ctx.bins ∧
    (alloc_large ctx size tag).1.tlsBin = ctx.tlsBin ∧
    (alloc_large ctx size tag).1.mem = ctx.mem := by
  unfold alloc_large
  by_cases h0 : size = 0
  · rw [if_pos h0]; exact ⟨rfl, rfl, rfl, rfl, rfl⟩
  · rw [if_neg h0]
    by_cases hle : size ≤ BuddyAllocator.kMaxBlockSize
    · rw [if_pos hle]
      cases hB : BuddyAllocator.alloc ctx.buddy size with
      | mk b' r => exact ⟨rfl, rfl, rfl, rfl, rfl⟩
    · rw [if_neg hle]
      cases hL : LargeAllocRegistry.alloc ctx.large size tag true with
      | mk l' r => exact ⟨rfl, rfl, rfl, rfl, rfl⟩

/-- `alloc_bytes` never touches user memory (release configuration: no
    guard fills, no poisoning). -/
theorem alloc_bytes_mem (ctx : Context) (size tag alignment : Nat) :
    (alloc_bytes ctx size tag alignment).1.mem = ctx.mem := by
  unfold alloc_bytes allocBytesSlow
  by_cases h0 : size = 0
  · rw [if_pos h0]
  · rw [if_neg h0]
    by_cases hal : alignment = 0 ∨ alignment &&& (alignment - 1) ≠ 0 ∨ 16 < alignment
    · rw [if_pos hal]
    · rw [if_neg hal]
      by_cases hsub : size ≤ kMaxSubCellSize
      · rw [if_pos hsub]
        by_cases hfast : alignment ≤ 8 ∧ size ≤ 4096
        · rw [if_pos hfast]
          dsimp only
          cases ht : ctx.tlsBin (get_size_class_fast size) with
          | cons blk rest => rfl
          | nil =>
            dsimp only
            by_cases hmark : get_size_class size alignment = kFullCellMarker
            · rw [if_pos hmark]
              exact (allocFullCell_frame ctx tag).2.2.1
            · rw [if_neg hmark]
              exact (alloc_from_bin_frame ctx (get_size_class size alignment) tag).2.2
        · rw [if_neg hfast]
          dsimp only
          by_cases hmark : get_size_class size alignment = kFullCellMarker
          · rw [if_pos hmark]
            exact (allocFullCell_frame ctx tag).2.2.1
          · rw [if_neg hmark]
            exact (alloc_from_bin_frame ctx (get_size_class size alignment) tag).2.2
      · rw [if_neg hsub]
        by_cases hcell : size ≤ kCellSize - kBlockStartOffset
        · rw [if_pos hcell]
          exact (allocFullCell_frame ctx tag).2.2.1
        · rw [if_neg hcell]
          exact (alloc_large_frame ctx size tag).2.2.2.2

/-- `free_to_bin` never touches user memory. -/
theorem free_to_bin_mem (ctx : Context) (ptr : Nat) :
    (free_to_bin ctx ptr).mem = ctx.mem := by
  unfold free_to_bin
  dsimp only
  cases hc : ctx.cellInfo (get_header ptr) with
  | none => rfl
  | some cr =>
    dsimp only
    by_cases htls : cr.sizeClass < kTlsBinCacheCount ∧
        (ctx.tlsBin cr.sizeClass).length < kTlsBinCacheCapacity
    · rw [if_pos htls]
    · rw [if_neg htls]
      by_cases hfull : cr.freeCount + 1 = blocks_per_cell cr.sizeClass
      · simp only [if_pos hfull]
        by_cases hwarm : (ctx.bins cr.sizeClass).warmCellCount < kWarmCellsPerBin
        · rw [if_pos hwarm]
        · rw [if_neg hwarm]
      · simp only [if_neg hfull]

/-- `free_bytes` never touches user memory. -/
theorem free_bytes_mem (ctx : Context) (ptr : Nat) :
    (free_bytes ctx ptr).mem = ctx.mem := by
  unfold free_bytes
  by_cases h0 : ptr = 0
  · rw [if_pos h0]
  · rw [if_neg h0]
    by_cases hcell : kCellRegionBase ≤ ptr ∧ ptr < kCellRegionBase + ctx.pool.reservedSize
    · rw [if_pos hcell]
      cases hc : ctx.cellInfo (get_header ptr) with
      | none => rfl
      | some cr =>
        dsimp only
        by_cases htls : cr.sizeClass < kTlsBinCacheCount ∧
            (ctx.tlsBin cr.sizeClass).length < kTlsBinCacheCapacity
        · rw [if_pos htls]
        · rw [if_neg htls]
          by_cases hm : cr.sizeClass = kFullCellMarker
          · rw [if_pos hm]; rfl
          · rw [if_neg hm]
            exact free_to_bin_mem ctx ptr
    · rw [if_neg hcell]
      by_cases hbud : kBuddyRegionBase ≤ ptr ∧ ptr - kBuddyRegionBase < ctx.buddy.committed
      · rw [if_pos hbud]
        cases hB : BuddyAllocator.free ctx.buddy (ptr - kBuddyRegionBase) with
        | none => rfl
        | some b' => rfl
      · rw [if_neg hbud]
        by_cases hlg : (LargeAllocRegistry.lookup ctx.large ptr).isSome
        · rw [if_pos hlg]
        · rw [if_neg hlg]

/-- Sub-cell sizes never wrap the 64-bit `align_up`. -/
theorem small_no_wrap {size : Nat} (h : size ≤ kMaxSubCellSize) : size + 7 < U64 := by
  have h2 : (2 : Nat) ^ 64 = 18446744073709551616 := by norm_num
  simp only [kMaxSubCellSize] at h
  simp only [U64, h2]
  omega

/-- Sizes up to 4096 land in a bin with a TLS cache (bins 0–8). -/
theorem subcell_bin_lt_nine {size : Nat} (h0 : 0 < size) (h4096 : size ≤ 4096) :
    get_size_class size 8 < kTlsBinCacheCount := by
  have h7 := @small_no_wrap size (by simp only [kMaxSubCellSize]; omega)
  obtain ⟨hlt, -, -, hmin⟩ :=
    size_class_spec_small size h7 (by simp only [kMaxSubCellSize]; omega)
  by_contra hc
  push_neg at hc
  simp only [kTlsBinCacheCount] at hc
  have h8 : kSizeClasses 8 < size := hmin 8 (by omega)
  have h45 : kSizeClasses 8 = 4096 := rfl
  omega

/-- Every real bin's cells hold at least one block. -/
theorem blocks_per_cell_pos {bin : Nat} (h : bin < kNumSizeBins) :
    0 < blocks_per_cell bin := by
  simp only [kNumSizeBins] at h
  interval_cases bin <;> decide

/-- The drain loop only pushes onto the TLS cache: its result extends the
    cache it was given. -/
theorem drain_cache_suffix : ∀ r (fl cache : List Nat),
    ∃ s, (drain r fl cache).2.1 = s ++ cache := by
  intro r
  induction r with
  | zero => intro fl cache; exact ⟨[], rfl⟩
  | succ n ih =>
    intro fl cache
    simp only [drain]
    by_cases hcap : kTlsBinCacheCapacity ≤ cache.length
    · rw [if_pos hcap]; exact ⟨[], rfl⟩
    · rw [if_neg hcap]
      cases fl with
      | nil => exact ⟨[], rfl⟩
      | cons b rest =>
        obtain ⟨s, hs⟩ := ih rest (b :: cache)
        exact ⟨s ++ [b], by rw [hs]; simp⟩

/-- The refill loop only grows the drained bin's TLS cache. -/
theorem refillLoop_cache_suffix : ∀ fuel (ctx : Context) (bin r : Nat),
    ∃ s, (refillLoop fuel ctx bin r).1.tlsBin bin = s ++ ctx.tlsBin bin := by
  intro fuel
  induction fuel with
  | zero => intro ctx bin r; exact ⟨[], rfl⟩
  | succ n ih =>
    intro ctx bin r
    simp only [refillLoop]
    by_cases hcond : r = 0 ∨ kTlsBinCacheCapacity ≤ (ctx.tlsBin bin).length
    · rw [if_pos hcond]; exact ⟨[], rfl⟩
    · rw [if_neg hcond]
      cases hp : (ctx.bins bin).partials with
      | nil => exact ⟨[], rfl⟩
      | cons c restParts =>
        dsimp only
        cases hc : ctx.cellInfo c with
        | none => exact ⟨[], rfl⟩
        | some cr =>
          dsimp only
          obtain ⟨s2, hs2⟩ := drain_cache_suffix r cr.freeList (ctx.tlsBin bin)
          cases hD : drain r cr.freeList (ctx.tlsBin bin) with
          | mk fl' rest2 =>
            obtain ⟨cache', r'⟩ := rest2
            rw [hD] at hs2
            dsimp only at hs2
            dsimp only
            have hC : ∀ C : Context, C.tlsBin bin = cache' →
                ∃ s, (refillLoop n C bin r').1.tlsBin bin = s ++ ctx.tlsBin bin := by
              intro C hCtls
              obtain ⟨s1, hs1⟩ := ih C bin r'
              exact ⟨s1 ++ s2, by rw [hs1, hCtls, hs2, List.append_assoc]⟩
            exact hC _ (if_pos rfl)

/-- If the refill loop ends with the drained bin's TLS cache empty, it
    never drained anything: it returns its input unchanged.  (Live
    partial cells guarantee the first drained cell contributes a
    block.) -/
theorem refillLoop_noop : ∀ fuel (ctx : Context) (bin r : Nat),
    (∀ c cr, c ∈ (ctx.bins bin).partials → ctx.cellInfo c = some cr → cr.freeList ≠ []) →
    (refillLoop fuel ctx bin r).1.tlsBin bin = [] →
    refillLoop fuel ctx bin r = (ctx, r) := by
  intro fuel
  induction fuel with
  | zero => intro ctx bin r _ _; rfl
  | succ n ih =>
    intro ctx bin r hlive hemp
    simp only [refillLoop] at hemp ⊢
    by_cases hcond : r = 0 ∨ kTlsBinCacheCapacity ≤ (ctx.tlsBin bin).length
    · rw [if_pos hcond]
    · rw [if_neg hcond] at hemp ⊢
      cases hp : (ctx.bins bin).partials with
      | nil => rfl
      | cons c restParts =>
        rw [hp] at hemp
        dsimp only at hemp ⊢
        cases hc : ctx.cellInfo c with
        | none => rfl
        | some cr =>
          rw [hc] at hemp
          dsimp only at hemp
          exfalso
          push_neg at hcond
          obtain ⟨hr0, hcap⟩ := hcond
          have hfl : cr.freeList ≠ [] :=
            hlive c cr (by rw [hp]; exact List.mem_cons_self c restParts) hc
          obtain ⟨r0, rfl⟩ : ∃ r0, r = r0 + 1 := ⟨r - 1, by omega⟩
          rcases hlc : cr.freeList with _ | ⟨b, fl0⟩
          · exact hfl hlc
          · have hstep : drain (r0 + 1) cr.freeList (ctx.tlsBin bin)
                = drain r0 fl0 (b :: ctx.tlsBin bin) := by
              rw [hlc]
              simp only [drain]
              rw [if_neg (by omega)]
            obtain ⟨s2, hs2⟩ := drain_cache_suffix r0 fl0 (b :: ctx.tlsBin bin)
            cases hD : drain (r0 + 1) cr.freeList (ctx.tlsBin bin) with
            | mk fl' rest2 =>
              obtain ⟨cache', r'⟩ := rest2
              rw [hD] at hemp hstep
              dsimp only at hemp
              have hc' : cache' = s2 ++ b :: ctx.tlsBin bin := by
                have h2 := congrArg (fun x => x.2.1) hstep
                dsimp at h2
                rw [h2, hs2]
              have hgrow : ∀ C : Context, C.tlsBin bin = cache' →
                  (refillLoop n C bin r').1.tlsBin bin ≠ [] := by
                intro C hCtls hnil
                obtain ⟨s1, hs1⟩ := refillLoop_cache_suffix n C bin r'
                rw [hs1, hCtls, hc'] at hnil
                simp at hnil
              exact hgrow _ (if_pos rfl) hemp

/-- If `batch_refill_tls_bin` ends with the bin's TLS cache empty, it was
    a no-op: no partial cell contributed (they all have blocks when the
    state is live, so there were none) and the pool refused a fresh
    cell. -/
theorem batch_refill_noop (ctx : Context) (bin tag : Nat)
    (hlive : ∀ c cr, c ∈ (ctx.bins bin).partials → ctx.cellInfo c = some cr → cr.freeList ≠ [])
    (hbin : bin < kNumSizeBins)
    (hemp : (batch_refill_tls_bin ctx bin tag).tlsBin bin = []) :
    batch_refill_tls_bin ctx bin tag = ctx := by
  unfold batch_refill_tls_bin at hemp ⊢
  cases hR : refillLoop ((ctx.bins bin).partials.length + 1) ctx bin kTlsBinBatchRefill with
  | mk ctx₁ r =>
    rw [hR] at hemp
    dsimp only at hemp ⊢
    by_cases hcond : 0 < r ∧ (ctx₁.tlsBin bin).length < kTlsBinCacheCapacity
    · rw [if_pos hcond] at hemp ⊢
      cases hA : Allocator.alloc ctx₁.pool with
      | mk p' res =>
        rw [hA] at hemp
        cases res with
        | some off =>
          exfalso
          dsimp only at hemp
          rw [if_pos rfl] at hemp
          have hbp := blocks_per_cell_pos hbin
          rcases hmk : mkFreeList (kCellRegionBase + off) bin with _ | ⟨b, fl0⟩
          · have hlen : (mkFreeList (kCellRegionBase + off) bin).length = blocks_per_cell bin := by
              simp [mkFreeList]
            rw [hmk] at hlen
            simp at hlen
            omega
          · obtain ⟨r0, hr0⟩ : ∃ r0, r = r0 + 1 := ⟨r - 1, by omega⟩
            subst hr0
            have hstep : drain (r0 + 1) (mkFreeList (kCellRegionBase + off) bin) (ctx₁.tlsBin bin)
                = drain r0 fl0 (b :: ctx₁.tlsBin bin) := by
              rw [hmk]
              simp only [drain]
              rw [if_neg (by omega)]
            rw [hstep] at hemp
            obtain ⟨s2, hs2⟩ := drain_cache_suffix r0 fl0 (b :: ctx₁.tlsBin bin)
            rw [hs2] at hemp
            simp at hemp
        | none =>
          dsimp only at hemp ⊢
          have hnp := refillLoop_noop ((ctx.bins bin).partials.length + 1) ctx bin
            kTlsBinBatchRefill hlive (by rw [hR]; exact hemp)
          have h1 : ctx₁ = ctx := congrArg Prod.fst (hR.symm.trans hnp)
          have hpp : p' = ctx₁.pool := Allocator.pool_alloc_fail_frame hA
          rw [hpp]
          exact h1
    · rw [if_neg hcond] at hemp ⊢
      have hnp := refillLoop_noop ((ctx.bins bin).partials.length + 1) ctx bin
        kTlsBinBatchRefill hlive (by rw [hR]; exact hemp)
      exact congrArg Prod.fst (hR.symm.trans hnp)

/-- The lock-based bin path fails only without mutating the context. -/
theorem allocFromBinGlobal_fail {ctx ctx' : Context} {bin tag : Nat}
    (hbin : bin < kNumSizeBins)
    (h : allocFromBinGlobal ctx bin tag = (ctx', none)) : ctx' = ctx := by
  unfold allocFromBinGlobal at h
  cases hp : (ctx.bins bin).partials with
  | cons c restParts =>
    rw [hp] at h
    dsimp only at h
    cases hc : ctx.cellInfo c with
    | none =>
      rw [hc] at h
      injection h with h1 _
      exact h1.symm
    | some cr =>
      rw [hc] at h
      dsimp only at h
      cases hl : cr.freeList with
      | nil =>
        rw [hl] at h
        injection h with h1 _
        exact h1.symm
      | cons blk rest =>
        rw [hl] at h
        simp at h
  | nil =>
    rw [hp] at h
    dsimp only at h
    cases hA : Allocator.alloc ctx.pool with
    | mk p' res =>
      rw [hA] at h
      cases res with
      | none =>
        dsimp only at h
        injection h with h1 _
        have hpp := Allocator.pool_alloc_fail_frame hA
        rw [← h1, hpp]
      | some off =>
        dsimp only at h
        cases hmk : mkFreeList (kCellRegionBase + off) bin with
        | nil =>
          have hlen : (mkFreeList (kCellRegionBase + off) bin).length = blocks_per_cell bin := by
            simp [mkFreeList]
          rw [hmk] at hlen
          simp at hlen
          have hbp := blocks_per_cell_pos hbin
          exact absurd hbp (by omega)
        | cons blk rest =>
          rw [hmk] at h
          simp at h

/-- `alloc_from_bin` fails only without mutating the context. -/
theorem alloc_from_bin_fail {ctx ctx' : Context} {bin tag : Nat}
    (hbin : bin < kNumSizeBins)
    (hlive : ∀ c cr, c ∈ (ctx.bins bin).partials → ctx.cellInfo c = some cr → cr.freeList ≠ [])
    (h : alloc_from_bin ctx bin tag = (ctx', none)) : ctx' = ctx := by
  unfold alloc_from_bin at h
  by_cases hb : bin < kTlsBinCacheCount
  · rw [if_pos hb] at h
    cases ht : ctx.tlsBin bin with
    | cons blk rest => rw [ht] at h; simp at h
    | nil =>
      rw [ht] at h
      dsimp only at h
      cases ht2 : (batch_refill_tls_bin ctx bin tag).tlsBin bin with
      | cons blk rest => rw [ht2] at h; simp at h
      | nil =>
        rw [ht2] at h
        dsimp only at h
        have hno := batch_refill_noop ctx bin tag hlive hbin ht2
        rw [hno] at h
        exact allocFromBinGlobal_fail hbin h
  · rw [if_neg hb] at h
    exact allocFromBinGlobal_fail hbin h

/-- `alloc_cell` fails only without mutating the context. -/
theorem alloc_cell_fail {ctx ctx' : Context} {tag : Nat}
    (h : alloc_cell ctx tag = (ctx', none)) : ctx' = ctx := by
  unfold alloc_cell at h
  cases hA : Allocator.alloc ctx.pool with
  | mk p' res =>
    rw [hA] at h
    cases res with
    | none =>
      injection h with h1 _
      have hpp := Allocator.pool_alloc_fail_frame hA
      rw [← h1, hpp]
    | some off => simp at h

/-- The full-cell path fails only without mutating the context. -/
theorem allocFullCell_fail {ctx ctx' : Context} {tag : Nat}
    (h : allocFullCell ctx tag = (ctx', none)) : ctx' = ctx := by
  unfold allocFullCell at h
  cases hC : alloc_cell ctx tag with
  | mk c2 res =>
    rw [hC] at h
    cases res with
    | none =>
      injection h with h1 _
      rw [← h1]
      exact alloc_cell_fail hC
    | some c3 => simp at h

/-- `alloc_large` fails only without mutating the context. -/
theorem alloc_large_fail {ctx ctx' : Context} {size tag : Nat}
    (h : alloc_large ctx size tag = (ctx', none)) : ctx' = ctx := by
  unfold alloc_large at h
  split at h
  · injection h with h1 _
    exact h1.symm
  · split at h
    · cases hB : BuddyAllocator.alloc ctx.buddy size with
      | mk b' res =>
        rw [hB] at h
        dsimp only at h
        cases res with
        | none =>
          injection h with h1 _
          have hbb := BuddyAllocator.buddy_alloc_fail_frame hB
          rw [← h1, hbb]
        | some q => simp at h
    · cases hL : LargeAllocRegistry.alloc ctx.large size tag true with
      | mk l' res =>
        rw [hL] at h
        dsimp only at h
        cases res with
        | none =>
          injection h with h1 _
          have hll := LargeAllocRegistry.lr_alloc_fail_frame hL
          rw [← h1, hll]
        | some q => simp at h

/-- The slow sub-cell path fails only without mutating the context. -/
theorem allocBytesSlow_fail {ctx ctx' : Context} {size tag : Nat}
    (hlive : PartialsLive ctx) (h0 : 0 < size) (hsub : size ≤ kMaxSubCellSize)
    (h : allocBytesSlow ctx size tag 8 = (ctx', none)) : ctx' = ctx := by
  have h7 := small_no_wrap hsub
  obtain ⟨hlt, -, -, -⟩ := size_class_spec_small size h7 hsub
  have hnm : get_size_class size 8 ≠ kFullCellMarker := by
    simp only [kNumSizeBins] at hlt
    simp only [kFullCellMarker]
    omega
  unfold allocBytesSlow at h
  rw [if_neg hnm] at h
  exact alloc_from_bin_fail hlt (hlive _) h

/-- `alloc_bytes` at the default alignment fails only without mutating
    the context. -/
theorem alloc_bytes_fail {ctx ctx' : Context} {size tag : Nat}
    (hlive : PartialsLive ctx)
    (h : alloc_bytes ctx size tag 8 = (ctx', none)) : ctx' = ctx := by
  unfold alloc_bytes at h
  split at h
  · injection h with h1 _
    exact h1.symm
  · split at h
    · injection h with h1 _
      exact h1.symm
    · next hsz _ =>
      split at h
      · next hsub =>
        split at h
        · dsimp only at h
          cases ht : ctx.tlsBin (get_size_class_fast size) with
          | cons blk rest => rw [ht] at h; simp at h
          | nil =>
            rw [ht] at h
            exact allocBytesSlow_fail hlive (by omega) hsub h
        · exact allocBytesSlow_fail hlive (by omega) hsub h
      · split at h
        · exact allocFullCell_fail h
        · exact alloc_large_fail h

/-- A successful allocate-copy-free tail preserves the first
    `min(old, new)` bytes. -/
theorem reallocFallback_copy {ctx ctx' : Context} {p n tag oldSize r : Nat}
    (h : reallocFallback ctx p n tag oldSize = (ctx', some r)) :
    ∀ i, i < min oldSize n → ctx'.mem (r + i) = ctx.mem (p + i) := by
  unfold reallocFallback at h
  cases hAB : alloc_bytes ctx n tag 8 with
  | mk ctx₁ aopt =>
    rw [hAB] at h
    cases aopt with
    | none => simp at h
    | some q =>
      dsimp only at h
      injection h with h1 h2
      injection h2 with h2
      subst h2
      intro i hi
      rw [← h1, free_bytes_mem]
      have hm1 : ctx₁.mem = ctx.mem := by
        have hx := alloc_bytes_mem ctx n tag 8
        rw [hAB] at hx
        exact hx
      show memcpy q p (min oldSize n) ctx₁.mem (q + i) = ctx.mem (p + i)
      simp only [memcpy]
      rw [if_pos ⟨by omega, by omega⟩, hm1]
      congr 1
      omega

/-- A failed allocate-copy-free tail leaves the context unchanged. -/
theorem reallocFallback_fail {ctx ctx' : Context} {p n tag oldSize : Nat}
    (hlive : PartialsLive ctx)
    (h : reallocFallback ctx p n tag oldSize = (ctx', none)) : ctx' = ctx := by
  unfold reallocFallback at h
  cases hAB : alloc_bytes ctx n tag 8 with
  | mk ctx₁ aopt =>
    rw [hAB] at h
    cases aopt with
    | none =>
      injection h with h1 _
      rw [← h1]
      exact alloc_bytes_fail hlive hAB
    | some q => simp at h

/-! ### Claim C3 -/

/-- Helper for C3, buddy in-tier branch: a buddy-owned pointer
    reallocated to a size the buddy tier still serves delegates to
    `BuddyAllocator.realloc_bytes`, which copies the old contents. -/
lemma c3CopyBuddyIn (ctx : Context) (p n tag : Nat) (ctx' : Context) (r : Nat)
    (hp : p ≠ 0) (hn : n ≠ 0)
    (hbud : kBuddyRegionBase ≤ p ∧ p - kBuddyRegionBase < ctx.buddy.committed)
    (hrng : n ≤ BuddyAllocator.kMaxBlockSize ∧ BuddyAllocator.kMinBlockSize ≤ n)
    (h : realloc_bytes ctx p n tag = (ctx', some r))
    (i : Nat) (hi : i < min (oldSizeOf ctx p) n) :
    ctx'.mem (r + i) = ctx.mem (p + i) := by
  unfold realloc_bytes at h
  rw [if_neg hp, if_neg hn] at h
  unfold oldSizeOf at hi
  rw [if_pos hbud] at h hi
  obtain ⟨hb1, -⟩ := hbud
  generalize hu : p - kBuddyRegionBase = u at h hi
  rw [if_pos hrng] at h
  cases hBR : BuddyAllocator.realloc_bytes ctx.buddy ctx.mem kBuddyRegionBase u n with
  | mk b' rest2 =>
    obtain ⟨mem', ropt⟩ := rest2
    rw [hBR] at h
    dsimp only at h
    cases ropt with
    | none => simp at h
    | some q =>
      rw [Prod.mk.injEq] at h
      obtain ⟨h1, h2⟩ := h
      rw [Option.map_some', Option.some.injEq] at h2
      rw [← h2, ← h1]
      have hcopy := BuddyAllocator.buddy_realloc_copy hBR i hi
      have harith : kBuddyRegionBase + u + i = p + i := by omega
      show mem' (kBuddyRegionBase + q + i) = ctx.mem (p + i)
      rw [hcopy, harith]

/-- Helper for C3, buddy cross-tier core: from the raw allocate-copy-free
    result pair, the copied bytes agree with the old contents. -/
lemma c3CrossCore (ctx ctx₁ ctx' : Context) (p n u q r i : Nat)
    (hm1 : ctx₁.mem = ctx.mem)
    (hi : i < min (BuddyAllocator.get_alloc_size ctx.buddy u
      - BuddyAllocator.kHeaderSize) n)
    (h : (match ((ctx₁, some q) : Context × Option Nat) with
      | (c, none) => (c, none)
      | (c, some q2) =>
        let oldUsable := BuddyAllocator.get_alloc_size ctx.buddy u
          - BuddyAllocator.kHeaderSize;
        let ctx₂ : Context := { c with mem := memcpy q2 p (min oldUsable n) c.mem };
        let ctx₃ : Context :=
          match BuddyAllocator.free ctx₂.buddy u with
          | some b' => { ctx₂ with buddy := b' }
          | none => ctx₂;
        (ctx₃, some q2)) = (ctx', some r)) :
    ctx'.mem (r + i) = ctx.mem (p + i) := by
  have h2 : (some q : Option Nat) = some r := congrArg Prod.snd h
  rw [Option.some.injEq] at h2
  have h1 : (match BuddyAllocator.free ctx₁.buddy u with
      | some b' =>
        { ctx₁ with
          buddy := b'
          mem := memcpy q p (min (BuddyAllocator.get_alloc_size ctx.buddy u
                   - BuddyAllocator.kHeaderSize) n) ctx₁.mem }
      | none =>
        { ctx₁ with
          mem := memcpy q p (min (BuddyAllocator.get_alloc_size ctx.buddy u
                   - BuddyAllocator.kHeaderSize) n) ctx₁.mem }) = ctx' :=
    congrArg Prod.fst h
  have harith : p + (q + i - q) = p + i := by omega
  cases hF : BuddyAllocator.free ctx₁.buddy u with
  | some b2 =>
    rw [hF] at h1
    dsimp only at h1
    rw [← h2, ← h1]
    show memcpy q p
      (min (BuddyAllocator.get_alloc_size ctx.buddy u
        - BuddyAllocator.kHeaderSize) n) ctx₁.mem (q + i) = ctx.mem (p + i)
    simp only [memcpy]
    rw [if_pos ⟨by omega, by omega⟩, hm1, harith]
  | none =>
    rw [hF] at h1
    dsimp only at h1
    rw [← h2, ← h1]
    show memcpy q p
      (min (BuddyAllocator.get_alloc_size ctx.buddy u
        - BuddyAllocator.kHeaderSize) n) ctx₁.mem (q + i) = ctx.mem (p + i)
    simp only [memcpy]
    rw [if_pos ⟨by omega, by omega⟩, hm1, harith]

/-- Helper for C3, buddy cross-tier branch: a buddy-owned pointer
    reallocated out of the buddy range goes through allocate-copy-free,
    and `memcpy` preserves the first `min(old, new)` bytes. -/
lemma c3CopyBuddyCross (ctx : Context) (p n tag : Nat) (ctx' : Context) (r : Nat)
    (hp : p ≠ 0) (hn : n ≠ 0)
    (hbud : kBuddyRegionBase ≤ p ∧ p - kBuddyRegionBase < ctx.buddy.committed)
    (hrng : ¬(n ≤ BuddyAllocator.kMaxBlockSize ∧ BuddyAllocator.kMinBlockSize ≤ n))
    (h : realloc_bytes ctx p n tag = (ctx', some r))
    (i : Nat) (hi : i < min (oldSizeOf ctx p) n) :
    ctx'.mem (r + i) = ctx.mem (p + i) := by
  unfold realloc_bytes at h
  rw [if_neg hp, if_neg hn] at h
  unfold oldSizeOf at hi
  rw [if_pos hbud] at h hi
  obtain ⟨hb1, -⟩ := hbud
  generalize hu : p - kBuddyRegionBase = u at h hi
  rw [if_neg hrng] at h
  cases hAB : alloc_bytes ctx n tag 8 with
  | mk ctx₁ aopt =>
    rw [hAB] at h
    cases aopt with
    | none => exact Option.noConfusion (congrArg Prod.snd h)
    | some q =>
      have hm1 : ctx₁.mem = ctx.mem := by
        have hx := alloc_bytes_mem ctx n tag 8
        rw [hAB] at hx
        exact hx
      exact c3CrossCore ctx ctx₁ ctx' p n u q r i hm1 hi h

/-- Helper for C3, large in-tier branch: a registered large pointer
    reallocated to another large size delegates to the registry's
    `realloc_bytes`, which copies the old contents. -/
lemma c3CopyLargeIn (ctx : Context) (p n tag : Nat) (ctx' : Context) (r : Nat)
    (hp : p ≠ 0) (hn : n ≠ 0)
    (hbud : ¬(kBuddyRegionBase ≤ p ∧ p - kBuddyRegionBase < ctx.buddy.committed))
    (hlg : (LargeAllocRegistry.lookup ctx.large p).isSome)
    (hbig : BuddyAllocator.kMaxBlockSize < n)
    (h : realloc_bytes ctx p n tag = (ctx', some r))
    (i : Nat) (hi : i < min (oldSizeOf ctx p) n) :
    ctx'.mem (r + i) = ctx.mem (p + i) := by
  unfold realloc_bytes at h
  rw [if_neg hp, if_neg hn] at h
  unfold oldSizeOf at hi
  rw [if_neg hbud] at h hi
  rw [if_pos hlg] at h hi
  obtain ⟨rec, hrec⟩ := Option.isSome_iff_exists.mp hlg
  have hgs : LargeAllocRegistry.get_alloc_size ctx.large p = rec.size := by
    unfold LargeAllocRegistry.get_alloc_size
    rw [hrec]
  rw [if_pos hbig] at h
  cases hLR : LargeAllocRegistry.realloc_bytes ctx.large ctx.mem p n tag with
  | mk l' rest2 =>
    obtain ⟨mem', ropt⟩ := rest2
    rw [hLR] at h
    dsimp only at h
    cases ropt with
    | none => simp at h
    | some q =>
      injection h with h1 h2
      injection h2 with h2
      subst h2
      rw [← h1]
      exact LargeAllocRegistry.lr_realloc_copy hp hn hrec hLR i (by omega)

/-- Helper for C3, large cross-tier branch: a registered large pointer
    reallocated down out of the large range goes through
    allocate-copy-free, and `memcpy` preserves the first `min(old, new)`
    bytes. -/
lemma c3CopyLargeCross (ctx : Context) (p n tag : Nat) (ctx' : Context) (r : Nat)
    (hp : p ≠ 0) (hn : n ≠ 0)
    (hbud : ¬(kBuddyRegionBase ≤ p ∧ p - kBuddyRegionBase < ctx.buddy.committed))
    (hlg : (LargeAllocRegistry.lookup ctx.large p).isSome)
    (hbig : ¬BuddyAllocator.kMaxBlockSize < n)
    (h : realloc_bytes ctx p n tag = (ctx', some r))
    (i : Nat) (hi : i < min (oldSizeOf ctx p) n) :
    ctx'.mem (r + i) = ctx.mem (p + i) := by
  unfold realloc_bytes at h
  rw [if_neg hp, if_neg hn] at h
  unfold oldSizeOf at hi
  rw [if_neg hbud] at h hi
  rw [if_pos hlg] at h hi
  rw [if_neg hbig] at h
  cases hAB : alloc_bytes ctx n tag 8 with
  | mk ctx₁ aopt =>
    rw [hAB] at h
    cases aopt with
    | none => simp at h
    | some q =>
      dsimp only at h
      injection h with h1 h2
      injection h2 with h2
      subst h2
      rw [← h1]
      have hm1 : ctx₁.mem = ctx.mem := by
        have hx := alloc_bytes_mem ctx n tag 8
        rw [hAB] at hx
        exact hx
      have harith : p + (q + i - q) = p + i := by omega
      show memcpy q p (min (LargeAllocRegistry.get_alloc_size ctx.large p) n)
        ctx₁.mem (q + i) = ctx.mem (p + i)
      simp only [memcpy]
      rw [if_pos ⟨by omega, by omega⟩, hm1, harith]

/-- Helper for C3, cell branch: a cell-region pointer either returns
    itself (same bin) or goes through the allocate-copy-free fallback,
    which preserves the first `min(old, new)` bytes. -/
lemma c3CopyCell (ctx : Context) (p n tag : Nat) (ctx' : Context) (r : Nat)
    (hp : p ≠ 0) (hn : n ≠ 0)
    (hbud : ¬(kBuddyRegionBase ≤ p ∧ p - kBuddyRegionBase < ctx.buddy.committed))
    (hlg : ¬(LargeAllocRegistry.lookup ctx.large p).isSome)
    (h : realloc_bytes ctx p n tag = (ctx', some r)) (hne : r ≠ p)
    (i : Nat) (hi : i < min (oldSizeOf ctx p) n) :
    ctx'.mem (r + i) = ctx.mem (p + i) := by
  unfold realloc_bytes at h
  rw [if_neg hp, if_neg hn] at h
  unfold oldSizeOf at hi
  rw [if_neg hbud] at h hi
  rw [if_neg hlg] at h hi
  cases hc : ctx.cellInfo (get_header p) with
  | none =>
    rw [hc] at h
    dsimp only at h
    simp at h
  | some cr =>
    rw [hc] at h hi
    dsimp only at h hi
    by_cases hm : cr.sizeClass = kFullCellMarker
    · rw [if_pos hm] at h hi
      exact reallocFallback_copy h i hi
    · rw [if_neg hm] at h hi
      by_cases hsame : get_size_class n 8 ≠ kFullCellMarker ∧
          get_size_class n 8 = cr.sizeClass
      · rw [if_pos hsame] at h
        injection h with h1 h2
        injection h2 with h2
        exact absurd h2.symm hne
      · rw [if_neg hsame] at h
        exact reallocFallback_copy h i hi

/-- Helper for C3: when `realloc_bytes` moves the block (returns a pointer
    different from the original), the first `min(old size, new size)` bytes
    of the new block equal the old block's contents. -/
lemma realloc_moved_copy (ctx : Context) (p n tag : Nat)
    (hlive : PartialsLive ctx) (ctx' : Context) (r : Nat)
    (hp : p ≠ 0) (hn : n ≠ 0) (h : realloc_bytes ctx p n tag = (ctx', some r))
    (hne : r ≠ p) (i : Nat) (hi : i < min (oldSizeOf ctx p) n) :
    ctx'.mem (r + i) = ctx.mem (p + i) := by
  by_cases hbud : kBuddyRegionBase ≤ p ∧ p - kBuddyRegionBase < ctx.buddy.committed
  · by_cases hrng : n ≤ BuddyAllocator.kMaxBlockSize ∧ BuddyAllocator.kMinBlockSize ≤ n
    · exact c3CopyBuddyIn ctx p n tag ctx' r hp hn hbud hrng h i hi
    · exact c3CopyBuddyCross ctx p n tag ctx' r hp hn hbud hrng h i hi
  · by_cases hlg : (LargeAllocRegistry.lookup ctx.large p).isSome
    · by_cases hbig : BuddyAllocator.kMaxBlockSize < n
      · exact c3CopyLargeIn ctx p n tag ctx' r hp hn hbud hlg hbig h i hi
      · exact c3CopyLargeCross ctx p n tag ctx' r hp hn hbud hlg hbig h i hi
    · exact c3CopyCell ctx p n tag ctx' r hp hn hbud hlg h hne i hi

/-- Helper for C3, buddy failure branch: a failed realloc of a
    buddy-owned pointer leaves the context unchanged. -/
lemma c3FailBuddy (ctx : Context) (p n tag : Nat)
    (hlive : PartialsLive ctx) (ctx' : Context)
    (hp : p ≠ 0) (hn : n ≠ 0)
    (hbud : kBuddyRegionBase ≤ p ∧ p - kBuddyRegionBase < ctx.buddy.committed)
    (h : realloc_bytes ctx p n tag = (ctx', none)) :
    ctx' = ctx := by
  unfold realloc_bytes at h
  rw [if_neg hp, if_neg hn] at h
  rw [if_pos hbud] at h
  generalize hu : p - kBuddyRegionBase = u at h
  by_cases hrng : n ≤ BuddyAllocator.kMaxBlockSize ∧ BuddyAllocator.kMinBlockSize ≤ n
  · rw [if_pos hrng] at h
    cases hBR : BuddyAllocator.realloc_bytes ctx.buddy ctx.mem kBuddyRegionBase u n with
    | mk b' rest2 =>
      obtain ⟨mem', ropt⟩ := rest2
      rw [hBR] at h
      dsimp only at h
      cases ropt with
      | some q => simp at h
      | none =>
        rw [Prod.mk.injEq] at h
        obtain ⟨h1, -⟩ := h
        obtain ⟨hs, hm⟩ := BuddyAllocator.buddy_realloc_fail hBR
        rw [← h1, hs, hm]
  · rw [if_neg hrng] at h
    cases hAB : alloc_bytes ctx n tag 8 with
    | mk ctx₁ aopt =>
      rw [hAB] at h
      cases aopt with
      | none =>
        rw [Prod.mk.injEq] at h
        obtain ⟨h1, -⟩ := h
        rw [← h1]
        exact alloc_bytes_fail hlive hAB
      | some q =>
        exact Option.noConfusion (congrArg Prod.snd h)

/-- Helper for C3, large failure branch: a failed realloc of a registered
    large pointer leaves the context unchanged. -/
lemma c3FailLarge (ctx : Context) (p n tag : Nat)
    (hlive : PartialsLive ctx) (ctx' : Context)
    (hp : p ≠ 0) (hn : n ≠ 0)
    (hbud : ¬(kBuddyRegionBase ≤ p ∧ p - kBuddyRegionBase < ctx.buddy.committed))
    (hlg : (LargeAllocRegistry.lookup ctx.large p).isSome)
    (h : realloc_bytes ctx p n tag = (ctx', none)) :
    ctx' = ctx := by
  unfold realloc_bytes at h
  rw [if_neg hp, if_neg hn] at h
  rw [if_neg hbud] at h
  rw [if_pos hlg] at h
  by_cases hbig : BuddyAllocator.kMaxBlockSize < n
  · rw [if_pos hbig] at h
    cases hLR : LargeAllocRegistry.realloc_bytes ctx.large ctx.mem p n tag with
    | mk l' rest2 =>
      obtain ⟨mem', ropt⟩ := rest2
      rw [hLR] at h
      dsimp only at h
      cases ropt with
      | some q => simp at h
      | none =>
        injection h with h1 _
        obtain ⟨hs, hm⟩ := LargeAllocRegistry.lr_realloc_fail hp hn hLR
        rw [← h1, hs, hm]
  · rw [if_neg hbig] at h
    cases hAB : alloc_bytes ctx n tag 8 with
    | mk ctx₁ aopt =>
      rw [hAB] at h
      cases aopt with
      | none =>
        injection h with h1 _
        rw [← h1]
        exact alloc_bytes_fail hlive hAB
      | some q =>
        dsimp only at h
        simp at h

/-- Helper for C3, cell/unknown failure branch: a failed realloc of a
    pointer outside the buddy and large tiers leaves the context
    unchanged. -/
lemma c3FailCell (ctx : Context) (p n tag : Nat)
    (hlive : PartialsLive ctx) (ctx' : Context)
    (hp : p ≠ 0) (hn : n ≠ 0)
    (hbud : ¬(kBuddyRegionBase ≤ p ∧ p - kBuddyRegionBase < ctx.buddy.committed))
    (hlg : ¬(LargeAllocRegistry.lookup ctx.large p).isSome)
    (h : realloc_bytes ctx p n tag = (ctx', none)) :
    ctx' = ctx := by
  unfold realloc_bytes at h
  rw [if_neg hp, if_neg hn] at h
  rw [if_neg hbud] at h
  rw [if_neg hlg] at h
  cases hc : ctx.cellInfo (get_header p) with
  | none =>
    rw [hc] at h
    dsimp only at h
    injection h with h1 _
    exact h1.symm
  | some cr =>
    rw [hc] at h
    dsimp only at h
    by_cases hm : cr.sizeClass = kFullCellMarker
    · rw [if_pos hm] at h
      exact reallocFallback_fail hlive h
    · rw [if_neg hm] at h
      by_cases hsame : get_size_class n 8 ≠ kFullCellMarker ∧
          get_size_class n 8 = cr.sizeClass
      · rw [if_pos hsame] at h
        simp at h
      · rw [if_neg hsame] at h
        exact reallocFallback_fail hlive h

/-- Helper for C3: when `realloc_bytes` fails (returns `none`), the entire
    context — every tier's state and the memory — is unchanged. -/
lemma realloc_none_frame (ctx : Context) (p n tag : Nat)
    (hlive : PartialsLive ctx) (ctx' : Context)
    (hp : p ≠ 0) (hn : n ≠ 0) (h : realloc_bytes ctx p n tag = (ctx', none)) :
    ctx' = ctx := by
  by_cases hbud : kBuddyRegionBase ≤ p ∧ p - kBuddyRegionBase < ctx.buddy.committed
  · exact c3FailBuddy ctx p n tag hlive ctx' hp hn hbud h
  · by_cases hlg : (LargeAllocRegistry.lookup ctx.large p).isSome
    · exact c3FailLarge ctx p n tag hlive ctx' hp hn hbud hlg h
    · exact c3FailCell ctx p n tag hlive ctx' hp hn hbud hlg h

/-- **C3.** The realloc contract: null behaves exactly as `alloc_bytes`
    at the default alignment; size 0 frees and returns null; whenever the
    block moves, the first `min(old size, new size)` bytes of the new
    block equal the old block's contents; and when the new allocation
    fails, null is returned with the context — pointer, contents, and
    every tier's state — unchanged. -/
theorem claim_C3_realloc_contract (ctx : Context) (p n tag : Nat)
    (hlive : PartialsLive ctx) :
    realloc_bytes ctx 0 n tag = alloc_bytes ctx n tag 8 ∧
    (p ≠ 0 → realloc_bytes ctx p 0 tag = (free_bytes ctx p, none)) ∧
    (∀ ctx' r, p ≠ 0 → n ≠ 0 → realloc_bytes ctx p n tag = (ctx', some r) → r ≠ p →
      ∀ i, i < min (oldSizeOf ctx p) n → ctx'.mem (r + i) = ctx.mem (p + i)) ∧
    (∀ ctx', p ≠ 0 → n ≠ 0 → realloc_bytes ctx p n tag = (ctx', none) → ctx' = ctx) := by
  refine ⟨rfl, ?_, ?_, ?_⟩
  · intro hp
    unfold realloc_bytes
    rw [if_neg hp, if_pos rfl]
  · intro ctx' r hp hn h hne i hi
    exact realloc_moved_copy ctx p n tag hlive ctx' r hp hn h hne i hi
  · intro ctx' hp hn h
    exact realloc_none_frame ctx p n tag hlive ctx' hp hn h

/-- Witness for C3: the contract applied on a fresh (empty) context with
    `p = 5`, `n = 7` — the null and zero-size identities hold, and the
    failure branch applies: `p = 5` belongs to no tier, so the realloc is
    a failed no-op. -/
theorem claim_C3_witness :
    realloc_bytes (init 0) 0 7 0 = alloc_bytes (init 0) 7 0 8 ∧
    ((5 : Nat) ≠ 0 → realloc_bytes (init 0) 5 0 0 = (free_bytes (init 0) 5, none)) ∧
    (∀ ctx' r, (5 : Nat) ≠ 0 → (7 : Nat) ≠ 0 →
      realloc_bytes (init 0) 5 7 0 = (ctx', some r) → r ≠ 5 →
      ∀ i, i < min (oldSizeOf (init 0) 5) 7 →
        ctx'.mem (r + i) = (init 0).mem (5 + i)) ∧
    (∀ ctx', (5 : Nat) ≠ 0 → (7 : Nat) ≠ 0 →
      realloc_bytes (init 0) 5 7 0 = (ctx', none) → ctx' = init 0) :=
  claim_C3_realloc_contract (init 0) 5 7 0
    (fun _ c _ hmem _ => absurd hmem (List.not_mem_nil c))

/-! ### Claim C5 -/

/-- **C5 (amended).** `Context::alloc_bytes` returns null for size 0, and
    rejects the alignment with null — touching no tier — when it is 0,
    not a power of two, or greater than 16.  High alignments are never
    routed to the Large Registry by `alloc_bytes` (that routing lives in
    `alloc_aligned`). -/
theorem claim_C5_alignment_rejected (ctx : Context) (size tag alignment : Nat) :
    (size = 0 → alloc_bytes ctx size tag alignment = (ctx, none)) ∧
    (16 < alignment → alloc_bytes ctx size tag alignment = (ctx, none)) ∧
    (alignment = 0 → alloc_bytes ctx size tag alignment = (ctx, none)) ∧
    (alignment &&& (alignment - 1) ≠ 0 → alloc_bytes ctx size tag alignment = (ctx, none)) := by
  unfold alloc_bytes
  refine ⟨?_, ?_, ?_, ?_⟩ <;> intro h
  · rw [if_pos h]
  · by_cases h0 : size = 0
    · rw [if_pos h0]
    · rw [if_neg h0, if_pos (Or.inr (Or.inr h))]
  · by_cases h0 : size = 0
    · rw [if_pos h0]
    · rw [if_neg h0, if_pos (Or.inl h)]
  · by_cases h0 : size = 0
    · rw [if_pos h0]
    · rw [if_neg h0, if_pos (Or.inr (Or.inl h))]

/-- **C5 counterexample.** Alignment 32 — a power of two greater than
    16 — with a perfectly allocatable size is rejected outright: null
    comes back and the context, in particular its large registry, is
    untouched.  Nothing is routed to the Large Registry. -/
theorem claim_C5_counterexample :
    alloc_bytes (init (2 ^ 24)) 64 0 32 = (init (2 ^ 24), none) ∧
    32 &&& (32 - 1) = 0 ∧ 16 < 32 :=
  ⟨rfl, by decide, by decide⟩

/-! ### Claim C4 -/

/-- **C4.** Same-bin identity: for a live sub-cell pointer `p` (owned by
    neither the buddy tier nor the large registry, with its host cell in
    sub-cell mode for bin `cr.sizeClass`), a new size mapping to the same
    bin at the default alignment makes `realloc_bytes` return `p` itself
    with the context unchanged — no copy, no free. -/
theorem claim_C4_same_bin_identity (ctx : Context) (p s2 tag : Nat) (cr : CellRec)
    (hnb : ¬(kBuddyRegionBase ≤ p ∧ p - kBuddyRegionBase < ctx.buddy.committed))
    (hnl : (LargeAllocRegistry.lookup ctx.large p).isSome = false)
    (hp : p ≠ 0) (hs : s2 ≠ 0)
    (hcell : ctx.cellInfo (get_header p) = some cr)
    (hsc : cr.sizeClass < kNumSizeBins)
    (hbin : get_size_class s2 8 = cr.sizeClass) :
    realloc_bytes ctx p s2 tag = (ctx, some p) := by
  have hsent : ¬(cr.sizeClass = kFullCellMarker) := by
    simp only [kFullCellMarker, kNumSizeBins] at hsc ⊢
    omega
  unfold realloc_bytes
  rw [if_neg hp, if_neg hs, if_neg hnb, if_neg (by simp [hnl]), hcell]
  dsimp only
  rw [if_neg hsent, if_pos ⟨by rw [hbin]; exact hsent, hbin⟩]

/-! ### Claim C2 -/

/-- **C2.** The router's size ladder at the default alignment: sizes up
    to `kMaxSubCellSize` go to the sub-cell bin chosen by the size-class
    lookup (never the sentinel); sizes up to the usable cell payload take
    a full cell, set the header's `size_class` to the full-cell sentinel
    and return the payload start, strictly past the header; sizes up to
    the buddy ceiling are handed to the buddy allocator; larger sizes go
    to the large registry, which owns every pointer it returns. -/
theorem claim_C2_router_tiers (ctx : Context) (size tag : Nat) (h0 : 0 < size) :
    (size ≤ kMaxSubCellSize →
       get_size_class size 8 < kNumSizeBins ∧
       alloc_bytes ctx size tag 8 = alloc_from_bin ctx (get_size_class size 8) tag ∧
       (alloc_bytes ctx size tag 8).1.buddy = ctx.buddy ∧
       (alloc_bytes ctx size tag 8).1.large = ctx.large) ∧
    (kMaxSubCellSize < size → size ≤ kCellSize - kBlockStartOffset →
       alloc_bytes ctx size tag 8 = allocFullCell ctx tag ∧
       (∀ r, (alloc_bytes ctx size tag 8).2 = some r →
         ∃ c, r = get_block_start c ∧ c < r ∧
           (alloc_bytes ctx size tag 8).1.cellInfo c = some ⟨tag, kFullCellMarker, 0, []⟩)) ∧
    (kCellSize - kBlockStartOffset < size → size ≤ BuddyAllocator.kMaxBlockSize →
       (alloc_bytes ctx size tag 8).1 =
         { ctx with buddy := (BuddyAllocator.alloc ctx.buddy size).1 } ∧
       (alloc_bytes ctx size tag 8).2 =
         ((BuddyAllocator.alloc ctx.buddy size).2).map (kBuddyRegionBase + ·)) ∧
    (BuddyAllocator.kMaxBlockSize < size →
       (alloc_bytes ctx size tag 8).1 =
         { ctx with large := (LargeAllocRegistry.alloc ctx.large size tag true).1 } ∧
       (alloc_bytes ctx size tag 8).2 = (LargeAllocRegistry.alloc ctx.large size tag true).2 ∧
       (∀ r, (alloc_bytes ctx size tag 8).2 = some r →
         LargeAllocRegistry.owns (alloc_bytes ctx size tag 8).1.large r = true)) := by
  have halign : ¬((8 : Nat) = 0 ∨ 8 &&& (8 - 1) ≠ 0 ∨ 16 < 8) := by decide
  have e1 : kMaxSubCellSize = 8192 := rfl
  have e2 : kCellSize - kBlockStartOffset = 16352 := rfl
  have e3 : BuddyAllocator.kMaxBlockSize = 2097152 := rfl
  refine ⟨?_, ?_, ?_, ?_⟩
  · -- sub-cell range
    intro hle
    have h7 := small_no_wrap hle
    obtain ⟨hlt, hagree, -, -⟩ := size_class_spec_small size h7 hle
    have hnm : get_size_class size 8 ≠ kFullCellMarker := by
      simp only [kNumSizeBins] at hlt
      simp only [kFullCellMarker]
      omega
    have heq : alloc_bytes ctx size tag 8 = alloc_from_bin ctx (get_size_class size 8) tag := by
      unfold alloc_bytes
      rw [if_neg (by omega), if_neg halign, if_pos hle]
      by_cases h4 : size ≤ 4096
      · rw [if_pos ⟨le_refl 8, h4⟩]
        dsimp only
        rw [hagree]
        have hbin9 : get_size_class size 8 < kTlsBinCacheCount := subcell_bin_lt_nine h0 h4
        unfold alloc_from_bin
        rw [if_pos hbin9]
        cases ht : ctx.tlsBin (get_size_class size 8) with
        | cons blk rest => rfl
        | nil =>
          dsimp only
          unfold allocBytesSlow
          rw [if_neg hnm]
          unfold alloc_from_bin
          rw [if_pos hbin9, ht]
      · rw [if_neg (fun hc => h4 hc.2)]
        unfold allocBytesSlow
        rw [if_neg hnm]
    refine ⟨hlt, heq, ?_, ?_⟩
    · rw [heq]; exact (alloc_from_bin_frame ctx (get_size_class size 8) tag).1
    · rw [heq]; exact (alloc_from_bin_frame ctx (get_size_class size 8) tag).2.1
  · -- full-cell range
    intro hgt hle2
    unfold alloc_bytes
    rw [if_neg (by omega), if_neg halign, if_neg (by omega), if_pos hle2]
    refine ⟨rfl, ?_⟩
    intro r hr
    unfold allocFullCell alloc_cell at hr ⊢
    cases hA : Allocator.alloc ctx.pool with
    | mk p' res =>
      rw [hA] at hr
      cases res with
      | none => simp at hr
      | some off =>
        dsimp only at hr ⊢
        injection hr with hr1
        refine ⟨kCellRegionBase + off, hr1.symm, ?_, ?_⟩
        · rw [← hr1]
          have : kBlockStartOffset = 32 := rfl
          simp only [get_block_start]
          omega
        · rw [if_pos rfl]
  · -- buddy range
    intro hgt hle
    unfold alloc_bytes alloc_large
    rw [if_neg (by omega), if_neg halign, if_neg (by omega), if_neg (by omega),
      if_neg (by omega), if_pos hle]
    cases hB : BuddyAllocator.alloc ctx.buddy size with
    | mk b' r2 => exact ⟨rfl, rfl⟩
  · -- large range
    intro hgt
    unfold alloc_bytes alloc_large
    rw [if_neg (by omega), if_neg halign, if_neg (by omega), if_neg (by omega),
      if_neg (by omega), if_neg (by omega)]
    cases hL : LargeAllocRegistry.alloc ctx.large size tag true with
    | mk l' r2 =>
      refine ⟨rfl, rfl, ?_⟩
      intro r hr
      dsimp only at hr
      subst hr
      exact LargeAllocRegistry.alloc_owns hL

/-- Witness for C2: the router evaluated with a size in every tier's
    range on a fresh 64 MiB context — the claim theorem applied at size
    100 (its per-range implications cover all four thresholds). -/
theorem claim_C2_witness :
    (100 ≤ kMaxSubCellSize →
       get_size_class 100 8 < kNumSizeBins ∧
       alloc_bytes (init (2 ^ 26)) 100 3 8 =
         alloc_from_bin (init (2 ^ 26)) (get_size_class 100 8) 3 ∧
       (alloc_bytes (init (2 ^ 26)) 100 3 8).1.buddy = (init (2 ^ 26)).buddy ∧
       (alloc_bytes (init (2 ^ 26)) 100 3 8).1.large = (init (2 ^ 26)).large) ∧
    (kMaxSubCellSize < 100 → 100 ≤ kCellSize - kBlockStartOffset →
       alloc_bytes (init (2 ^ 26)) 100 3 8 = allocFullCell (init (2 ^ 26)) 3 ∧
       (∀ r, (alloc_bytes (init (2 ^ 26)) 100 3 8).2 = some r →
         ∃ c, r = get_block_start c ∧ c < r ∧
           (alloc_bytes (init (2 ^ 26)) 100 3 8).1.cellInfo c =
             some ⟨3, kFullCellMarker, 0, []⟩)) ∧
    (kCellSize - kBlockStartOffset < 100 → 100 ≤ BuddyAllocator.kMaxBlockSize →
       (alloc_bytes (init (2 ^ 26)) 100 3 8).1 =
         { init (2 ^ 26) with
             buddy := (BuddyAllocator.alloc (init (2 ^ 26)).buddy 100).1 } ∧
       (alloc_bytes (init (2 ^ 26)) 100 3 8).2 =
         ((BuddyAllocator.alloc (init (2 ^ 26)).buddy 100).2).map (kBuddyRegionBase + ·)) ∧
    (BuddyAllocator.kMaxBlockSize < 100 →
       (alloc_bytes (init (2 ^ 26)) 100 3 8).1 =
         { init (2 ^ 26) with
             large := (LargeAllocRegistry.alloc (init (2 ^ 26)).large 100 3 true).1 } ∧
       (alloc_bytes (init (2 ^ 26)) 100 3 8).2 =
         (LargeAllocRegistry.alloc (init (2 ^ 26)).large 100 3 true).2 ∧
       (∀ r, (alloc_bytes (init (2 ^ 26)) 100 3 8).2 = some r →
         LargeAllocRegistry.owns (alloc_bytes (init (2 ^ 26)) 100 3 8).1.large r = true)) :=
  claim_C2_router_tiers (init (2 ^ 26)) 100 3 (by decide)

/-- Witness for C4: reallocating the 64-byte-bin block at the cell's
    first slot to 50 bytes (which maps to bin 2 again) returns the same
    pointer and leaves the context unchanged. -/
theorem claim_C4_witness :
    realloc_bytes c4ctx (kCellRegionBase + 32) 50 0 = (c4ctx, some (kCellRegionBase + 32)) :=
  claim_C4_same_bin_identity c4ctx (kCellRegionBase + 32) 50 0 ⟨0, 2, 0, []⟩
    (by decide) rfl (by decide) (by decide) (by decide) (by decide) (by decide)

/-! ### Claim C9 -/

/-- The free list built by cell initialization has exactly one node per
    block of the cell. -/
theorem mkFreeList_length (c bin : Nat) :
    (mkFreeList c bin).length = blocks_per_cell bin := by
  simp [mkFreeList]

/-- Bookkeeping of the TLS drain loop: the refill budget never grows, the
    free list shrinks by exactly the number of blocks taken, and the cache
    grows by the same number. -/
theorem drain_spec : ∀ (r : Nat) (fl cache fl' cache' : List Nat) (r' : Nat),
    drain r fl cache = (fl', cache', r') →
    r' ≤ r ∧ fl'.length + (r - r') = fl.length ∧
    cache'.length = cache.length + (r - r') := by
  intro r
  induction r with
  | zero =>
    intro fl cache fl' cache' r' h
    simp only [drain] at h
    injection h with h1 h2
    injection h2 with h2 h3
    subst h1
    subst h2
    subst h3
    exact ⟨Nat.le_refl 0, by omega, by omega⟩
  | succ n ih =>
    intro fl cache fl' cache' r' h
    simp only [drain] at h
    by_cases hcap : kTlsBinCacheCapacity ≤ cache.length
    · rw [if_pos hcap] at h
      injection h with h1 h2
      injection h2 with h2 h3
      subst h1
      subst h2
      subst h3
      exact ⟨Nat.le_refl _, by omega, by omega⟩
    · rw [if_neg hcap] at h
      cases fl with
      | nil =>
        dsimp only at h
        injection h with h1 h2
        injection h2 with h2 h3
        subst h2
        subst h3
        rw [← h1]
        exact ⟨Nat.le_refl _, by simp, by omega⟩
      | cons b rest =>
        dsimp only at h
        obtain ⟨ih1, ih2, ih3⟩ := ih rest (b :: cache) fl' cache' r' h
        simp only [List.length_cons] at ih3 ⊢
        exact ⟨Nat.le_succ_of_le ih1, by omega, by omega⟩

/-- When the budget is positive, the cache has room and the free list is
    non-empty, the drain loop takes at least one block, so the cache ends
    non-empty. -/
theorem drain_takes (r : Nat) (fl cache : List Nat) (hr : 0 < r)
    (hcap : ¬ kTlsBinCacheCapacity ≤ cache.length) (hfl : fl ≠ []) :
    (drain r fl cache).2.1 ≠ [] := by
  cases r with
  | zero => omega
  | succ n =>
    cases fl with
    | nil => exact absurd rfl hfl
    | cons b rest =>
      simp only [drain, if_neg hcap]
      cases hD : drain n rest (b :: cache) with
      | mk fl2 rest2 =>
        obtain ⟨cache2, r2⟩ := rest2
        obtain ⟨-, -, h3⟩ := drain_spec n rest (b :: cache) fl2 cache2 r2 hD
        dsimp only
        intro hemp
        rw [hemp] at h3
        simp only [List.length_nil, List.length_cons] at h3
        omega

/-- Invariant step, head-cell update: replacing the head cell's record by
    one with a consistent count (and this bin's index), unlinking the cell
    exactly when its new count is zero, preserves the invariant. -/
theorem BinInvOn_update (parts rest : List Nat) (info : Nat → Option CellRec)
    (bin c : Nat) (cr' : CellRec)
    (hparts : parts = c :: rest)
    (hsz' : cr'.sizeClass = bin)
    (hcnt' : cr'.freeCount = cr'.freeList.length)
    (hInv : BinInvOn parts info bin) :
    BinInvOn (if cr'.freeCount = 0 then rest else parts)
      (fun a => if a = c then some cr' else info a) bin := by
  obtain ⟨hnd, hmem, hcells⟩ := hInv
  subst hparts
  have hcnotin : c ∉ rest := (List.nodup_cons.mp hnd).1
  refine ⟨?_, ?_, ?_⟩
  · by_cases hz : cr'.freeCount = 0
    · rw [if_pos hz]; exact (List.nodup_cons.mp hnd).2
    · rw [if_neg hz]; exact hnd
  · intro x hx
    by_cases hxc : x = c
    · subst hxc
      exact ⟨cr', if_pos rfl, hsz'⟩
    · have hxold : x ∈ c :: rest := by
        by_cases hz : cr'.freeCount = 0
        · rw [if_pos hz] at hx; exact List.mem_cons_of_mem c hx
        · rw [if_neg hz] at hx; exact hx
      obtain ⟨cr2, h2, h3⟩ := hmem x hxold
      exact ⟨cr2, (if_neg hxc).trans h2, h3⟩
  · intro a cr2 ha hsz2
    dsimp only at ha
    by_cases hac : a = c
    · rw [hac, if_pos rfl] at ha
      injection ha with ha
      refine ⟨by rw [← ha]; exact hcnt', ?_⟩
      rw [hac, ← ha]
      by_cases hz : cr'.freeCount = 0
      · rw [if_pos hz]
        exact ⟨fun hm => absurd hm hcnotin, fun hp => by omega⟩
      · rw [if_neg hz]
        exact ⟨fun _ => by omega, fun _ => List.mem_cons_self c rest⟩
    · rw [if_neg hac] at ha
      obtain ⟨hc2, hiff2⟩ := hcells a cr2 ha hsz2
      refine ⟨hc2, ?_⟩
      by_cases hz : cr'.freeCount = 0
      · rw [if_pos hz]
        exact ⟨fun h => hiff2.mp (List.mem_cons_of_mem c h),
               fun h => (List.mem_cons.mp (hiff2.mpr h)).resolve_left hac⟩
      · rw [if_neg hz]; exact hiff2

/-- Invariant step, freeing a block into a tracked cell: incrementing the
    cell's record consistently and linking it when it was full preserves
    the invariant. -/
theorem BinInvOn_relink (parts : List Nat) (info : Nat → Option CellRec)
    (bin c : Nat) (cr cr' : CellRec)
    (hc : info c = some cr) (hszc : cr.sizeClass = bin)
    (hsz' : cr'.sizeClass = bin) (hcnt' : cr'.freeCount = cr'.freeList.length)
    (hpos : 0 < cr'.freeCount)
    (hInv : BinInvOn parts info bin) :
    BinInvOn (if cr.freeCount = 0 then c :: parts else parts)
      (fun a => if a = c then some cr' else info a) bin := by
  obtain ⟨hnd, hmem, hcells⟩ := hInv
  obtain ⟨hcnt, hiff⟩ := hcells c cr hc hszc
  refine ⟨?_, ?_, ?_⟩
  · by_cases hz : cr.freeCount = 0
    · rw [if_pos hz]
      refine List.nodup_cons.mpr ⟨fun hm => ?_, hnd⟩
      have := hiff.mp hm
      omega
    · rw [if_neg hz]; exact hnd
  · intro x hx
    by_cases hxc : x = c
    · subst hxc; exact ⟨cr', if_pos rfl, hsz'⟩
    · have hxold : x ∈ parts := by
        by_cases hz : cr.freeCount = 0
        · rw [if_pos hz] at hx
          exact (List.mem_cons.mp hx).resolve_left hxc
        · rw [if_neg hz] at hx; exact hx
      obtain ⟨cr2, h2, h3⟩ := hmem x hxold
      exact ⟨cr2, (if_neg hxc).trans h2, h3⟩
  · intro a cr2 ha hsz2
    dsimp only at ha
    by_cases hac : a = c
    · rw [hac, if_pos rfl] at ha
      injection ha with ha
      refine ⟨by rw [← ha]; exact hcnt', ?_⟩
      have hcin : c ∈ (if cr.freeCount = 0 then c :: parts else parts) := by
        by_cases hz : cr.freeCount = 0
        · rw [if_pos hz]; exact List.mem_cons_self c parts
        · rw [if_neg hz]; exact hiff.mpr (by omega)
      rw [hac]
      exact ⟨fun _ => by rw [← ha]; exact hpos, fun _ => hcin⟩
    · rw [if_neg hac] at ha
      obtain ⟨hc2, hiff2⟩ := hcells a cr2 ha hsz2
      refine ⟨hc2, ?_⟩
      by_cases hz : cr.freeCount = 0
      · rw [if_pos hz]
        exact ⟨fun h => hiff2.mp ((List.mem_cons.mp h).resolve_left hac),
               fun h => List.mem_cons_of_mem c (hiff2.mpr h)⟩
      · rw [if_neg hz]; exact hiff2

/-- Invariant step, returning a cell to the pool: erasing the cell from
    the partial list and dropping its record preserves the invariant. -/
theorem BinInvOn_remove (parts : List Nat) (info : Nat → Option CellRec)
    (bin c : Nat)
    (hInv : BinInvOn parts info bin) :
    BinInvOn (parts.erase c) (fun a => if a = c then none else info a) bin := by
  obtain ⟨hnd, hmem, hcells⟩ := hInv
  refine ⟨hnd.erase c, ?_, ?_⟩
  · intro x hx
    have hxc : x ≠ c := (hnd.mem_erase_iff.mp hx).1
    obtain ⟨cr2, h2, h3⟩ := hmem x (List.mem_of_mem_erase hx)
    exact ⟨cr2, (if_neg hxc).trans h2, h3⟩
  · intro a cr2 ha hsz2
    dsimp only at ha
    by_cases hac : a = c
    · rw [hac, if_pos rfl] at ha; exact Option.noConfusion ha
    · rw [if_neg hac] at ha
      obtain ⟨hc2, hiff2⟩ := hcells a cr2 ha hsz2
      refine ⟨hc2, ?_⟩
      rw [hnd.mem_erase_iff]
      exact ⟨fun h12 => hiff2.mp h12.2, fun h => ⟨hac, hiff2.mpr h⟩⟩

/-- Invariant step, recording a fresh cell: a previously untracked,
    unlinked cell recorded with a consistent count and linked exactly when
    blocks remain preserves the invariant. -/
theorem BinInvOn_fresh (parts : List Nat) (info : Nat → Option CellRec)
    (bin c : Nat) (cr' : CellRec)
    (hnone : info c = none) (hnotin : c ∉ parts)
    (hsz' : cr'.sizeClass = bin) (hcnt' : cr'.freeCount = cr'.freeList.length)
    (hInv : BinInvOn parts info bin) :
    BinInvOn (if 0 < cr'.freeCount then c :: parts else parts)
      (fun a => if a = c then some cr' else info a) bin := by
  obtain ⟨hnd, hmem, hcells⟩ := hInv
  refine ⟨?_, ?_, ?_⟩
  · by_cases hz : 0 < cr'.freeCount
    · rw [if_pos hz]; exact List.nodup_cons.mpr ⟨hnotin, hnd⟩
    · rw [if_neg hz]; exact hnd
  · intro x hx
    by_cases hxc : x = c
    · subst hxc; exact ⟨cr', if_pos rfl, hsz'⟩
    · have hxold : x ∈ parts := by
        by_cases hz : 0 < cr'.freeCount
        · rw [if_pos hz] at hx; exact (List.mem_cons.mp hx).resolve_left hxc
        · rw [if_neg hz] at hx; exact hx
      obtain ⟨cr2, h2, h3⟩ := hmem x hxold
      exact ⟨cr2, (if_neg hxc).trans h2, h3⟩
  · intro a cr2 ha hsz2
    dsimp only at ha
    by_cases hac : a = c
    · rw [hac, if_pos rfl] at ha
      injection ha with ha
      refine ⟨by rw [← ha]; exact hcnt', ?_⟩
      rw [hac]
      by_cases hz : 0 < cr'.freeCount
      · rw [if_pos hz]
        exact ⟨fun _ => by rw [← ha]; exact hz, fun _ => List.mem_cons_self c parts⟩
      · rw [if_neg hz]
        exact ⟨fun hm => absurd hm hnotin, fun hp => absurd (by rw [ha]; exact hp) hz⟩
    · rw [if_neg hac] at ha
      obtain ⟨hc2, hiff2⟩ := hcells a cr2 ha hsz2
      refine ⟨hc2, ?_⟩
      by_cases hz : 0 < cr'.freeCount
      · rw [if_pos hz]
        exact ⟨fun h => hiff2.mp ((List.mem_cons.mp h).resolve_left hac),
               fun h => List.mem_cons_of_mem c (hiff2.mpr h)⟩
      · rw [if_neg hz]; exact hiff2

/-- The refill loop never records a new cell: an untracked cell stays
    untracked. -/
theorem refillLoop_none : ∀ fuel (ctx : Context) (bin r c0 : Nat),
    ctx.cellInfo c0 = none →
    (refillLoop fuel ctx bin r).1.cellInfo c0 = none := by
  intro fuel
  induction fuel with
  | zero => intro ctx bin r c0 h0; exact h0
  | succ n ih =>
    intro ctx bin r c0 h0
    simp only [refillLoop]
    by_cases hcond : r = 0 ∨ kTlsBinCacheCapacity ≤ (ctx.tlsBin bin).length
    · rw [if_pos hcond]; exact h0
    · rw [if_neg hcond]
      cases hp : (ctx.bins bin).partials with
      | nil => exact h0
      | cons c restParts =>
        dsimp only
        cases hc : ctx.cellInfo c with
        | none => exact h0
        | some cr =>
          dsimp only
          cases hD : drain r cr.freeList (ctx.tlsBin bin) with
          | mk fl' rest2 =>
            obtain ⟨cache', r'⟩ := rest2
            dsimp only
            have hne : c0 ≠ c := by
              intro he
              rw [he, hc] at h0
              exact Option.noConfusion h0
            exact ih _ _ _ _ ((if_neg hne).trans h0)

/-- The refill loop only ever unlinks cells: the final partial list is
    contained in the original one. -/
theorem refillLoop_partials_sub : ∀ fuel (ctx : Context) (bin r c0 : Nat),
    c0 ∈ ((refillLoop fuel ctx bin r).1.bins bin).partials →
    c0 ∈ (ctx.bins bin).partials := by
  intro fuel
  induction fuel with
  | zero => intro ctx bin r c0 h0; exact h0
  | succ n ih =>
    intro ctx bin r c0 h0
    simp only [refillLoop] at h0
    by_cases hcond : r = 0 ∨ kTlsBinCacheCapacity ≤ (ctx.tlsBin bin).length
    · rw [if_pos hcond] at h0; exact h0
    · rw [if_neg hcond] at h0
      cases hp : (ctx.bins bin).partials with
      | nil => rw [hp] at h0; dsimp only at h0; exact hp ▸ h0
      | cons c restParts =>
        rw [hp] at h0
        dsimp only at h0
        cases hc : ctx.cellInfo c with
        | none => rw [hc] at h0; dsimp only at h0; exact hp ▸ h0
        | some cr =>
          rw [hc] at h0
          dsimp only at h0
          cases hD : drain r cr.freeList (ctx.tlsBin bin) with
          | mk fl' rest2 =>
            obtain ⟨cache', r'⟩ := rest2
            rw [hD] at h0
            dsimp only at h0
            have hG : ∀ C : Context,
                C.bins bin = {
                  partials := if cr.freeCount - (r - r') = 0 then restParts
                      else c :: restParts,
                  warmCellCount := (ctx.bins bin).warmCellCount,
                  totalAllocated := (ctx.bins bin).totalAllocated + (r - r'),
                  currentAllocated := (ctx.bins bin).currentAllocated + (r - r') } →
                c0 ∈ ((refillLoop n C bin r').1.bins bin).partials →
                c0 ∈ (c :: restParts) := by
              intro C hCb hm0
              have h1 := ih C bin r' c0 hm0
              rw [hCb] at h1
              dsimp only at h1
              by_cases hz : cr.freeCount - (r - r') = 0
              · rw [if_pos hz] at h1
                exact List.mem_cons_of_mem c h1
              · rw [if_neg hz] at h1
                exact h1
            exact hp ▸ hG _ (if_pos rfl) h0

/-- The refill loop preserves the sub-cell invariant of its bin. -/
theorem refillLoop_inv : ∀ fuel (ctx : Context) (bin r : Nat),
    BinInv ctx bin → BinInv (refillLoop fuel ctx bin r).1 bin := by
  intro fuel
  induction fuel with
  | zero => intro ctx bin r hInv; exact hInv
  | succ n ih =>
    intro ctx bin r hInv
    simp only [refillLoop]
    by_cases hcond : r = 0 ∨ kTlsBinCacheCapacity ≤ (ctx.tlsBin bin).length
    · rw [if_pos hcond]; exact hInv
    · rw [if_neg hcond]
      cases hp : (ctx.bins bin).partials with
      | nil => exact hInv
      | cons c restParts =>
        dsimp only
        cases hc : ctx.cellInfo c with
        | none => exact hInv
        | some cr =>
          dsimp only
          cases hD : drain r cr.freeList (ctx.tlsBin bin) with
          | mk fl' rest2 =>
            obtain ⟨cache', r'⟩ := rest2
            dsimp only
            have hcmem : c ∈ (ctx.bins bin).partials := by
              rw [hp]; exact List.mem_cons_self c restParts
            obtain ⟨cr0, hcr0, hsz0⟩ := hInv.2.1 c hcmem
            rw [hc] at hcr0
            injection hcr0 with hcr0
            have hsz : cr.sizeClass = bin := by rw [hcr0]; exact hsz0
            obtain ⟨hcount, -⟩ := hInv.2.2 c cr hc hsz
            obtain ⟨hr'le, hflen, -⟩ :=
              drain_spec r cr.freeList (ctx.tlsBin bin) fl' cache' r' hD
            have hInv' : BinInvOn (c :: restParts) ctx.cellInfo bin := by
              rw [← hp]; exact hInv
            have hG : ∀ C : Context,
                C.bins bin = {
                  partials := if cr.freeCount - (r - r') = 0 then restParts
                      else c :: restParts,
                  warmCellCount := (ctx.bins bin).warmCellCount,
                  totalAllocated := (ctx.bins bin).totalAllocated + (r - r'),
                  currentAllocated := (ctx.bins bin).currentAllocated + (r - r') } →
                C.cellInfo = (fun a => if a = c then
                    some { cr with freeList := fl',
                                   freeCount := cr.freeCount - (r - r') }
                  else ctx.cellInfo a) →
                BinInv (refillLoop n C bin r').1 bin := by
              intro C hCb hCi
              apply ih
              show BinInvOn (C.bins bin).partials C.cellInfo bin
              rw [hCb, hCi]
              dsimp only
              exact BinInvOn_update (c :: restParts) restParts ctx.cellInfo
                bin c { cr with freeList := fl',
                                freeCount := cr.freeCount - (r - r') }
                rfl hsz (by show cr.freeCount - (r - r') = fl'.length; omega)
                hInv'
            exact hG _ (if_pos rfl) rfl

/-- `batch_refill_tls_bin` preserves the sub-cell invariant of its bin:
    the refill loop preserves it, and a fresh cell is recorded with a full
    count accounting and linked exactly when blocks remain. -/
theorem batch_refill_inv (ctx : Context) (bin tag : Nat)
    (hInv : BinInv ctx bin) (hFresh : FreshPool ctx bin) :
    BinInv (batch_refill_tls_bin ctx bin tag) bin := by
  have hIR := refillLoop_inv ((ctx.bins bin).partials.length + 1) ctx bin
    kTlsBinBatchRefill hInv
  have hPR := (refillLoop_frame ((ctx.bins bin).partials.length + 1) ctx bin
    kTlsBinBatchRefill).1
  unfold batch_refill_tls_bin
  cases hR : refillLoop ((ctx.bins bin).partials.length + 1) ctx bin kTlsBinBatchRefill with
  | mk ctx₁ r =>
    rw [hR] at hIR hPR
    dsimp only at hIR hPR ⊢
    by_cases hcond : 0 < r ∧ (ctx₁.tlsBin bin).length < kTlsBinCacheCapacity
    · rw [if_pos hcond]
      cases hA : Allocator.alloc ctx₁.pool with
      | mk p' res =>
        cases res with
        | none => exact hIR
        | some off =>
          dsimp only
          have hA0 : Allocator.alloc ctx.pool = (p', some off) := by
            rw [← hPR]; exact hA
          obtain ⟨hfnone, hfnotin⟩ := hFresh p' off hA0
          have hnone1 : ctx₁.cellInfo (kCellRegionBase + off) = none := by
            have hx := refillLoop_none ((ctx.bins bin).partials.length + 1) ctx bin
              kTlsBinBatchRefill (kCellRegionBase + off) hfnone
            rw [hR] at hx
            exact hx
          have hnotin1 : kCellRegionBase + off ∉ (ctx₁.bins bin).partials := by
            intro hmem
            exact hfnotin (refillLoop_partials_sub
              ((ctx.bins bin).partials.length + 1) ctx bin kTlsBinBatchRefill
              (kCellRegionBase + off) (by rw [hR]; exact hmem))
          cases hD : drain r (mkFreeList (kCellRegionBase + off) bin) (ctx₁.tlsBin bin) with
          | mk fl' rest2 =>
            obtain ⟨cache', r'⟩ := rest2
            dsimp only
            obtain ⟨hr'le, hflen, -⟩ := drain_spec r
              (mkFreeList (kCellRegionBase + off) bin) (ctx₁.tlsBin bin) fl' cache' r' hD
            rw [mkFreeList_length] at hflen
            have hG : ∀ C : Context,
                C.bins bin = {
                  partials := if 0 < blocks_per_cell bin - (r - r')
                      then (kCellRegionBase + off) :: (ctx₁.bins bin).partials
                      else (ctx₁.bins bin).partials,
                  warmCellCount := (ctx₁.bins bin).warmCellCount,
                  totalAllocated := (ctx₁.bins bin).totalAllocated + (r - r'),
                  currentAllocated := (ctx₁.bins bin).currentAllocated + (r - r') } →
                C.cellInfo = (fun a => if a = kCellRegionBase + off
                    then some ⟨tag, bin, blocks_per_cell bin - (r - r'), fl'⟩
                    else ctx₁.cellInfo a) →
                BinInv C bin := by
              intro C hCb hCi
              show BinInvOn (C.bins bin).partials C.cellInfo bin
              rw [hCb, hCi]
              dsimp only
              exact BinInvOn_fresh (ctx₁.bins bin).partials ctx₁.cellInfo bin
                (kCellRegionBase + off) ⟨tag, bin, blocks_per_cell bin - (r - r'), fl'⟩
                hnone1 hnotin1 rfl
                (by show blocks_per_cell bin - (r - r') = fl'.length; omega)
                hIR
            exact hG _ (if_pos rfl) rfl
    · rw [if_neg hcond]
      exact hIR

/-- The lock-based bin path preserves the sub-cell invariant of its bin:
    popping the head partial keeps the accounting, and a fresh cell is
    recorded and linked consistently. -/
theorem allocFromBinGlobal_inv (ctx : Context) (bin tag : Nat)
    (hInv : BinInv ctx bin)
    (hFresh : ∀ p' off, Allocator.alloc ctx.pool = (p', some off) →
      ctx.cellInfo (kCellRegionBase + off) = none ∧
      kCellRegionBase + off ∉ (ctx.bins bin).partials) :
    BinInv (allocFromBinGlobal ctx bin tag).1 bin := by
  unfold allocFromBinGlobal
  cases hp : (ctx.bins bin).partials with
  | cons c restParts =>
    dsimp only
    cases hc : ctx.cellInfo c with
    | none => exact hInv
    | some cr =>
      dsimp only
      cases hl : cr.freeList with
      | nil => exact hInv
      | cons blk rest =>
        dsimp only
        have hcmem : c ∈ (ctx.bins bin).partials := by
          rw [hp]; exact List.mem_cons_self c restParts
        obtain ⟨cr0, hcr0, hsz0⟩ := hInv.2.1 c hcmem
        rw [hc] at hcr0
        injection hcr0 with hcr0
        have hsz : cr.sizeClass = bin := by rw [hcr0]; exact hsz0
        obtain ⟨hcount, -⟩ := hInv.2.2 c cr hc hsz
        have hG : ∀ C : Context,
            C.bins bin = {
              partials := if cr.freeCount - 1 = 0 then restParts
                  else (ctx.bins bin).partials,
              warmCellCount := (ctx.bins bin).warmCellCount,
              totalAllocated := (ctx.bins bin).totalAllocated + 1,
              currentAllocated := (ctx.bins bin).currentAllocated + 1 } →
            C.cellInfo = (fun a => if a = c then
                some { cr with freeList := rest, freeCount := cr.freeCount - 1 }
              else ctx.cellInfo a) →
            BinInv C bin := by
          intro C hCb hCi
          show BinInvOn (C.bins bin).partials C.cellInfo bin
          rw [hCb, hCi]
          dsimp only
          refine BinInvOn_update (ctx.bins bin).partials restParts ctx.cellInfo bin c
            { cr with freeList := rest, freeCount := cr.freeCount - 1 }
            hp hsz ?_ hInv
          show cr.freeCount - 1 = rest.length
          rw [hl] at hcount
          simp only [List.length_cons] at hcount
          omega
        exact hG _ (if_pos rfl) rfl
  | nil =>
    cases hA : Allocator.alloc ctx.pool with
    | mk p' res =>
      dsimp only
      cases res with
      | none => exact hInv
      | some off =>
        dsimp only
        obtain ⟨hfnone, hfnotin⟩ := hFresh p' off hA
        cases hm : mkFreeList (kCellRegionBase + off) bin with
        | nil => exact hInv
        | cons blk rest =>
          dsimp only
          have hlen : blocks_per_cell bin = rest.length + 1 := by
            have hx := mkFreeList_length (kCellRegionBase + off) bin
            rw [hm] at hx
            simp only [List.length_cons] at hx
            omega
          have hG : ∀ C : Context,
              C.bins bin = {
                partials := if 0 < blocks_per_cell bin - 1
                    then (kCellRegionBase + off) :: (ctx.bins bin).partials
                    else (ctx.bins bin).partials,
                warmCellCount := (ctx.bins bin).warmCellCount,
                totalAllocated := (ctx.bins bin).totalAllocated + 1,
                currentAllocated := (ctx.bins bin).currentAllocated + 1 } →
              C.cellInfo = (fun a => if a = kCellRegionBase + off
                  then some ⟨tag, bin, blocks_per_cell bin - 1, rest⟩
                  else ctx.cellInfo a) →
              BinInv C bin := by
            intro C hCb hCi
            show BinInvOn (C.bins bin).partials C.cellInfo bin
            rw [hCb, hCi]
            dsimp only
            exact BinInvOn_fresh (ctx.bins bin).partials ctx.cellInfo bin
              (kCellRegionBase + off) ⟨tag, bin, blocks_per_cell bin - 1, rest⟩
              hfnone (by rw [hp]; exact List.not_mem_nil _) rfl
              (by show blocks_per_cell bin - 1 = rest.length; omega)
              hInv
          exact hG _ (if_pos rfl) rfl

/-- `alloc_from_bin` preserves the sub-cell invariant of its bin. -/
theorem alloc_from_bin_inv (ctx : Context) (bin tag : Nat)
    (hInv : BinInv ctx bin) (hbin : bin < kNumSizeBins) (hFresh : FreshPool ctx bin) :
    BinInv (alloc_from_bin ctx bin tag).1 bin := by
  unfold alloc_from_bin
  by_cases hhot : bin < kTlsBinCacheCount
  · rw [if_pos hhot]
    cases ht : ctx.tlsBin bin with
    | cons blk rest => exact hInv
    | nil =>
      dsimp only
      have hIB : BinInv (batch_refill_tls_bin ctx bin tag) bin :=
        batch_refill_inv ctx bin tag hInv hFresh
      cases ht2 : (batch_refill_tls_bin ctx bin tag).tlsBin bin with
      | cons blk rest => exact hIB
      | nil =>
        have hlive : ∀ c cr, c ∈ (ctx.bins bin).partials →
            ctx.cellInfo c = some cr → cr.freeList ≠ [] := by
          intro c cr hcm hcc
          obtain ⟨cr0, hcr0, hsz0⟩ := hInv.2.1 c hcm
          rw [hcc] at hcr0
          injection hcr0 with hcr0
          have hsz : cr.sizeClass = bin := by rw [hcr0]; exact hsz0
          obtain ⟨hcount, hiff⟩ := hInv.2.2 c cr hcc hsz
          have hpos := hiff.mp hcm
          intro hnil
          rw [hnil] at hcount
          simp only [List.length_nil] at hcount
          omega
        have hnoop := batch_refill_noop ctx bin tag hlive hbin ht2
        rw [hnoop]
        exact allocFromBinGlobal_inv ctx bin tag hInv hFresh
  · rw [if_neg hhot]
    exact allocFromBinGlobal_inv ctx bin tag hInv hFresh

/-- `free_to_bin` preserves the sub-cell invariant of the freed block's
    bin: the TLS fast path touches nothing, a refill relinks the cell when
    it was full, a fully-freed cell is either retained warm (linked, full
    count) or returned to the pool and dropped from the list. -/
theorem free_to_bin_inv (ctx : Context) (ptr : Nat) (cr : CellRec)
    (hc : ctx.cellInfo (get_header ptr) = some cr)
    (hInv : BinInv ctx cr.sizeClass) :
    BinInv (free_to_bin ctx ptr) cr.sizeClass := by
  unfold free_to_bin
  dsimp only
  rw [hc]
  dsimp only
  by_cases htls : cr.sizeClass < kTlsBinCacheCount ∧
      (ctx.tlsBin cr.sizeClass).length < kTlsBinCacheCapacity
  · rw [if_pos htls]
    exact hInv
  · rw [if_neg htls]
    by_cases hfull : cr.freeCount + 1 = blocks_per_cell cr.sizeClass
    · rw [if_pos hfull]
      by_cases hwarm : (ctx.bins cr.sizeClass).warmCellCount < kWarmCellsPerBin
      · rw [if_pos hwarm]
        have hG : ∀ C : Context,
            C.bins cr.sizeClass = {
              partials := if cr.freeCount = 0
                  then get_header ptr :: (ctx.bins cr.sizeClass).partials
                  else (ctx.bins cr.sizeClass).partials,
              warmCellCount := (ctx.bins cr.sizeClass).warmCellCount + 1,
              totalAllocated := (ctx.bins cr.sizeClass).totalAllocated,
              currentAllocated := (ctx.bins cr.sizeClass).currentAllocated - 1 } →
            C.cellInfo = (fun a => if a = get_header ptr
                then some { cr with freeCount := cr.freeCount + 1,
                                    freeList := ptr :: cr.freeList }
                else ctx.cellInfo a) →
            BinInv C cr.sizeClass := by
          intro C hCb hCi
          show BinInvOn (C.bins cr.sizeClass).partials C.cellInfo cr.sizeClass
          rw [hCb, hCi]
          dsimp only
          refine BinInvOn_relink (ctx.bins cr.sizeClass).partials ctx.cellInfo
            cr.sizeClass (get_header ptr) cr
            { cr with freeCount := cr.freeCount + 1, freeList := ptr :: cr.freeList }
            hc rfl rfl ?_ ?_ hInv
          · show cr.freeCount + 1 = (ptr :: cr.freeList).length
            obtain ⟨hcount, -⟩ := hInv.2.2 (get_header ptr) cr hc rfl
            simp only [List.length_cons]
            omega
          · show 0 < cr.freeCount + 1
            omega
        exact hG _ (if_pos rfl) rfl
      · rw [if_neg hwarm]
        have hG : ∀ C : Context,
            C.bins cr.sizeClass = {
              partials := (ctx.bins cr.sizeClass).partials.erase (get_header ptr),
              warmCellCount := (ctx.bins cr.sizeClass).warmCellCount,
              totalAllocated := (ctx.bins cr.sizeClass).totalAllocated,
              currentAllocated := (ctx.bins cr.sizeClass).currentAllocated - 1 } →
            C.cellInfo = (fun a => if a = get_header ptr then none
              else ctx.cellInfo a) →
            BinInv C cr.sizeClass := by
          intro C hCb hCi
          show BinInvOn (C.bins cr.sizeClass).partials C.cellInfo cr.sizeClass
          rw [hCb, hCi]
          dsimp only
          exact BinInvOn_remove (ctx.bins cr.sizeClass).partials ctx.cellInfo
            cr.sizeClass (get_header ptr) hInv
        exact hG _ (if_pos rfl) rfl
    · rw [if_neg hfull]
      have hG : ∀ C : Context,
          C.bins cr.sizeClass = {
            partials := if cr.freeCount = 0
                then get_header ptr :: (ctx.bins cr.sizeClass).partials
                else (ctx.bins cr.sizeClass).partials,
            warmCellCount := (ctx.bins cr.sizeClass).warmCellCount,
            totalAllocated := (ctx.bins cr.sizeClass).totalAllocated,
            currentAllocated := (ctx.bins cr.sizeClass).currentAllocated - 1 } →
          C.cellInfo = (fun a => if a = get_header ptr
              then some { cr with freeCount := cr.freeCount + 1,
                                  freeList := ptr :: cr.freeList }
              else ctx.cellInfo a) →
          BinInv C cr.sizeClass := by
        intro C hCb hCi
        show BinInvOn (C.bins cr.sizeClass).partials C.cellInfo cr.sizeClass
        rw [hCb, hCi]
        dsimp only
        refine BinInvOn_relink (ctx.bins cr.sizeClass).partials ctx.cellInfo
          cr.sizeClass (get_header ptr) cr
          { cr with freeCount := cr.freeCount + 1, freeList := ptr :: cr.freeList }
          hc rfl rfl ?_ ?_ hInv
        · show cr.freeCount + 1 = (ptr :: cr.freeList).length
          obtain ⟨hcount, -⟩ := hInv.2.2 (get_header ptr) cr hc rfl
          simp only [List.length_cons]
          omega
        · show 0 < cr.freeCount + 1
          omega
      exact hG _ (if_pos rfl) rfl

/-- **C9.** The sub-cell invariant: cell initialization writes a header
    whose `free_count` equals the length of the free list it builds (one
    node per block); `alloc_from_bin` — TLS pop, batch refill and the
    lock-based global path alike — preserves the per-bin invariant that
    every recorded cell of the bin has `free_count` equal to its intrusive
    free list's length and is linked in the partial list exactly when
    `free_count > 0` (retained warm cells keep their positive count and
    stay linked; a fully-in-use cell is in no list), given a valid bin and
    a pool that hands out only untracked cells; and `free_to_bin`
    preserves the same invariant for the freed block's bin. -/
theorem claim_C9_subcell_invariant :
    (∀ (ctx : Context) (c bin tag : Nat),
      (init_cell_for_bin ctx c bin tag).cellInfo c =
        some ⟨tag, bin, blocks_per_cell bin, mkFreeList c bin⟩ ∧
      (mkFreeList c bin).length = blocks_per_cell bin) ∧
    (∀ (ctx : Context) (bin tag : Nat), BinInv ctx bin → bin < kNumSizeBins →
      FreshPool ctx bin → BinInv (alloc_from_bin ctx bin tag).1 bin) ∧
    (∀ (ctx : Context) (ptr : Nat) (cr : CellRec),
      ctx.cellInfo (get_header ptr) = some cr →
      BinInv ctx cr.sizeClass → BinInv (free_to_bin ctx ptr) cr.sizeClass) := by
  refine ⟨?_, ?_, ?_⟩
  · intro ctx c bin tag
    exact ⟨if_pos rfl, mkFreeList_length c bin⟩
  · intro ctx bin tag hInv hbin hFresh
    exact alloc_from_bin_inv ctx bin tag hInv hbin hFresh
  · intro ctx ptr cr hc hInv
    exact free_to_bin_inv ctx ptr cr hc hInv

end Context

end Cell
